import Mathlib

/-!
Verification development for the markdown-aware translation engine of
`scripts/translate-docs.py`.

Strings are modelled as `List Char` (`Str`).  Python regular-expression
substitutions are modelled by explicit left-to-right scanners that mirror
the `re.sub` semantics (leftmost match, continue after the match, retry at
the next character on failure).  Python's `\s` and `str.strip()` are
modelled over the ASCII whitespace characters (the documents and all
claims involve only those), and `\d` over the ASCII digits (the engine
itself only ever produces ASCII-digit placeholders).
-/

namespace TransDocs

abbrev Str := List Char

/-- Placeholder opening delimiter, `PH_PREFIX = "⟨"` (`⟨`). -/
def phPre : Char := Char.ofNat 10216

/-- Placeholder closing delimiter, `PH_SUFFIX = "⟩"` (`⟩`). -/
def phSuf : Char := Char.ofNat 10217

/-- The backtick character (ASCII 96). -/
def btick : Char := Char.ofNat 96

/-- Python `\s` over ASCII: space, tab, newline, carriage return, VT, FF. -/
def isWsPy (c : Char) : Bool :=
  c = ' ' || c = '\t' || c = '\n' || c = '\r' || c = Char.ofNat 11 || c = Char.ofNat 12

def isDigitChar (c : Char) : Bool := '0' ≤ c && c ≤ '9'

/-- Python `str.strip()` (ASCII whitespace model). -/
def pyStrip (s : Str) : Str :=
  ((s.dropWhile isWsPy).reverse.dropWhile isWsPy).reverse

def digitChar (n : Nat) : Char := Char.ofNat (48 + n)

/-- Decimal digits of a natural number (fuel-driven so that it is
kernel-reducible); mirrors Python's `str(idx)` for the placeholder index. -/
def natDigitsAux : Nat → Nat → Str
  | 0, _ => []
  | f + 1, n => if n < 10 then [digitChar n] else natDigitsAux f (n / 10) ++ [digitChar (n % 10)]

def natDigits (n : Nat) : Str := natDigitsAux (n + 1) n

/-- `make_placeholder(idx)`: `f"{PH_PREFIX}{idx}{PH_SUFFIX}"`. -/
def make_placeholder (n : Nat) : Str := phPre :: natDigits n ++ [phSuf]

/-- Decimal value of a digit string (decoder used to prove `natDigits`
injective). -/
def digitsVal (l : Str) : Nat := l.foldl (fun acc c => 10 * acc + (c.toNat - 48)) 0

/-- One placeholder-map entry: (placeholder token, original content).
The Python dict is insertion-ordered, so a list of pairs is the faithful model. -/
abbrev Entry := Str × Str

/-! ### Regex matchers

Each matcher recognises a match of the corresponding compiled pattern at the
start of the string and returns the parsed pieces together with the rest of
the input.  Failure (`none`) corresponds to the regex engine failing at this
position and retrying one character later. -/

/-- Matcher for `RE_LINK_FULL = \[([^\]]*)\]\(([^)]+)\)` at the head of the
input: returns `(display, url, rest)`. -/
def matchLink : Str → Option (Str × Str × Str)
  | '[' :: s =>
    let d := s.takeWhile (fun c => c ≠ ']')
    let s1 := s.drop d.length
    if s1.take 2 = [']', '('] then
      let s2 := s1.drop 2
      let u := s2.takeWhile (fun c => c ≠ ')')
      if u.isEmpty then none
      else if (s2.drop u.length).take 1 = [')'] then
        some (d, u, (s2.drop u.length).drop 1)
      else none
    else none
  | _ => none

/-- Matcher for `RE_BOLD_LINK = \*\*\[([^\]]*)\]\(([^)]+)\)\*\*` at the head:
returns `(display, url, rest)`. -/
def matchBoldLink : Str → Option (Str × Str × Str)
  | '*' :: '*' :: s =>
    match matchLink s with
    | some (d, u, rest) =>
      if rest.take 2 = ['*', '*'] then some (d, u, rest.drop 2) else none
    | none => none
  | _ => none

/-- Matcher for `RE_INLINE_CODE` (backtick, one or more non-backticks,
backtick) at the head: returns `(inner, rest)`. -/
def matchCode : Str → Option (Str × Str)
  | c :: s =>
    if c = btick then
      let inner := s.takeWhile (fun x => x ≠ btick)
      if inner.isEmpty then none
      else if (s.drop inner.length).take 1 = [btick] then
        some (inner, (s.drop inner.length).drop 1)
      else none
    else none
  | [] => none

/-- Lazy search for the closing `**` of `RE_BOLD_TEXT = \*\*(.+?)\*\*`:
given the text after the opening marker, returns the shortest nonempty
`inner` (not containing a newline, since `.` does not match `\n`) followed
by `**`, together with the rest. -/
def boldClose : Str → Option (Str × Str)
  | [] => none
  | c :: s =>
    if c = '\n' then none
    else if s.take 2 = ['*', '*'] then some ([c], s.drop 2)
    else
      match boldClose s with
      | some (inner, rest) => some (c :: inner, rest)
      | none => none

/-- Matcher for `RE_BOLD_TEXT = \*\*(.+?)\*\*` at the head. -/
def matchBold : Str → Option (Str × Str)
  | '*' :: '*' :: s => boldClose s
  | _ => none

/-! ### `protect_inline_elements`

The four substitution passes, each a fuel-driven scanner threading the
placeholder counter and the insertion-ordered placeholder map. -/

def renderBoldLink (d u : Str) : Str :=
  '*' :: '*' :: '[' :: d ++ ']' :: '(' :: u ++ ')' :: '*' :: '*' :: []

/-- Pass 1: protect bold links wholesale (`RE_BOLD_LINK.sub`). -/
def pass1 : Nat → Nat → List Entry → Str → Str × Nat × List Entry
  | 0, k, m, s => (s, k, m)
  | _ + 1, k, m, [] => ([], k, m)
  | f + 1, k, m, c :: s =>
    match matchBoldLink (c :: s) with
    | some (d, u, rest) =>
      let tok := make_placeholder k
      let r := pass1 f (k + 1) (m ++ [(tok, renderBoldLink d u)]) rest
      (tok ++ r.1, r.2)
    | none =>
      let r := pass1 f k m s
      (c :: r.1, r.2)

/-- Pass 2: protect remaining links with paired placeholders
(`RE_LINK_FULL.sub`): `[text](url)` becomes `⟨N⟩text⟨M⟩` with
`⟨N⟩ ↦ "["` and `⟨M⟩ ↦ "](url)"`. -/
def pass2 : Nat → Nat → List Entry → Str → Str × Nat × List Entry
  | 0, k, m, s => (s, k, m)
  | _ + 1, k, m, [] => ([], k, m)
  | f + 1, k, m, c :: s =>
    match matchLink (c :: s) with
    | some (d, u, rest) =>
      let tokO := make_placeholder k
      let tokC := make_placeholder (k + 1)
      let m' := m ++ [(tokO, ['[']), (tokC, ']' :: '(' :: u ++ [')'])]
      let r := pass2 f (k + 2) m' rest
      (tokO ++ d ++ tokC ++ r.1, r.2)
    | none =>
      let r := pass2 f k m s
      (c :: r.1, r.2)

/-- Pass 3: protect inline code wholesale (`RE_INLINE_CODE.sub`), the stored
content including the backticks. -/
def pass3 : Nat → Nat → List Entry → Str → Str × Nat × List Entry
  | 0, k, m, s => (s, k, m)
  | _ + 1, k, m, [] => ([], k, m)
  | f + 1, k, m, c :: s =>
    match matchCode (c :: s) with
    | some (inner, rest) =>
      let tok := make_placeholder k
      let r := pass3 f (k + 1) (m ++ [(tok, btick :: inner ++ [btick])]) rest
      (tok ++ r.1, r.2)
    | none =>
      let r := pass3 f k m s
      (c :: r.1, r.2)

/-- Pass 4: protect bold markers with paired placeholders
(`RE_BOLD_TEXT.sub`): `**inner**` becomes `⟨N⟩inner⟨M⟩` with both
placeholders mapping to `"**"`. -/
def pass4 : Nat → Nat → List Entry → Str → Str × Nat × List Entry
  | 0, k, m, s => (s, k, m)
  | _ + 1, k, m, [] => ([], k, m)
  | f + 1, k, m, c :: s =>
    match matchBold (c :: s) with
    | some (inner, rest) =>
      let tokO := make_placeholder k
      let tokC := make_placeholder (k + 1)
      let m' := m ++ [(tokO, ['*', '*']), (tokC, ['*', '*'])]
      let r := pass4 f (k + 2) m' rest
      (tokO ++ inner ++ tokC ++ r.1, r.2)
    | none =>
      let r := pass4 f k m s
      (c :: r.1, r.2)

/-- `protect_inline_elements(text)`: the four passes in order, counter
starting at 0, returning the protected text and the placeholder map. -/
def protect_inline_elements (t : Str) : Str × List Entry :=
  let r1 := pass1 t.length 0 [] t
  let r2 := pass2 r1.1.length r1.2.1 r1.2.2 r1.1
  let r3 := pass3 r2.1.length r2.2.1 r2.2.2 r2.1
  let r4 := pass4 r3.1.length r3.2.1 r3.2.2 r3.1
  (r4.1, r4.2.2)

/-! ### `restore_placeholders` -/

/-- Python `str.replace(p, r)` for a nonempty pattern: replace every
(non-overlapping, left-to-right) occurrence. -/
def replaceAll (p r : Str) : Nat → Str → Str
  | 0, s => s
  | _ + 1, [] => []
  | f + 1, c :: s =>
    if p.isPrefixOf (c :: s) then r ++ replaceAll p r f ((c :: s).drop p.length)
    else c :: replaceAll p r f s

/-- `replaceAll` at its canonical fuel (the length of the input), as the
restoration fold invokes it. -/
def replaceAllL (p r s : Str) : Str := replaceAll p r s.length s

/-- Stable insertion by descending key length: `e` is placed before the
first entry whose key is not longer, so equal-length keys keep their
original (insertion) order — the ordering produced by Python's stable
`sorted(items, key=lambda x: -len(x[0]))`. -/
def insertByLen (e : Entry) : List Entry → List Entry
  | [] => [e]
  | x :: xs => if x.1.length ≤ e.1.length then e :: x :: xs else x :: insertByLen e xs

def sortByLenDesc : List Entry → List Entry
  | [] => []
  | x :: xs => insertByLen x (sortByLenDesc xs)

/-- Match a placeholder-shaped token (`PH_PREFIX \d+ PH_SUFFIX`) at the head,
returning the token string and the rest. -/
def matchTok : Str → Option (Str × Str)
  | c :: s =>
    if c = phPre then
      let ds := s.takeWhile isDigitChar
      if ds.isEmpty then none
      else
        match s.drop ds.length with
        | c2 :: rest => if c2 = phSuf then some (phPre :: ds ++ [phSuf], rest) else none
        | [] => none
    else none
  | [] => none

/-- The spurious-placeholder cleanup: every token-shaped substring that is a
key of the map is kept, every other one is deleted. -/
def cleanSpurious (known : List Str) : Nat → Str → Str
  | 0, s => s
  | _ + 1, [] => []
  | f + 1, c :: s =>
    match matchTok (c :: s) with
    | some (tok, rest) =>
      (if known.contains tok then tok else []) ++ cleanSpurious known f rest
    | none => c :: cleanSpurious known f s

/-- `re.sub(r",\s*,", ",", ·)`. -/
def commaSub1 : Nat → Str → Str
  | 0, s => s
  | _ + 1, [] => []
  | f + 1, c :: s =>
    if c = ',' then
      let ws := s.takeWhile isWsPy
      match s.drop ws.length with
      | ',' :: rest => ',' :: commaSub1 f rest
      | _ => c :: commaSub1 f s
    else c :: commaSub1 f s

/-- `re.sub(r",\s*\)", ")", ·)`. -/
def commaSub2 : Nat → Str → Str
  | 0, s => s
  | _ + 1, [] => []
  | f + 1, c :: s =>
    if c = ',' then
      let ws := s.takeWhile isWsPy
      match s.drop ws.length with
      | ')' :: rest => ')' :: commaSub2 f rest
      | _ => c :: commaSub2 f s
    else c :: commaSub2 f s

/-- `restore_placeholders(text, placeholders)`: substitute the stored
content for every placeholder, longest token first (stable), then delete
spurious tokens and clean up doubled/dangling punctuation. -/
def restore_placeholders (t : Str) (m : List Entry) : Str :=
  let r1 := (sortByLenDesc m).foldl (fun acc e => replaceAllL e.1 e.2 acc) t
  let r2 := cleanSpurious (m.map (·.1)) r1.length r1
  let r3 := commaSub1 r2.length r2
  commaSub2 r3.length r3

/-! ### A grammar of protectable texts (for the round-trip claim)

`MItem` is a symbolic item of a markdown text: a plain prose run, an
inline code span, a link, a bold span, a bold-wrapped link — or a
placeholder token, which never occurs in a source text but appears in the
intermediate stages of the four protection passes.  `renderDoc` spells a
list of items out as text. -/

inductive MItem where
  | plain (s : Str)
  | tok (n : Nat)
  | code (s : Str)
  | link (d u : Str)
  | bold (s : Str)
  | blink (d u : Str)
deriving DecidableEq, Repr

def renderItem : MItem → Str
  | .plain s => s
  | .tok n => make_placeholder n
  | .code s => btick :: s ++ [btick]
  | .link d u => '[' :: d ++ ']' :: '(' :: u ++ ')' :: []
  | .bold s => '*' :: '*' :: s ++ '*' :: '*' :: []
  | .blink d u => renderBoldLink d u

def renderDoc : List MItem → Str
  | [] => []
  | it :: rest => renderItem it ++ renderDoc rest

/-- The character alphabet of plain prose runs in the grammar: anything
except the bold marker, the link opener, the backtick and the placeholder
delimiters. -/
def plainChar (c : Char) : Bool :=
  !(c = '*' || c = '[' || c = btick || c = phPre || c = phSuf)

/-- Well-formedness of one source item: nonempty plain runs over the plain
alphabet; nonempty code spans over the plain alphabet; links and bold
links with a `]`-free display text and a nonempty `)`-free url; nonempty
newline-free bold spans; no placeholder tokens. -/
def wfItem : MItem → Bool
  | .plain s => !s.isEmpty && s.all plainChar
  | .tok _ => false
  | .code s => !s.isEmpty && s.all plainChar
  | .link d u =>
    d.all (fun c => plainChar c && c ≠ ']') && !u.isEmpty &&
      u.all (fun c => plainChar c && c ≠ ')')
  | .bold s => !s.isEmpty && s.all (fun c => plainChar c && c ≠ '\n')
  | .blink d u =>
    d.all (fun c => plainChar c && c ≠ ']') && !u.isEmpty &&
      u.all (fun c => plainChar c && c ≠ ')')

/-- The one adjacency the bold-link pass cannot tolerate: a bold span
immediately followed by a link (`**a**[d](u)**…` would let the bold-link
regex match across the items). -/
def wfAdj : List MItem → Bool
  | [] => true
  | [_] => true
  | a :: b :: rest =>
    (match a, b with
     | .bold _, .link _ _ => false
     | _, _ => true) && wfAdj (b :: rest)

def wfDoc (items : List MItem) : Bool := items.all wfItem && wfAdj items

/-- Head of an item list is not a link (the adjacency fact the bold-link
pass needs about what follows a bold span). -/
def headNotLink : List MItem → Bool
  | .link _ _ :: _ => false
  | _ => true

/-- Well-formedness after pass 1: bold links are gone; plain runs may still
be any plain-alphabet string. -/
def wf2Item : MItem → Bool
  | .plain s => s.all plainChar
  | .tok _ => true
  | .code s => !s.isEmpty && s.all plainChar
  | .link d u =>
    d.all (fun c => plainChar c && c ≠ ']') && !u.isEmpty &&
      u.all (fun c => plainChar c && c ≠ ')')
  | .bold s => !s.isEmpty && s.all (fun c => plainChar c && c ≠ '\n')
  | .blink _ _ => false

/-- Well-formedness after pass 2: links are gone as well. -/
def wf3Item : MItem → Bool
  | .plain s => s.all plainChar
  | .tok _ => true
  | .code s => !s.isEmpty && s.all plainChar
  | .bold s => !s.isEmpty && s.all (fun c => plainChar c && c ≠ '\n')
  | _ => false

/-- Well-formedness after pass 3: only plain runs, tokens and bold spans. -/
def wf4Item : MItem → Bool
  | .plain s => s.all plainChar
  | .tok _ => true
  | .bold s => !s.isEmpty && s.all (fun c => plainChar c && c ≠ '\n')
  | _ => false

/-- Well-formedness after pass 4: only plain runs and tokens survive. -/
def wf5Item : MItem → Bool
  | .plain s => s.all plainChar
  | .tok _ => true
  | _ => false

/-! Symbolic forms of the four protection passes: each transform rewrites
the item list the way the corresponding pass rewrites the rendered text,
threading the placeholder counter and collecting the new map entries. -/

def t1 : List MItem → Nat → List MItem × Nat × List Entry
  | [], k => ([], k, [])
  | .blink d u :: rest, k =>
    let r := t1 rest (k + 1)
    (.tok k :: r.1, r.2.1, (make_placeholder k, renderBoldLink d u) :: r.2.2)
  | it :: rest, k =>
    let r := t1 rest k
    (it :: r.1, r.2.1, r.2.2)

def t2 : List MItem → Nat → List MItem × Nat × List Entry
  | [], k => ([], k, [])
  | .link d u :: rest, k =>
    let r := t2 rest (k + 2)
    (.tok k :: .plain d :: .tok (k + 1) :: r.1, r.2.1,
      (make_placeholder k, ['[']) ::
        (make_placeholder (k + 1), ']' :: '(' :: u ++ [')']) :: r.2.2)
  | it :: rest, k =>
    let r := t2 rest k
    (it :: r.1, r.2.1, r.2.2)

def t3 : List MItem → Nat → List MItem × Nat × List Entry
  | [], k => ([], k, [])
  | .code s :: rest, k =>
    let r := t3 rest (k + 1)
    (.tok k :: r.1, r.2.1, (make_placeholder k, btick :: s ++ [btick]) :: r.2.2)
  | it :: rest, k =>
    let r := t3 rest k
    (it :: r.1, r.2.1, r.2.2)

def t4 : List MItem → Nat → List MItem × Nat × List Entry
  | [], k => ([], k, [])
  | .bold s :: rest, k =>
    let r := t4 rest (k + 2)
    (.tok k :: .plain s :: .tok (k + 1) :: r.1, r.2.1,
      (make_placeholder k, ['*', '*']) :: (make_placeholder (k + 1), ['*', '*']) :: r.2.2)
  | it :: rest, k =>
    let r := t4 rest k
    (it :: r.1, r.2.1, r.2.2)

/-- The symbolic protection of a whole document: the four transforms in
order, counter starting at 0, with the maps concatenated in insertion
order. -/
def protectDoc (items : List MItem) : List MItem × List Entry :=
  let r1 := t1 items 0
  let r2 := t2 r1.1 r1.2.1
  let r3 := t3 r2.1 r2.2.1
  let r4 := t4 r3.1 r3.2.1
  (r4.1, r1.2.2 ++ r2.2.2 ++ r3.2.2 ++ r4.2.2)

/-- Rendering with a partial resolution: a token whose placeholder string
has an entry in `E` renders as the stored content, any other item renders
as itself. -/
def renderP (E : List Entry) : List MItem → Str
  | [] => []
  | .tok n :: rest =>
    ((E.lookup (make_placeholder n)).getD (make_placeholder n)) ++ renderP E rest
  | it :: rest => renderItem it ++ renderP E rest

/-- A concrete well-formed document exercising every grammar production
(used to witness the round-trip theorem). -/
def sampleDoc : List MItem :=
  [MItem.bold (("hola").toList), MItem.plain ((" y ").toList),
    MItem.code (("x=1").toList), MItem.link (("doc").toList) (("a/b").toList),
    MItem.plain ((" fin").toList), MItem.blink (("z").toList) (("q").toList)]

/-! ### Line classification (`translate_markdown_file`, phase 1) -/

inductive LineType where
  | code
  | pass
  | transl
deriving DecidableEq, Repr

/-- `RE_TABLE_SEP = ^\|[-\s|:]+\|$` applied to the stripped line: a pipe,
one or more characters drawn from dash/whitespace/pipe/colon, and a pipe. -/
def tableSepLine (st : Str) : Bool :=
  st.length ≥ 3 && st.head? = some '|' && st.getLast? = some '|' &&
    (st.drop 1).dropLast.all (fun c => c = '-' || isWsPy c || c = '|' || c = ':')

/-- The character class of `RE_ASCII_ART`
(`[│├└┌┐┘┤┬┴┼─|+\-\\/><=*]`): box-drawing glyphs plus
`| + - \ / > < = *`. -/
def inArtSet (c : Char) : Bool :=
  c = '│' || c = '├' || c = '└' || c = '┌' || c = '┐' || c = '┘' || c = '┤' ||
  c = '┬' || c = '┴' || c = '┼' || c = '─' || c = '|' || c = '+' || c = '-' ||
  c = '\\' || c = '/' || c = '>' || c = '<' || c = '=' || c = '*'

/-- The character set of the density test
(`"│├└┌┐┘┤┬┴┼─|+\\/><="`): box-drawing glyphs plus `| + \ / > < =` —
unlike `inArtSet`, it contains neither `-` nor `*`. -/
def inRatioSet (c : Char) : Bool :=
  c = '│' || c = '├' || c = '└' || c = '┌' || c = '┐' || c = '┘' || c = '┤' ||
  c = '┬' || c = '┴' || c = '┼' || c = '─' || c = '|' || c = '+' ||
  c = '\\' || c = '/' || c = '>' || c = '<' || c = '='

/-- `RE_ASCII_ART.match(line)`: optional leading whitespace followed by at
least three characters from `inArtSet`. -/
def reAsciiArt (l : Str) : Bool :=
  ((l.dropWhile isWsPy).take 3).length = 3 && ((l.dropWhile isWsPy).take 3).all inArtSet

/-- `is_ascii_art_line(line)`.  The density comparison `special/len > 0.4`
is modelled exactly over the rationals as `5 * special > 2 * len` (the float
literal `0.4` and `2/5` agree on these comparisons for all feasible sizes). -/
def is_ascii_art_line (l : Str) : Bool :=
  let stripped := pyStrip l
  if stripped.isEmpty then false
  else if reAsciiArt l then true
  else 5 * (stripped.filter inRatioSet).length > 2 * stripped.length

/-- The fence test: the stripped line starts with three backticks. -/
def isFenceLine (l : Str) : Bool := [btick, btick, btick].isPrefixOf (pyStrip l)

/-- Phase 1 of `translate_markdown_file`: the in-code-block flag toggles on
fence lines; fence lines and lines inside the region are `code`; outside,
blank, table-separator and ASCII-art lines are `pass`; the rest `transl`. -/
def classifyAux : Bool → List Str → List LineType
  | _, [] => []
  | inCode, l :: ls =>
    let stripped := pyStrip l
    if isFenceLine l then LineType.code :: classifyAux (!inCode) ls
    else if inCode then LineType.code :: classifyAux inCode ls
    else if stripped.isEmpty then LineType.pass :: classifyAux inCode ls
    else if tableSepLine stripped then LineType.pass :: classifyAux inCode ls
    else if is_ascii_art_line l then LineType.pass :: classifyAux inCode ls
    else LineType.transl :: classifyAux inCode ls

def classifyLines (lines : List Str) : List LineType := classifyAux false lines

/-! ### Segment extraction (phase 2) -/

/-- `RE_HEADING = ^(#{1,6}\s+)`: returns (matched prefix, rest). -/
def matchHeading (t : Str) : Option (Str × Str) :=
  let hs := t.takeWhile (fun c => c = '#')
  if hs.length = 0 || hs.length > 6 then none
  else
    let r := t.drop hs.length
    let ws := r.takeWhile isWsPy
    if ws.isEmpty then none else some (hs ++ ws, r.drop ws.length)

/-- `RE_BLOCKQUOTE = ^(\s*>\s*)`. -/
def matchBlockquote (t : Str) : Option (Str × Str) :=
  let w1 := t.takeWhile isWsPy
  match t.drop w1.length with
  | '>' :: r =>
    let w2 := r.takeWhile isWsPy
    some (w1 ++ '>' :: w2, r.drop w2.length)
  | _ => none

/-- The list marker `^(\s*[-*+]\s+|\s*\d+\.\s+)` (left alternative first,
as in the regex; the two alternatives are disjoint on the marker). -/
def matchListMarker (t : Str) : Option (Str × Str) :=
  let w := t.takeWhile isWsPy
  match t.drop w.length with
  | m :: r =>
    if m = '-' || m = '*' || m = '+' then
      let w2 := r.takeWhile isWsPy
      if w2.isEmpty then none else some (w ++ m :: w2, r.drop w2.length)
    else
      let r0 := t.drop w.length
      let ds := r0.takeWhile isDigitChar
      if ds.isEmpty then none
      else
        match r0.drop ds.length with
        | '.' :: r2 =>
          let w2 := r2.takeWhile isWsPy
          if w2.isEmpty then none else some (w ++ ds ++ '.' :: w2, r2.drop w2.length)
        | _ => none
  | [] => none

/-- The structural-prefix stripping of phase 2: heading, then blockquote,
then list marker, concatenating whatever matched. -/
def extractPfx (line : Str) : Str × Str :=
  let s1 := match matchHeading line with
    | some (p, r) => (p, r)
    | none => (([] : Str), line)
  let s2 := match matchBlockquote s1.2 with
    | some (p, r) => (s1.1 ++ p, r)
    | none => s1
  match matchListMarker s2.2 with
  | some (p, r) => (s2.1 ++ p, r)
  | none => s2

/-- Python `str.split(sep)` for a single-character separator. -/
def splitOnChar (sep : Char) : Str → List Str
  | [] => [[]]
  | c :: s =>
    if c = sep then [] :: splitOnChar sep s
    else
      match splitOnChar sep s with
      | h :: t => (c :: h) :: t
      | [] => [[c]]

def splitPipe : Str → List Str := splitOnChar '|'

def splitNl : Str → List Str := splitOnChar '\n'

def joinNl (ls : List Str) : Str := List.intercalate ['\n'] ls

structure Cell where
  text : Str
  phs : List Entry
  translated : Option Str
deriving DecidableEq, Repr

inductive Seg where
  | text (idx : Nat) (pfx : Str) (ptext : Str) (phs : List Entry) (translated : Option Str)
  | row (idx : Nat) (pfx : Str) (cells : List Cell)
deriving DecidableEq, Repr

/-- Build the cell sub-segments of a table row: nonempty (stripped) cells
are protected, empty cells stay empty. -/
def mkCells (cells : List Str) : List Cell :=
  cells.map fun cell =>
    let sc := pyStrip cell
    if sc.isEmpty then ⟨[], [], none⟩
    else
      let p := protect_inline_elements sc
      ⟨p.1, p.2, none⟩

/-- The table-row test of phase 2: the stripped remaining text starts and
ends with a pipe. -/
def isTableRow (text : Str) : Bool :=
  (pyStrip text).head? = some '|' && (pyStrip text).getLast? = some '|'

/-- Phase 2: walk the lines with their classifications and extract the
text/table-row segments of the translatable lines. -/
def extractAux : Nat → List Str → List LineType → List Seg
  | _, [], _ => []
  | _, _ :: _, [] => []
  | i, l :: ls, ty :: tys =>
    (if ty = LineType.transl then
      let pr := extractPfx l
      if isTableRow pr.2 then [Seg.row i pr.1 (mkCells (splitPipe pr.2))]
      else if (pyStrip pr.2).isEmpty then []
      else
        let p := protect_inline_elements pr.2
        [Seg.text i pr.1 p.1 p.2 none]
    else []) ++ extractAux (i + 1) ls tys

/-- Phase 3: the ordered work list — every text segment's protected body and
every nonempty cell's protected text, in document order. -/
def segTexts : List Seg → List Str
  | [] => []
  | Seg.text _ _ pt _ _ :: rest => pt :: segTexts rest
  | Seg.row _ _ cells :: rest =>
    ((cells.filter (fun c => !c.text.isEmpty)).map (·.text)) ++ segTexts rest

/-! ### Phases 4–6: mapping translations back and reconstructing

Phase 5 of the source zips `text_indices` with `translated_texts` and writes
each returned string onto its originating segment or cell.  Since
`text_indices` enumerates the segments/nonempty cells in document order,
that zip is exactly positional consumption: the functions below hand each
segment (and each nonempty cell) the next result while any are left;
`zip` truncation drops surplus results and leaves later segments without a
`translated` value. -/

def assignCells : List Cell → List Str → List Cell × List Str
  | [], rs => ([], rs)
  | c :: cs, rs =>
    if c.text.isEmpty then
      let r := assignCells cs rs
      (c :: r.1, r.2)
    else
      match rs with
      | [] =>
        let r := assignCells cs []
        (c :: r.1, r.2)
      | t :: rs0 =>
        let r := assignCells cs rs0
        ({ c with translated := some t } :: r.1, r.2)

def assignSegs : List Seg → List Str → List Seg
  | [], _ => []
  | Seg.text i p pt m _ :: rest, [] => Seg.text i p pt m none :: assignSegs rest []
  | Seg.text i p pt m _ :: rest, t :: rs => Seg.text i p pt m (some t) :: assignSegs rest rs
  | Seg.row i p cells :: rest, rs =>
    let r := assignCells cells rs
    Seg.row i p r.1 :: assignSegs rest r.2

/-- Rebuild the cells of a table row and join them with pipes: a nonempty
cell becomes `" " + restored + " "`, an originally empty cell becomes `""`. -/
def rowJoin (cells : List Cell) : Str :=
  List.intercalate ['|'] (cells.map fun c =>
    if c.text.isEmpty then ([] : Str)
    else ' ' :: restore_placeholders (c.translated.getD c.text) c.phs ++ [' '])

/-- The two edge guards of the table-row branch: prepend a pipe if the line
does not start with one, then append a pipe if it does not end with one. -/
def ensurePipes (j : Str) : Str :=
  let j1 := if j.head? = some '|' then j else '|' :: j
  if j1.getLast? = some '|' then j1 else j1 ++ ['|']

/-- Phase 6 for one segment: a text line is prefix + restored body (the
protected text standing in when no translation arrived); a table row is the
rebuilt cells joined with pipes, with a pipe forced at either edge (the
row's structural prefix is not re-attached). -/
def reconLine : Seg → Nat × Str
  | Seg.text i pfx pt m tr => (i, pfx ++ restore_placeholders (tr.getD pt) m)
  | Seg.row i _ cells => (i, ensurePipes (rowJoin cells))

def applySegs (lines : List Str) : List Seg → List Str
  | [] => lines
  | s :: rest => applySegs (lines.set (reconLine s).1 (reconLine s).2) rest

/-- The line a segment originates from. -/
def segIdx : Seg → Nat
  | Seg.text i _ _ _ _ => i
  | Seg.row i _ _ => i

/-- Phases 1–6 at the line level: the output lines before the emphasis
post-passes. -/
def recon_lines (content : Str) (results : List Str) : List Str :=
  applySegs (splitNl content)
    (assignSegs (extractAux 0 (splitNl content) (classifyLines (splitNl content))) results)

/-! ### Post-processing -/

/-- `_fix_bold_span`: move a single leading/trailing space or tab from
inside the markers to outside (additional whitespace is stripped), leaving
whitespace-only spans untouched. -/
def fixSpan (inner : Str) : Str :=
  let pfxS : Str := match inner.head? with
    | some c => if c = ' ' || c = '\t' then [c] else []
    | none => []
  let c1 := inner.dropWhile (fun c => c = ' ' || c = '\t')
  let sufS : Str := match c1.getLast? with
    | some c => if c = ' ' || c = '\t' then [c] else []
    | none => []
  let c2 := (c1.reverse.dropWhile (fun c => c = ' ' || c = '\t')).reverse
  if c2.isEmpty then '*' :: '*' :: inner ++ ['*', '*']
  else pfxS ++ '*' :: '*' :: c2 ++ '*' :: '*' :: sufS

/-- `re.sub(r"\*\*(.+?)\*\*", _fix_bold_span, ·)`, applied per line. -/
def fixBold : Nat → Str → Str
  | 0, s => s
  | _ + 1, [] => []
  | f + 1, c :: s =>
    match matchBold (c :: s) with
    | some (inner, rest) => fixSpan inner ++ fixBold f rest
    | none => c :: fixBold f s

def fixBoldLine (s : Str) : Str := fixBold s.length s

/-- Match for `^(\s*[-*+])\*\*` at a line start (greedy `\s*` may cross
newlines since `\s` matches them): returns (group 1, rest after the `**`). -/
def mFix1 (s : Str) : Option (Str × Str) :=
  let ws := s.takeWhile isWsPy
  match s.drop ws.length with
  | m :: '*' :: '*' :: rest =>
    if m = '-' || m = '*' || m = '+' then some (ws ++ [m], rest) else none
  | _ => none

/-- Match for `^(\s*\d+\.)\*\*` at a line start. -/
def mFix2 (s : Str) : Option (Str × Str) :=
  let ws := s.takeWhile isWsPy
  let r0 := s.drop ws.length
  let ds := r0.takeWhile isDigitChar
  if ds.isEmpty then none
  else
    match r0.drop ds.length with
    | '.' :: '*' :: '*' :: rest => some (ws ++ ds ++ ['.'], rest)
    | _ => none

/-- `re.sub(pat, r"\1 **", ·, flags=re.MULTILINE)` for the two list-marker
safety nets: a match may start only at a line start (the scanner tracks
that flag), and the replacement re-emits group 1 followed by a space and
the markers. -/
def mSub (mt : Str → Option (Str × Str)) : Nat → Bool → Str → Str
  | 0, _, s => s
  | _ + 1, _, [] => []
  | f + 1, atStart, c :: s =>
    if atStart then
      match mt (c :: s) with
      | some (grp, rest) => grp ++ ' ' :: '*' :: '*' :: mSub mt f false rest
      | none => c :: mSub mt f (c = '\n') s
    else c :: mSub mt f (c = '\n') s

/-- `translate_markdown_file`, as a function of the file content and of the
list of strings returned by the backend for the collected work list
(phases 1–6 plus the emphasis post-passes). -/
def translate_markdown_file (content : Str) (results : List Str) : Str :=
  let result := joinNl (recon_lines content results)
  let fixed := joinNl ((splitNl result).map fixBoldLine)
  let r3 := mSub mFix1 fixed.length true fixed
  mSub mFix2 r3.length true r3

/-- The work list handed to the backend for a document
(`texts_to_translate`). -/
def texts_to_translate (content : Str) : List Str :=
  segTexts (extractAux 0 (splitNl content) (classifyLines (splitNl content)))

/-! ### `text_to_anchor` -/

/-- `re.sub(r"`([^`]+)`", r"\1", ·)`: strip backticks around inline code. -/
def stripCodeMarks : Nat → Str → Str
  | 0, s => s
  | _ + 1, [] => []
  | f + 1, c :: s =>
    match matchCode (c :: s) with
    | some (inner, rest) => inner ++ stripCodeMarks f rest
    | none => c :: stripCodeMarks f s

/-- `re.sub(r"\[([^\]]*)\]\([^)]+\)", r"\1", ·)`: links become their
display text. -/
def stripLinkMarks : Nat → Str → Str
  | 0, s => s
  | _ + 1, [] => []
  | f + 1, c :: s =>
    match matchLink (c :: s) with
    | some (d, _, rest) => d ++ stripLinkMarks f rest
    | none => c :: stripLinkMarks f s

/-- Python `str.lower()` restricted to the Latin-1 letters (ASCII `A`–`Z`
plus `À`–`Ö` and `Ø`–`Þ` map down by 32; every other character is left
unchanged) — the only characters the documents use. -/
def pyLower (c : Char) : Char :=
  if ('A' ≤ c && c ≤ 'Z') || (Char.ofNat 192 ≤ c && c ≤ Char.ofNat 214) ||
      (Char.ofNat 216 ≤ c && c ≤ Char.ofNat 222) then
    Char.ofNat (c.toNat + 32)
  else c

/-- The class kept by `re.sub(r"[^a-z0-9\s-]", "", ·)`: ASCII lowercase
letters, ASCII digits, whitespace, hyphen. -/
def keepAnchorChar (c : Char) : Bool :=
  ('a' ≤ c && c ≤ 'z') || isDigitChar c || isWsPy c || c = '-'

/-- `text_to_anchor(text)`: strip inline-code marks, then link markup, then
every `*` (`re.sub(r"\*+", "", ·)` deletes exactly the asterisks), strip
and lowercase, drop the characters outside `[a-z0-9\s-]`, and turn each
space into a hyphen. -/
def text_to_anchor (t : Str) : Str :=
  let t1 := stripCodeMarks t.length t
  let t2 := stripLinkMarks t1.length t1
  let t3 := t2.filter (fun c => c ≠ '*')
  let t4 := (pyStrip t3).map pyLower
  let t5 := t4.filter keepAnchorChar
  t5.map fun c => if c = ' ' then '-' else c

/-! ### `validate_translation`

The error values carry the numbers the Python messages interpolate; the
message text itself plays no role in any claim, so it is not modelled. -/

inductive VErr where
  | codeBlocks (src tgt : Nat)
  | headings (src tgt : Nat)
  | links (src tgt : Nat)
  | lineRat (src tgt : Nat)
  | leftover (n : Nat)
deriving DecidableEq, Repr

/-- Python `s.count(sub)`: non-overlapping occurrences, left to right. -/
def countSub (p : Str) : Nat → Str → Nat
  | 0, _ => 0
  | _ + 1, [] => 0
  | f + 1, c :: s =>
    if p.isPrefixOf (c :: s) then 1 + countSub p f ((c :: s).drop p.length)
    else countSub p f s

/-- A match of `^#{1,6}\s` at a line start: one to six `#` (a run of seven
or more never matches) followed by one whitespace character, which the
match consumes (it may be the newline itself). -/
def tryHeading (s : Str) : Option (Bool × Str) :=
  let hs := s.takeWhile (fun c => c = '#')
  if hs.length = 0 || hs.length > 6 then none
  else
    match s.drop hs.length with
    | w :: rest => if isWsPy w then some (w = '\n', rest) else none
    | [] => none

/-- `len(re.findall(r"^#{1,6}\s", s, re.MULTILINE))`. -/
def countHeadings : Nat → Bool → Str → Nat
  | 0, _, _ => 0
  | _ + 1, _, [] => 0
  | f + 1, atStart, c :: s =>
    if atStart then
      match tryHeading (c :: s) with
      | some (nl, rest) => 1 + countHeadings f nl rest
      | none => countHeadings f (c = '\n') s
    else countHeadings f (c = '\n') s

/-- `len(RE_LINK_FULL.findall(s))`. -/
def countLinks : Nat → Str → Nat
  | 0, _ => 0
  | _ + 1, [] => 0
  | f + 1, c :: s =>
    match matchLink (c :: s) with
    | some (_, _, rest) => 1 + countLinks f rest
    | none => countLinks f s

/-- The number of placeholder-shaped substrings (the leftover check). -/
def countToks : Nat → Str → Nat
  | 0, _ => 0
  | _ + 1, [] => 0
  | f + 1, c :: s =>
    match matchTok (c :: s) with
    | some (_, rest) => 1 + countToks f rest
    | none => countToks f s

def countNl (s : Str) : Nat := (s.filter (fun c => c = '\n')).length

/-- `validate_translation(source, translated, ·)`.  The float band check
`ratio < 0.8 or ratio > 1.2` is modelled exactly over the rationals as
`5*tgt < 4*src ∨ 5*tgt > 6*src`. -/
def validate_translation (source translated : Str) : List VErr :=
  let srcB := countSub [btick, btick, btick] source.length source
  let tgtB := countSub [btick, btick, btick] translated.length translated
  let e1 : List VErr := if srcB ≠ tgtB then [VErr.codeBlocks srcB tgtB] else []
  let srcH := countHeadings source.length true source
  let tgtH := countHeadings translated.length true translated
  let e2 : List VErr := if srcH ≠ tgtH then [VErr.headings srcH tgtH] else []
  let srcL := countLinks source.length source
  let tgtL := countLinks translated.length translated
  let e3 : List VErr := if srcL ≠ tgtL then [VErr.links srcL tgtL] else []
  let srcN := countNl source
  let tgtN := countNl translated
  let e4 : List VErr :=
    if srcN > 0 && (5 * tgtN < 4 * srcN || 5 * tgtN > 6 * srcN) then
      [VErr.lineRat srcN tgtN]
    else []
  let lo := countToks translated.length translated
  let e5 : List VErr := if lo ≠ 0 then [VErr.leftover lo] else []
  e1 ++ e2 ++ e3 ++ e4 ++ e5

/-! ### Reference definitions for the classification claim (C8)

`claimClassify` renders the claim's literal reference definition (one single
glyph set for both ASCII-art tests, and a table-separator test that only
demands the characters be drawn from pipes/dashes/colons/whitespace).
`classifySpecA` is the amended reference definition: the fenced-code flag is
expressed through the parity of the preceding fence lines instead of a
threaded flag, the table separator is the pipe-bounded pattern, and the two
ASCII-art tests use their two different glyph sets. -/

/-- The claim's table-separator reading: "a row composed solely of pipes,
dashes, colons, and whitespace". -/
def claimTableSep (st : Str) : Bool :=
  st.all fun c => c = '|' || c = '-' || c = ':' || isWsPy c

/-- The claim's ASCII-art reading: both the 3-leading-glyph test and the
40% density test over one and the same glyph set. -/
def claimArtLine (l : Str) : Bool :=
  let stripped := pyStrip l
  (((l.dropWhile isWsPy).take 3).length = 3 && ((l.dropWhile isWsPy).take 3).all inArtSet)
    || 5 * (stripped.filter inArtSet).length > 2 * stripped.length

/-- The classification the claim describes, word for word. -/
def claimClassifyAux : Bool → List Str → List LineType
  | _, [] => []
  | inCode, l :: ls =>
    let stripped := pyStrip l
    if isFenceLine l then LineType.code :: claimClassifyAux (!inCode) ls
    else if inCode then LineType.code :: claimClassifyAux inCode ls
    else if stripped.isEmpty then LineType.pass :: claimClassifyAux inCode ls
    else if claimTableSep stripped then LineType.pass :: claimClassifyAux inCode ls
    else if claimArtLine l then LineType.pass :: claimClassifyAux inCode ls
    else LineType.transl :: claimClassifyAux inCode ls

def claimClassify (lines : List Str) : List LineType := claimClassifyAux false lines

/-- Number of fence lines in a list of lines. -/
def fenceCount (lines : List Str) : Nat := (lines.filter isFenceLine).length

/-- Amended reference classification, written from the (corrected) spec
description: a line is Code iff it is a fence line or the number of fence
lines before it is odd (it lies inside an open fenced region — an
unterminated fence keeps the parity odd for the remainder); outside code a
blank line, a pipe-bounded table-separator line, or an ASCII-art line
(3 leading glyphs from the set with `-`/`*`, or >40% density over the set
without them) passes through; everything else is translatable.  The initial
flag `b` generalises the parity for the equivalence proof. -/
def specAux (b : Bool) (lines : List Str) : List LineType :=
  (List.range lines.length).map fun i =>
    match lines.get? i with
    | none => LineType.pass
    | some l =>
      if isFenceLine l then LineType.code
      else if xor b (fenceCount (lines.take i) % 2 = 1) then LineType.code
      else if (pyStrip l).isEmpty then LineType.pass
      else if tableSepLine (pyStrip l) then LineType.pass
      else if is_ascii_art_line l then LineType.pass
      else LineType.transl

def classifySpecA (lines : List Str) : List LineType := specAux false lines

/-! ## Basic list lemmas -/

theorem takeWhile_append_all {α} (p : α → Bool) (l : List α) (x : α) (r : List α)
    (h : ∀ a ∈ l, p a = true) (hx : p x = false) :
    (l ++ x :: r).takeWhile p = l := by
  induction l with
  | nil => simp [List.takeWhile_cons, hx]
  | cons a t ih =>
    have ha := h a (by simp)
    simp only [List.cons_append, List.takeWhile_cons, ha, if_true]
    rw [ih fun b hb => h b (by simp [hb])]

theorem takeWhile_append_drop (p : Char → Bool) :
    ∀ l : Str, l.takeWhile p ++ l.drop (l.takeWhile p).length = l := by
  intro l
  induction l with
  | nil => rfl
  | cons c t ih =>
    by_cases hc : p c
    · simp only [List.takeWhile_cons, hc, if_true, List.length_cons, List.drop_succ_cons,
        List.cons_append]
      rw [ih]
    · simp [List.takeWhile_cons, hc]

theorem cleanSpurious_nil (known : List Str) (f : Nat) : cleanSpurious known f [] = [] := by
  cases f <;> rfl

theorem commaSub1_nil (f : Nat) : commaSub1 f [] = [] := by cases f <;> rfl

theorem commaSub2_nil (f : Nat) : commaSub2 f [] = [] := by cases f <;> rfl

/-! ## Decimal digit lemmas -/

theorem isDigit_digitChar {n : Nat} (h : n < 10) : isDigitChar (digitChar n) = true := by
  interval_cases n <;> decide

theorem natDigitsAux_all_digit :
    ∀ f n, ∀ c ∈ natDigitsAux f n, isDigitChar c = true := by
  intro f
  induction f with
  | zero => intro n c hc; simp [natDigitsAux] at hc
  | succ f ih =>
    intro n c hc
    by_cases h : n < 10
    · simp only [natDigitsAux, if_pos h, List.mem_singleton] at hc
      subst hc; exact isDigit_digitChar h
    · simp only [natDigitsAux, if_neg h, List.mem_append, List.mem_singleton] at hc
      rcases hc with hc | hc
      · exact ih _ _ hc
      · subst hc; exact isDigit_digitChar (Nat.mod_lt _ (by omega))

theorem natDigits_all_digit (n : Nat) : ∀ c ∈ natDigits n, isDigitChar c = true :=
  natDigitsAux_all_digit _ _

theorem natDigits_ne_nil (n : Nat) : natDigits n ≠ [] := by
  unfold natDigits
  show natDigitsAux (n + 1) n ≠ []
  by_cases h : n < 10 <;> simp [natDigitsAux, h]

/-- A placeholder token at the head of a string is recognised by the
spurious-token matcher. -/
theorem matchTok_placeholder (n : Nat) (rest : Str) :
    matchTok (make_placeholder n ++ rest) = some (make_placeholder n, rest) := by
  have hTW : (natDigits n ++ phSuf :: rest).takeWhile isDigitChar = natDigits n :=
    takeWhile_append_all _ _ _ _ (natDigits_all_digit n) (by decide)
  have hNE : (natDigits n).isEmpty = false := by
    cases hnd : natDigits n with
    | nil => exact absurd hnd (natDigits_ne_nil n)
    | cons a t => rfl
  have hshape : make_placeholder n ++ rest = phPre :: (natDigits n ++ phSuf :: rest) := by
    simp [make_placeholder]
  rw [hshape]
  simp only [matchTok, if_pos rfl, hTW, hNE, Bool.false_eq_true, if_false, List.drop_left]
  simp only [if_true]
  rfl

/-- Restoring a placeholder-shaped string against the empty map deletes it
(the spurious-token cleanup). -/
theorem restore_placeholder_empty (n : Nat) :
    restore_placeholders (make_placeholder n) [] = [] := by
  unfold restore_placeholders sortByLenDesc
  simp only [List.foldl_nil, List.map_nil]
  have hm : make_placeholder n = phPre :: (natDigits n ++ [phSuf]) := rfl
  have hlen : (make_placeholder n).length = (natDigits n ++ [phSuf]).length + 1 := by
    rw [hm]; rfl
  have h2 : cleanSpurious [] (make_placeholder n).length (make_placeholder n) = [] := by
    rw [hlen]
    conv_lhs => rw [hm]
    show cleanSpurious [] ((natDigits n ++ [phSuf]).length + 1)
        (phPre :: (natDigits n ++ [phSuf])) = []
    unfold cleanSpurious
    have := matchTok_placeholder n []
    rw [List.append_nil] at this
    rw [show (phPre :: (natDigits n ++ [phSuf])) = make_placeholder n from rfl, this]
    simp [cleanSpurious_nil]
  rw [h2, commaSub1_nil, commaSub2_nil]

/-! ## C10 -/

/-- C10: after substitution, `restore_placeholders` deletes every
token-shaped substring of the result that is not a key of the map —
including when the map is empty — and then applies the punctuation
rewrites `", ," → ","` and `", )" → ")"` unconditionally; consequently a
document whose original prose contains a literal token-shaped substring,
or the literal text `", ,"` or `", )"`, is silently altered even when the
backend returns every input unchanged. -/
theorem c10_spurious_and_comma_cleanup :
    (∀ n : Nat, restore_placeholders (make_placeholder n) [] = []) ∧
    restore_placeholders (("x, , y").toList) [] = ("x, y").toList ∧
    restore_placeholders (("f(a, )").toList) [] = ("f(a)").toList ∧
    translate_markdown_file (("see ⟨7⟩ and x, , y").toList)
        (texts_to_translate (("see ⟨7⟩ and x, , y").toList)) =
      ("see  and x, y").toList :=
  ⟨restore_placeholder_empty, by decide, by decide, by decide⟩

/-! ## C5 -/

/-- C5 counterexample: the slug computed for the heading `"¿Qué es?"` is
`"qu-es"` — the accented letter is removed by the `[^a-z0-9\s-]` filter —
and not the `"qué-es"` slug the claim derives by keeping letters. -/
theorem c5_counterexample :
    text_to_anchor (("¿Qué es?").toList) = ("qu-es").toList ∧
    text_to_anchor (("¿Qué es?").toList) ≠ ("qué-es").toList :=
  ⟨by decide, by decide⟩

/-- C5 amended: the anchor slug is obtained by stripping inline
code/link/emphasis markup, lower-casing, removing exactly the characters
outside the ASCII class of lowercase letters, digits, whitespace and
hyphen (so accented letters are removed, not kept), then replacing each
space with a hyphen without collapsing consecutive hyphens; every
character of a slug is in that class and is never a space, and
`"¿Qué es?"` yields `"qu-es"`. -/
theorem c5_amended :
    (∀ t : Str, ∀ c ∈ text_to_anchor t, keepAnchorChar c = true ∧ c ≠ ' ') ∧
    text_to_anchor (("¿Qué es?").toList) = ("qu-es").toList ∧
    text_to_anchor (("A -- B").toList) = ("a----b").toList := by
  refine ⟨?_, by decide, by decide⟩
  intro t c hc
  simp only [text_to_anchor, List.mem_map, List.mem_filter] at hc
  obtain ⟨c', ⟨_, hkeep⟩, hrepl⟩ := hc
  by_cases h : c' = ' '
  · rw [if_pos h] at hrepl
    rw [← hrepl]
    exact ⟨by decide, by decide⟩
  · rw [if_neg h] at hrepl
    rw [← hrepl]
    exact ⟨hkeep, h⟩

/-- C5 witness: the general character property of `c5_amended` evaluated at
the slug of `"¿Qué es?"` and its first character. -/
theorem c5_amended_witness : keepAnchorChar 'q' = true ∧ 'q' ≠ ' ' :=
  c5_amended.1 (("¿Qué es?").toList) 'q' (by decide)

/-! ## C6 -/

theorem ensurePipes_head (j : Str) : (ensurePipes j).head? = some '|' := by
  unfold ensurePipes
  by_cases h1 : (if j.head? = some '|' then j else '|' :: j).getLast? = some '|'
  · rw [if_pos h1]
    by_cases h : j.head? = some '|'
    · rw [if_pos h]; exact h
    · rw [if_neg h]; rfl
  · rw [if_neg h1]
    by_cases h : j.head? = some '|'
    · rw [if_pos h]
      rw [if_pos h] at h1
      cases j with
      | nil => cases h
      | cons a t => simpa using h
    · rw [if_neg h]; rfl

theorem ensurePipes_last (j : Str) : (ensurePipes j).getLast? = some '|' := by
  unfold ensurePipes
  by_cases h1 : (if j.head? = some '|' then j else '|' :: j).getLast? = some '|'
  · rw [if_pos h1]; exact h1
  · rw [if_neg h1]
    exact List.getLast?_concat _

/-! ## C7: lemmas about the bold-span matcher and the post-pass scanner -/

theorem boldClose_cons (c : Char) (s : Str) :
    boldClose (c :: s) =
      if c = '\n' then none
      else if s.take 2 = ['*', '*'] then some ([c], s.drop 2)
      else
        match boldClose s with
        | some (inner, rest) => some (c :: inner, rest)
        | none => none := rfl

theorem boldClose_sound :
    ∀ s inner rest, boldClose s = some (inner, rest) →
      s = inner ++ '*' :: '*' :: rest ∧ inner ≠ [] := by
  intro s
  induction s with
  | nil => intro inner rest h; cases h
  | cons c s ih =>
    intro inner rest h
    rw [boldClose_cons] at h
    by_cases hc : c = '\n'
    · rw [if_pos hc] at h; cases h
    · rw [if_neg hc] at h
      by_cases ht : s.take 2 = ['*', '*']
      · rw [if_pos ht] at h
        cases h
        refine ⟨?_, by simp⟩
        have := List.take_append_drop 2 s
        rw [ht] at this
        conv_lhs => rw [← this]
        rfl
      · rw [if_neg ht] at h
        cases hb : boldClose s with
        | none => rw [hb] at h; cases h
        | some p =>
          rw [hb] at h
          have h2 : some (c :: p.1, p.2) = some (inner, rest) := h
          have h3 : c :: p.1 = inner ∧ p.2 = rest := by
            injection h2 with h4
            exact ⟨congrArg Prod.fst h4, congrArg Prod.snd h4⟩
          obtain ⟨hs, _⟩ := ih p.1 p.2 hb
          rw [← h3.1, ← h3.2, hs]
          exact ⟨rfl, by simp⟩

theorem boldClose_complete :
    ∀ inner rest, inner ≠ [] → (∀ c ∈ inner, c ≠ '*') → (∀ c ∈ inner, c ≠ '\n') →
      boldClose (inner ++ '*' :: '*' :: rest) = some (inner, rest) := by
  intro inner
  induction inner with
  | nil => intro rest h _ _; exact absurd rfl h
  | cons c t ih =>
    intro rest _ hstar hnl
    show boldClose (c :: (t ++ '*' :: '*' :: rest)) = _
    rw [boldClose_cons, if_neg (hnl c (by simp))]
    cases t with
    | nil => rfl
    | cons a u =>
      have ha : a ≠ '*' := hstar a (by simp)
      have htk : ((a :: u) ++ '*' :: '*' :: rest).take 2 ≠ ['*', '*'] := by
        intro heq
        rw [List.cons_append] at heq
        simp [List.take] at heq
        exact ha heq.1
      rw [if_neg htk,
        ih rest (by simp) (fun x hx => hstar x (by simp [hx]))
          (fun x hx => hnl x (by simp [hx]))]

theorem matchBold_sound (s inner rest : Str) (h : matchBold s = some (inner, rest)) :
    s = '*' :: '*' :: inner ++ '*' :: '*' :: rest ∧ inner ≠ [] := by
  unfold matchBold at h
  split at h
  · rename_i s0
    obtain ⟨hs, hne⟩ := boldClose_sound s0 inner rest h
    refine ⟨?_, hne⟩
    rw [hs]
    simp
  · cases h

theorem matchBold_none_head {c : Char} (s : Str) (h : c ≠ '*') :
    matchBold (c :: s) = none := by
  unfold matchBold
  split
  · rename_i heq; cases heq; exact absurd rfl h
  · rfl

theorem matchBold_stars (s : Str) : matchBold ('*' :: '*' :: s) = boldClose s := rfl

theorem fixBold_nil (f : Nat) : fixBold f [] = [] := by cases f <;> rfl

theorem fixBold_fuel : ∀ f g s, s.length ≤ f → s.length ≤ g → fixBold f s = fixBold g s := by
  intro f
  induction f with
  | zero =>
    intro g s hf _
    have hs : s = [] := List.length_eq_zero.mp (Nat.le_zero.mp hf)
    subst hs
    rw [fixBold_nil, fixBold_nil]
  | succ f ih =>
    intro g s hf hg
    cases s with
    | nil => rw [fixBold_nil, fixBold_nil]
    | cons c s0 =>
      cases g with
      | zero => simp at hg
      | succ g =>
        show fixBold (f + 1) (c :: s0) = fixBold (g + 1) (c :: s0)
        unfold fixBold
        cases hm : matchBold (c :: s0) with
        | none =>
          simp only [hm]
          rw [ih g s0 (by simpa using hf) (by simpa using hg)]
        | some p =>
          obtain ⟨inner, rest⟩ := p
          have hs := (matchBold_sound _ _ _ hm).1
          have hlen : s0.length + 1 = inner.length + rest.length + 4 := by
            have := congrArg List.length hs
            simpa [List.length_append] using this
          simp only [hm]
          rw [ih g rest (by simp at hf; omega) (by simp at hg; omega)]

theorem fixBoldLine_cons_none {c : Char} {s : Str} (h : matchBold (c :: s) = none) :
    fixBoldLine (c :: s) = c :: fixBoldLine s := by
  show fixBold (s.length + 1) (c :: s) = _
  unfold fixBold
  rw [h]
  rfl

theorem fixBoldLine_cons_some {c : Char} {s inner rest : Str}
    (h : matchBold (c :: s) = some (inner, rest)) :
    fixBoldLine (c :: s) = fixSpan inner ++ fixBoldLine rest := by
  show fixBold (s.length + 1) (c :: s) = _
  unfold fixBold
  rw [h]
  show fixSpan inner ++ fixBold s.length rest = _
  have hs := (matchBold_sound _ _ _ h).1
  have hlen : s.length + 1 = inner.length + rest.length + 4 := by
    have := congrArg List.length hs
    simpa [List.length_append] using this
  rw [fixBold_fuel s.length rest.length rest (by omega) (le_refl _)]
  rfl

theorem fixBoldLine_append_free (pre s : Str) (h : ∀ c ∈ pre, c ≠ '*') :
    fixBoldLine (pre ++ s) = pre ++ fixBoldLine s := by
  induction pre with
  | nil => simp
  | cons c t ih =>
    show fixBoldLine (c :: (t ++ s)) = _
    rw [fixBoldLine_cons_none (matchBold_none_head _ (h c (by simp))),
      ih fun x hx => h x (by simp [hx])]
    rfl

theorem fixBoldLine_span (inner post : Str) (hne : inner ≠ [])
    (hstar : ∀ c ∈ inner, c ≠ '*') (hnl : ∀ c ∈ inner, c ≠ '\n') :
    fixBoldLine ('*' :: '*' :: inner ++ '*' :: '*' :: post) =
      fixSpan inner ++ fixBoldLine post := by
  have hm : matchBold ('*' :: '*' :: (inner ++ '*' :: '*' :: post)) = some (inner, post) := by
    rw [matchBold_stars, boldClose_complete inner post hne hstar hnl]
  exact fixBoldLine_cons_some hm

/-- C7 counterexample: the post-pass moves only a single whitespace
character outside the markers and deletes the rest; on the literal span
`"**  hello**"` (two leading spaces, arriving as the backend's output for
a one-line document) the final line is `" **hello**"`, not the
`"  **hello**"` that moving all the internal whitespace outside would
give. -/
theorem c7_counterexample :
    translate_markdown_file (("x").toList) [("**  hello**").toList] =
      (" **hello**").toList ∧
    (" **hello**").toList ≠ ("  **hello**").toList :=
  ⟨by decide, by decide⟩

/-- C7 amended: in the line-scoped post-pass, for every bold-emphasis span
on a single line whose inner content is non-whitespace, the first leading
and last trailing whitespace character inside the markers is moved outside
them and any further leading/trailing whitespace is deleted; the literal
`"** hello**"` is normalized to `" **hello**"` (and `"**  hello**"` to
`" **hello**"`), and the pass never matches across a line boundary (the
span's inner text cannot contain a newline). -/
theorem c7_amended :
    (∀ pre inner post : Str, (∀ c ∈ pre, c ≠ '*') → inner ≠ [] →
      (∀ c ∈ inner, c ≠ '*') → (∀ c ∈ inner, c ≠ '\n') →
      fixBoldLine (pre ++ '*' :: '*' :: inner ++ '*' :: '*' :: post) =
        pre ++ fixSpan inner ++ fixBoldLine post) ∧
    fixBoldLine (("** hello**").toList) = (" **hello**").toList ∧
    fixBoldLine (("**  hello**").toList) = (" **hello**").toList := by
  refine ⟨?_, by decide, by decide⟩
  intro pre inner post hp hne hs hn
  rw [List.append_assoc, fixBoldLine_append_free pre _ hp,
    fixBoldLine_span inner post hne hs hn, ← List.append_assoc]

/-- C7 witness: the general statement of `c7_amended` applied to the
concrete line `"x ** y**"`. -/
theorem c7_amended_witness :
    fixBoldLine (("x ").toList ++ '*' :: '*' :: (" y").toList ++ '*' :: '*' :: []) =
      ("x ").toList ++ fixSpan ((" y").toList) ++ fixBoldLine [] :=
  c7_amended.1 (("x ").toList) ((" y").toList) [] (by decide) (by decide)
    (by decide) (by decide)

/-! ## C9: the validator under an identity backend -/

theorem validate_self (s : Str) (h : countToks s.length s = 0) :
    validate_translation s s = [] := by
  unfold validate_translation
  dsimp only
  have hr : ∀ x : Nat,
      (decide (x > 0) && (decide (5 * x < 4 * x) || decide (5 * x > 6 * x))) = false := by
    intro x
    by_cases hx : x > 0 <;> simp [hx] <;> omega
  simp [h, hr]

/-- C9 counterexample: for the well-formed one-line document "`[a](b)`"
(a markdown link inside an inline code span) the identity backend yields
the output "`⟨0⟩a⟨1⟩`" — the nested protection cannot be undone — and the
validator reports a link-count mismatch and two unrestored placeholders,
so the warning list is not empty. -/
theorem c9_counterexample :
    validate_translation (("`[a](b)`").toList)
      (translate_markdown_file (("`[a](b)`").toList)
        (texts_to_translate (("`[a](b)`").toList))) =
      [VErr.links 1 0, VErr.leftover 2] ∧
    [VErr.links 1 0, VErr.leftover 2] ≠ ([] : List VErr) :=
  ⟨by decide, by decide⟩

/-- C9 amended: if the translation capability returns each input string
unchanged and the pipeline output reproduces the document text exactly
(which the nested-markup counterexample shows is not the case for every
well-formed document), and the document contains no placeholder-shaped
substring, then `validate_translation` applied to the document and its
pipeline output returns an empty list of warnings. -/
theorem c9_amended (content : Str)
    (hid : translate_markdown_file content (texts_to_translate content) = content)
    (htok : countToks content.length content = 0) :
    validate_translation content
      (translate_markdown_file content (texts_to_translate content)) = [] := by
  rw [hid]
  exact validate_self content htok

/-! ## C1: digit and placeholder-token lemmas -/

theorem digitChar_toNat {m : Nat} (h : m < 10) : (digitChar m).toNat = 48 + m := by
  interval_cases m <;> decide

theorem digitsVal_natDigitsAux : ∀ f n, n + 1 ≤ f → digitsVal (natDigitsAux f n) = n := by
  intro f
  induction f with
  | zero => intro n h; omega
  | succ f ih =>
    intro n h
    by_cases h10 : n < 10
    · simp only [natDigitsAux, h10, if_true]
      show 10 * 0 + ((digitChar n).toNat - 48) = n
      rw [digitChar_toNat h10]
      omega
    · have hrec : n / 10 + 1 ≤ f := by
        have : n / 10 < n := Nat.div_lt_self (by omega) (by omega)
        omega
      simp only [natDigitsAux, h10, if_false]
      show digitsVal (natDigitsAux f (n / 10) ++ [digitChar (n % 10)]) = n
      unfold digitsVal
      rw [List.foldl_append]
      show 10 * digitsVal (natDigitsAux f (n / 10)) + ((digitChar (n % 10)).toNat - 48) = n
      rw [ih _ hrec, digitChar_toNat (Nat.mod_lt _ (by omega))]
      omega

theorem digitsVal_natDigits (n : Nat) : digitsVal (natDigits n) = n :=
  digitsVal_natDigitsAux (n + 1) n (le_refl _)

theorem natDigits_inj {a b : Nat} (h : natDigits a = natDigits b) : a = b := by
  have ha := digitsVal_natDigits a
  rw [h, digitsVal_natDigits] at ha
  omega

theorem make_placeholder_inj {a b : Nat} (h : make_placeholder a = make_placeholder b) :
    a = b := by
  unfold make_placeholder at h
  injection h with _ h2
  have h2' : natDigits a ++ [phSuf] = natDigits b ++ [phSuf] := h2
  rw [List.append_left_inj] at h2'
  exact natDigits_inj h2'

theorem digit_ne_phPre {c : Char} (h : isDigitChar c = true) : c ≠ phPre := by
  intro he
  rw [he] at h
  exact absurd h (by decide)

/-- The digit part with its closing delimiter discriminates tokens: if one
token (as a string) is a prefix of another token followed by anything, the
indices agree. -/
theorem digits_prefix_eq :
    ∀ (da db t : Str), (∀ c ∈ da, isDigitChar c = true) →
      (∀ c ∈ db, isDigitChar c = true) →
      (da ++ [phSuf]).isPrefixOf (db ++ phSuf :: t) = true → da = db := by
  intro da
  induction da with
  | nil =>
    intro db t _ hdb h
    cases db with
    | nil => rfl
    | cons c db' =>
      simp only [List.nil_append, List.cons_append, List.isPrefixOf,
        Bool.and_eq_true, beq_iff_eq] at h
      have hd := hdb c (by simp)
      rw [← h.1] at hd
      exact absurd hd (by decide)
  | cons c da' ih =>
    intro db t hda hdb h
    cases db with
    | nil =>
      simp only [List.cons_append, List.nil_append, List.isPrefixOf,
        Bool.and_eq_true, beq_iff_eq] at h
      have hd := hda c (by simp)
      rw [h.1] at hd
      exact absurd hd (by decide)
    | cons c' db' =>
      simp only [List.cons_append, List.isPrefixOf, Bool.and_eq_true, beq_iff_eq] at h
      rw [h.1, ih db' t (fun x hx => hda x (by simp [hx]))
        (fun x hx => hdb x (by simp [hx])) h.2]

theorem placeholder_prefix {a b : Nat} (t : Str)
    (h : (make_placeholder a).isPrefixOf (make_placeholder b ++ t) = true) : a = b := by
  unfold make_placeholder at h
  simp only [List.cons_append, List.isPrefixOf, Bool.and_eq_true, beq_iff_eq] at h
  have h2 : (natDigits a ++ [phSuf]).isPrefixOf ((natDigits b ++ [phSuf]) ++ t) = true := h.2
  rw [List.append_assoc, List.singleton_append] at h2
  exact natDigits_inj
    (digits_prefix_eq _ _ t (natDigits_all_digit a) (natDigits_all_digit b) h2)

theorem placeholder_not_prefix {a b : Nat} (t : Str) (hne : a ≠ b) :
    (make_placeholder a).isPrefixOf (make_placeholder b ++ t) = false := by
  cases hp : (make_placeholder a).isPrefixOf (make_placeholder b ++ t) with
  | false => rfl
  | true => exact absurd ( placeholder_prefix t hp) hne

theorem placeholder_not_prefix_cons {n : Nat} {c : Char} (s : Str) (hc : c ≠ phPre) :
    (make_placeholder n).isPrefixOf (c :: s) = false := by
  show (phPre :: (natDigits n ++ [phSuf])).isPrefixOf (c :: s) = false
  simp only [List.isPrefixOf, Bool.and_eq_true, Bool.and_eq_false_iff]
  left
  simp only [beq_eq_false_iff_ne, ne_eq]
  intro he
  exact hc he.symm

/-! ## C1: replaceAll chunk lemmas -/

theorem replaceAll_nil (p r : Str) (f : Nat) : replaceAll p r f [] = [] := by
  cases f <;> rfl

theorem replaceAll_fuel :
    ∀ f g p r s, p ≠ [] → s.length ≤ f → s.length ≤ g →
      replaceAll p r f s = replaceAll p r g s := by
  intro f
  induction f with
  | zero =>
    intro g p r s _ hf _
    have hs : s = [] := List.length_eq_zero.mp (Nat.le_zero.mp hf)
    subst hs
    rw [replaceAll_nil, replaceAll_nil]
  | succ f ih =>
    intro g p r s hp hf hg
    cases s with
    | nil => rw [replaceAll_nil, replaceAll_nil]
    | cons c s0 =>
      cases g with
      | zero => simp at hg
      | succ g =>
        show replaceAll p r (f + 1) (c :: s0) = replaceAll p r (g + 1) (c :: s0)
        unfold replaceAll
        by_cases hpre : p.isPrefixOf (c :: s0)
        · simp only [hpre, if_true]
          have hplen : 1 ≤ p.length := by
            cases p with
            | nil => exact absurd rfl hp
            | cons a b => simp
          have hdlen : ((c :: s0).drop p.length).length = s0.length + 1 - p.length := by
            simp [List.length_drop]
          rw [ih g p r _ hp (by simp at hf; omega) (by simp at hg; omega)]
        · simp only [hpre, Bool.false_eq_true, if_false]
          rw [ih g p r s0 hp (by simpa using hf) (by simpa using hg)]

theorem replaceAllL_cons_no {p r : Str} {c : Char} {s : Str}
    (h : p.isPrefixOf (c :: s) = false) :
    replaceAllL p r (c :: s) = c :: replaceAllL p r s := by
  show replaceAll p r (s.length + 1) (c :: s) = _
  unfold replaceAll
  rw [h]
  rfl

theorem replaceAllL_append_free (n : Nat) (r s t : Str)
    (hs : ∀ c ∈ s, c ≠ phPre) :
    replaceAllL (make_placeholder n) r (s ++ t) =
      s ++ replaceAllL (make_placeholder n) r t := by
  induction s with
  | nil => simp
  | cons c s0 ih =>
    show replaceAllL (make_placeholder n) r (c :: (s0 ++ t)) = _
    rw [replaceAllL_cons_no (placeholder_not_prefix_cons _ (hs c (by simp)))]
    rw [ih fun x hx => hs x (by simp [hx])]
    rfl

theorem replaceAllL_tok_hit (n : Nat) (r t : Str) :
    replaceAllL (make_placeholder n) r (make_placeholder n ++ t) =
      r ++ replaceAllL (make_placeholder n) r t := by
  have hpre : (make_placeholder n).isPrefixOf (make_placeholder n ++ t) = true := by
    rw [List.isPrefixOf_iff_prefix]
    exact List.prefix_append _ _
  have hlen : (make_placeholder n ++ t).length = (natDigits n ++ [phSuf]).length + t.length + 1 := by
    show (phPre :: (natDigits n ++ [phSuf]) ++ t).length = _
    simp [List.length_append]
    omega
  show replaceAll (make_placeholder n) r (make_placeholder n ++ t).length
      (make_placeholder n ++ t) = _
  rw [hlen]
  show replaceAll (make_placeholder n) r (((natDigits n ++ [phSuf]).length + t.length) + 1)
      (phPre :: ((natDigits n ++ [phSuf]) ++ t)) = _
  unfold replaceAll
  rw [show (phPre :: ((natDigits n ++ [phSuf]) ++ t)) = make_placeholder n ++ t by
    simp [make_placeholder], hpre]
  simp only [if_true]
  have hdrop : (make_placeholder n ++ t).drop (make_placeholder n).length = t :=
    List.drop_left _ _
  rw [hdrop]
  rw [replaceAll_fuel _ t.length (make_placeholder n) r t (by simp [make_placeholder])
    (by omega) (le_refl _)]
  rfl

theorem replaceAllL_tok_miss {m n : Nat} (hne : m ≠ n) (r t : Str) :
    replaceAllL (make_placeholder n) r (make_placeholder m ++ t) =
      make_placeholder m ++ replaceAllL (make_placeholder n) r t := by
  have h1 : (make_placeholder n).isPrefixOf (make_placeholder m ++ t) = false :=
    placeholder_not_prefix t fun he => hne he.symm
  show replaceAllL (make_placeholder n) r (phPre :: ((natDigits m ++ [phSuf]) ++ t)) = _
  rw [replaceAllL_cons_no (by
    rw [show (phPre :: ((natDigits m ++ [phSuf]) ++ t)) = make_placeholder m ++ t by
      simp [make_placeholder]]
    exact h1)]
  rw [show ((natDigits m ++ [phSuf]) ++ t) = (natDigits m ++ [phSuf]) ++ t from rfl,
    replaceAllL_append_free n r (natDigits m ++ [phSuf]) t (by
      intro c hc
      rcases List.mem_append.mp hc with hd | hd
      · exact digit_ne_phPre (natDigits_all_digit m c hd)
      · simp at hd
        rw [hd]
        decide)]
  simp [make_placeholder]

/-! ## C1: matcher soundness and completeness -/

theorem take2_shape {l : Str} {a b : Char} (h : l.take 2 = [a, b]) :
    l = a :: b :: l.drop 2 := by
  cases l with
  | nil => cases h
  | cons x l1 =>
    cases l1 with
    | nil => cases h
    | cons y l2 =>
      simp [List.take] at h
      rw [h.1, h.2]
      rfl

theorem take1_shape {l : Str} {a : Char} (h : l.take 1 = [a]) :
    l = a :: l.drop 1 := by
  cases l with
  | nil => cases h
  | cons x l1 =>
    simp [List.take] at h
    rw [h]
    rfl

theorem matchLink_none_head {c : Char} (s : Str) (h : c ≠ '[') :
    matchLink (c :: s) = none := by
  unfold matchLink
  split
  · rename_i heq; cases heq; exact absurd rfl h
  · rfl

theorem matchCode_none_head {c : Char} (s : Str) (h : c ≠ btick) :
    matchCode (c :: s) = none := by
  simp only [matchCode]
  rw [if_neg h]

theorem matchLink_complete (d u rest : Str) (hd : ∀ c ∈ d, c ≠ ']')
    (hu : ∀ c ∈ u, c ≠ ')') (hune : u ≠ []) :
    matchLink ('[' :: (d ++ ']' :: '(' :: (u ++ ')' :: rest))) = some (d, u, rest) := by
  have htw : (d ++ ']' :: '(' :: (u ++ ')' :: rest)).takeWhile (fun c => c ≠ ']') = d :=
    takeWhile_append_all _ _ _ _ (fun a ha => by simp [hd a ha]) (by decide)
  have htw2 : (u ++ ')' :: rest).takeWhile (fun c => c ≠ ')') = u :=
    takeWhile_append_all _ _ _ _ (fun a ha => by simp [hu a ha]) (by decide)
  have hue : u.isEmpty = false := by
    cases u with
    | nil => exact absurd rfl hune
    | cons a b => rfl
  simp only [matchLink]
  rw [htw, List.drop_left]
  simp only [List.take_succ_cons, List.take_zero, List.drop_succ_cons, List.drop_zero]
  rw [if_pos trivial, htw2]
  simp only [hue, Bool.false_eq_true, if_false, List.drop_left]
  simp only [List.take_succ_cons, List.take_zero, List.drop_succ_cons, List.drop_zero]
  rw [if_pos trivial]

theorem matchLink_sound (s d u rest : Str) (h : matchLink s = some (d, u, rest)) :
    s = '[' :: (d ++ ']' :: '(' :: (u ++ ')' :: rest)) := by
  unfold matchLink at h
  split at h
  · rename_i s0
    dsimp only at h
    split at h
    · rename_i h1
      split at h
      · cases h
      · split at h
        · rename_i h2 h3
          cases h
          have e1 := takeWhile_append_drop (fun c => c ≠ ']') s0
          have e2 := take2_shape h1
          have e3 := takeWhile_append_drop (fun c => c ≠ ')')
            ((List.drop (List.takeWhile (fun c => decide (c ≠ ']')) s0).length s0).drop 2)
          have e4 := take1_shape h3
          conv_lhs => rw [← e1, e2, ← e3, e4]
        · cases h
    · cases h
  · cases h

theorem matchCode_complete (inner rest : Str) (hne : inner ≠ [])
    (hb : ∀ c ∈ inner, c ≠ btick) :
    matchCode (btick :: (inner ++ btick :: rest)) = some (inner, rest) := by
  have htw : (inner ++ btick :: rest).takeWhile (fun c => c ≠ btick) = inner :=
    takeWhile_append_all _ _ _ _ (fun a ha => by simp [hb a ha]) (by simp)
  have hie : inner.isEmpty = false := by
    cases inner with
    | nil => exact absurd rfl hne
    | cons a b => rfl
  simp only [matchCode, if_pos rfl]
  rw [htw]
  simp only [hie, Bool.false_eq_true, if_false, List.drop_left]
  simp only [List.take_succ_cons, List.take_zero, List.drop_succ_cons, List.drop_zero]
  rfl

theorem matchCode_sound (s inner rest : Str) (h : matchCode s = some (inner, rest)) :
    s = btick :: (inner ++ btick :: rest) := by
  unfold matchCode at h
  split at h
  · rename_i c s0
    split at h
    · rename_i hc
      dsimp only at h
      split at h
      · cases h
      · split at h
        · rename_i h2 h3
          cases h
          have e1 := takeWhile_append_drop (fun x => x ≠ btick) s0
          have e4 := take1_shape h3
          rw [hc]
          conv_lhs => rw [← e1, e4]
        · cases h
    · cases h
  · cases h

theorem matchBoldLink_complete (d u rest : Str) (hd : ∀ c ∈ d, c ≠ ']')
    (hu : ∀ c ∈ u, c ≠ ')') (hune : u ≠ []) :
    matchBoldLink (renderBoldLink d u ++ rest) = some (d, u, rest) := by
  have hshape : renderBoldLink d u ++ rest =
      '*' :: '*' :: ('[' :: (d ++ ']' :: '(' :: (u ++ ')' :: ('*' :: '*' :: rest)))) := by
    simp [renderBoldLink]
  rw [hshape]
  simp only [matchBoldLink]
  rw [matchLink_complete d u ('*' :: '*' :: rest) hd hu hune]
  rfl

theorem matchBoldLink_sound (s d u rest : Str) (h : matchBoldLink s = some (d, u, rest)) :
    s = renderBoldLink d u ++ rest := by
  unfold matchBoldLink at h
  split at h
  · rename_i s0
    split at h
    · rename_i d0 u0 rest0 heq
      split at h
      · rename_i htk
        cases h
        have hs0 := matchLink_sound s0 d u rest0 heq
        have hr0 := take2_shape htk
        rw [hs0, hr0]
        simp [renderBoldLink]
      · cases h
    · cases h
  · cases h

theorem matchBoldLink_none_shape (s : Str) (h : s.take 3 ≠ ['*', '*', '[']) :
    matchBoldLink s = none := by
  cases hm : matchBoldLink s with
  | none => rfl
  | some p =>
    obtain ⟨d, u, rest⟩ := p
    have hs := matchBoldLink_sound s d u rest hm
    exact absurd (by rw [hs]; rfl) h

/-! ## C1: stepping the four protection passes over one character or one
matched element -/

theorem pass1_cons_none {c : Char} {s : Str} (f k : Nat) (m : List Entry)
    (h : matchBoldLink (c :: s) = none) :
    pass1 (f + 1) k m (c :: s) = (c :: (pass1 f k m s).1, (pass1 f k m s).2) := by
  simp only [pass1, h]

theorem pass1_cons_some {c : Char} {s d u rest : Str} (f k : Nat) (m : List Entry)
    (h : matchBoldLink (c :: s) = some (d, u, rest)) :
    pass1 (f + 1) k m (c :: s) =
      (make_placeholder k ++
          (pass1 f (k + 1) (m ++ [(make_placeholder k, renderBoldLink d u)]) rest).1,
        (pass1 f (k + 1) (m ++ [(make_placeholder k, renderBoldLink d u)]) rest).2) := by
  simp only [pass1, h]

theorem pass2_cons_none {c : Char} {s : Str} (f k : Nat) (m : List Entry)
    (h : matchLink (c :: s) = none) :
    pass2 (f + 1) k m (c :: s) = (c :: (pass2 f k m s).1, (pass2 f k m s).2) := by
  simp only [pass2, h]

theorem pass2_cons_some {c : Char} {s d u rest : Str} (f k : Nat) (m : List Entry)
    (h : matchLink (c :: s) = some (d, u, rest)) :
    pass2 (f + 1) k m (c :: s) =
      (make_placeholder k ++ d ++ make_placeholder (k + 1) ++
          (pass2 f (k + 2)
            (m ++ [(make_placeholder k, ['[']),
              (make_placeholder (k + 1), ']' :: '(' :: u ++ [')'])]) rest).1,
        (pass2 f (k + 2)
          (m ++ [(make_placeholder k, ['[']),
            (make_placeholder (k + 1), ']' :: '(' :: u ++ [')'])]) rest).2) := by
  simp only [pass2, h]

theorem pass3_cons_none {c : Char} {s : Str} (f k : Nat) (m : List Entry)
    (h : matchCode (c :: s) = none) :
    pass3 (f + 1) k m (c :: s) = (c :: (pass3 f k m s).1, (pass3 f k m s).2) := by
  simp only [pass3, h]

theorem pass3_cons_some {c : Char} {s inner rest : Str} (f k : Nat) (m : List Entry)
    (h : matchCode (c :: s) = some (inner, rest)) :
    pass3 (f + 1) k m (c :: s) =
      (make_placeholder k ++
          (pass3 f (k + 1) (m ++ [(make_placeholder k, btick :: inner ++ [btick])]) rest).1,
        (pass3 f (k + 1) (m ++ [(make_placeholder k, btick :: inner ++ [btick])]) rest).2) := by
  simp only [pass3, h]

theorem pass4_cons_none {c : Char} {s : Str} (f k : Nat) (m : List Entry)
    (h : matchBold (c :: s) = none) :
    pass4 (f + 1) k m (c :: s) = (c :: (pass4 f k m s).1, (pass4 f k m s).2) := by
  simp only [pass4, h]

theorem pass4_cons_some {c : Char} {s inner rest : Str} (f k : Nat) (m : List Entry)
    (h : matchBold (c :: s) = some (inner, rest)) :
    pass4 (f + 1) k m (c :: s) =
      (make_placeholder k ++ inner ++ make_placeholder (k + 1) ++
          (pass4 f (k + 2)
            (m ++ [(make_placeholder k, ['*', '*']),
              (make_placeholder (k + 1), ['*', '*'])]) rest).1,
        (pass4 f (k + 2)
          (m ++ [(make_placeholder k, ['*', '*']),
            (make_placeholder (k + 1), ['*', '*'])]) rest).2) := by
  simp only [pass4, h]

theorem pass1_skip (A : Str) : ∀ (rest : Str) (f k : Nat) (m : List Entry),
    (∀ a, a <:+ A → a ≠ [] → matchBoldLink (a ++ rest) = none) →
    A.length ≤ f →
    pass1 f k m (A ++ rest) =
      (A ++ (pass1 (f - A.length) k m rest).1, (pass1 (f - A.length) k m rest).2) := by
  induction A with
  | nil => intro rest f k m _ _; simp
  | cons c A ih =>
    intro rest f k m h hf
    cases f with
    | zero => simp at hf
    | succ f =>
      have hm : matchBoldLink (c :: (A ++ rest)) = none := by
        have := h (c :: A) (List.suffix_refl _) (by simp)
        simpa using this
      have harith : f + 1 - (c :: A).length = f - A.length := by simp
      rw [List.cons_append, pass1_cons_none f k m hm,
        ih rest f k m (fun a ha hne => h a (ha.trans (List.suffix_cons c A)) hne) (by
          simpa using Nat.lt_succ_iff.mp (Nat.lt_of_lt_of_le (by simp) hf)), harith]
      rfl

theorem pass2_skip (A : Str) : ∀ (rest : Str) (f k : Nat) (m : List Entry),
    (∀ c ∈ A, c ≠ '[') →
    A.length ≤ f →
    pass2 f k m (A ++ rest) =
      (A ++ (pass2 (f - A.length) k m rest).1, (pass2 (f - A.length) k m rest).2) := by
  induction A with
  | nil => intro rest f k m _ _; simp
  | cons c A ih =>
    intro rest f k m h hf
    cases f with
    | zero => simp at hf
    | succ f =>
      have hm : matchLink (c :: (A ++ rest)) = none :=
        matchLink_none_head _ (h c (by simp))
      have harith : f + 1 - (c :: A).length = f - A.length := by simp
      rw [List.cons_append, pass2_cons_none f k m hm,
        ih rest f k m (fun a ha => h a (by simp [ha])) (by
          simp at hf; omega), harith]
      rfl

theorem pass3_skip (A : Str) : ∀ (rest : Str) (f k : Nat) (m : List Entry),
    (∀ c ∈ A, c ≠ btick) →
    A.length ≤ f →
    pass3 f k m (A ++ rest) =
      (A ++ (pass3 (f - A.length) k m rest).1, (pass3 (f - A.length) k m rest).2) := by
  induction A with
  | nil => intro rest f k m _ _; simp
  | cons c A ih =>
    intro rest f k m h hf
    cases f with
    | zero => simp at hf
    | succ f =>
      have hm : matchCode (c :: (A ++ rest)) = none :=
        matchCode_none_head _ (h c (by simp))
      have harith : f + 1 - (c :: A).length = f - A.length := by simp
      rw [List.cons_append, pass3_cons_none f k m hm,
        ih rest f k m (fun a ha => h a (by simp [ha])) (by
          simp at hf; omega), harith]
      rfl

theorem pass4_skip (A : Str) : ∀ (rest : Str) (f k : Nat) (m : List Entry),
    (∀ c ∈ A, c ≠ '*') →
    A.length ≤ f →
    pass4 f k m (A ++ rest) =
      (A ++ (pass4 (f - A.length) k m rest).1, (pass4 (f - A.length) k m rest).2) := by
  induction A with
  | nil => intro rest f k m _ _; simp
  | cons c A ih =>
    intro rest f k m h hf
    cases f with
    | zero => simp at hf
    | succ f =>
      have hm : matchBold (c :: (A ++ rest)) = none :=
        matchBold_none_head _ (h c (by simp))
      have harith : f + 1 - (c :: A).length = f - A.length := by simp
      rw [List.cons_append, pass4_cons_none f k m hm,
        ih rest f k m (fun a ha => h a (by simp [ha])) (by
          simp at hf; omega), harith]
      rfl

/-! ## C1: where the bold-link pattern cannot match -/

theorem suffix_split {a s t : Str} (h : a <:+ s ++ t) :
    a <:+ t ∨ ∃ b, b <:+ s ∧ a = b ++ t := by
  obtain ⟨p, hp⟩ := h
  by_cases hl : s.length ≤ p.length
  · left
    have h1 : p.take s.length ++ (p.drop s.length ++ a) = s ++ t := by
      rw [← List.append_assoc, List.take_append_drop]
      exact hp
    have h2 := List.append_inj h1 (by rw [List.length_take]; omega)
    exact ⟨p.drop s.length, h2.2⟩
  · right
    push_neg at hl
    have hst : s ++ t = p ++ a := hp.symm
    have hs : s = p ++ a.take (s.length - p.length) := by
      have h3 := congrArg (fun l => List.take s.length l) hst
      simpa [List.take_left, List.take_append_eq_append_take,
        List.take_all_of_le (le_of_lt hl)] using h3
    have ht : t = a.drop (s.length - p.length) := by
      have h3 := congrArg (fun l => List.drop s.length l) hst
      simpa [List.drop_left, List.drop_append_eq_append_drop,
        List.drop_eq_nil_of_le (le_of_lt hl)] using h3
    refine ⟨a.take (s.length - p.length), ⟨p, hs.symm⟩, ?_⟩
    rw [ht, List.take_append_drop]

theorem plainChar_spec {c : Char} (h : plainChar c = true) :
    c ≠ '*' ∧ c ≠ '[' ∧ c ≠ btick ∧ c ≠ phPre ∧ c ≠ phSuf := by
  simp [plainChar] at h
  tauto

theorem isDigitChar_ne {c x : Char} (h : isDigitChar c = true)
    (hx : isDigitChar x = false) : c ≠ x := by
  intro he
  rw [he] at h
  rw [h] at hx
  cases hx

theorem make_placeholder_chars (n : Nat) :
    ∀ c ∈ make_placeholder n, c = phPre ∨ c = phSuf ∨ isDigitChar c = true := by
  intro c hc
  simp [make_placeholder] at hc
  rcases hc with h | h | h
  · exact Or.inl h
  · exact Or.inr (Or.inr (natDigits_all_digit n c h))
  · exact Or.inr (Or.inl h)

theorem tok_char_ne (n : Nat) {x : Char} (hx : x ≠ phPre) (hx2 : x ≠ phSuf)
    (hx3 : isDigitChar x = false) : ∀ c ∈ make_placeholder n, c ≠ x := by
  intro c hc
  rcases make_placeholder_chars n c hc with h | h | h
  · rw [h]; exact fun he => hx he.symm
  · rw [h]; exact fun he => hx2 he.symm
  · exact isDigitChar_ne h hx3

theorem safe_star_free {A : Str} (hA : ∀ c ∈ A, c ≠ '*') (a rest : Str)
    (ha : a <:+ A) (hne : a ≠ []) : matchBoldLink (a ++ rest) = none := by
  apply matchBoldLink_none_shape
  cases a with
  | nil => exact absurd rfl hne
  | cons c t =>
    have hc : c ≠ '*' := hA c (ha.subset (by simp))
    intro heq
    rw [List.cons_append] at heq
    simp [List.take] at heq
    exact hc heq.1

theorem safe_bold {s : Str} (hne : s ≠ []) (hp : ∀ c ∈ s, plainChar c = true)
    (rest : Str) (h1 : rest.take 1 ≠ ['[']) (h2 : rest.take 2 ≠ ['*', '['])
    (a : Str) (ha : a <:+ renderItem (.bold s))
    (hane : a ≠ []) : matchBoldLink (a ++ rest) = none := by
  apply matchBoldLink_none_shape
  have hstar : ∀ c ∈ s, c ≠ '*' := fun c hc => (plainChar_spec (hp c hc)).1
  have hmain : ∀ b, b <:+ s ++ '*' :: '*' :: [] → b ≠ [] →
      ((b ++ rest).take 3 ≠ ['*', '*', '[']) := by
    intro b hb hbne
    rcases suffix_split hb with hb2 | ⟨b0, hb0, hbeq⟩
    · -- b is a suffix of the closing marker
      rcases List.suffix_cons_iff.mp hb2 with hb3 | hb3
      · subst hb3
        intro heq
        simp [List.take] at heq
        exact h1 (by simpa [List.take] using heq)
      · rcases List.suffix_cons_iff.mp hb3 with hb4 | hb4
        · subst hb4
          intro heq
          simp [List.take] at heq
          exact h2 (by simpa [List.take] using heq)
        · rw [List.suffix_nil.mp hb4] at hbne
          exact absurd rfl hbne
    · cases b0 with
      | nil =>
        rw [hbeq, List.nil_append]
        intro heq
        simp [List.take] at heq
        exact h1 (by simpa [List.take] using heq)
      | cons c0 t0 =>
        rw [hbeq]
        have hc0 : c0 ≠ '*' := hstar c0 (hb0.subset (by simp))
        intro heq
        rw [List.cons_append, List.cons_append] at heq
        simp [List.take] at heq
        exact hc0 heq.1
  have hrend : renderItem (.bold s) = '*' :: '*' :: (s ++ '*' :: '*' :: []) := by
    simp [renderItem]
  rw [hrend] at ha
  rcases List.suffix_cons_iff.mp ha with ha2 | ha2
  · subst ha2
    cases s with
    | nil => exact absurd rfl hne
    | cons c0 s0 =>
      have hc0 : c0 ≠ '[' := (plainChar_spec (hp c0 (by simp))).2.1
      intro heq
      rw [List.cons_append, List.cons_append, List.cons_append] at heq
      simp [List.take] at heq
      exact hc0 heq
  · rcases List.suffix_cons_iff.mp ha2 with ha3 | ha3
    · subst ha3
      cases s with
      | nil => exact absurd rfl hne
      | cons c0 s0 =>
        have hc0 : c0 ≠ '*' := hstar c0 (by simp)
        intro heq
        rw [List.cons_append, List.cons_append] at heq
        simp [List.take] at heq
        exact hc0 heq.1
    · exact hmain a ha3 hane

theorem take1_ne_of_head {c x : Char} (l : Str) (h : c ≠ x) :
    (c :: l).take 1 ≠ [x] := by
  intro heq
  simp [List.take] at heq
  exact h heq

theorem take2_ne_of_head {c x : Char} (l : Str) {y : Char} (h : c ≠ x) :
    (c :: l).take 2 ≠ [x, y] := by
  intro heq
  simp [List.take] at heq
  exact h heq.1

theorem take2_ne_of_snd {c d x : Char} (l : Str) {y : Char} (h : d ≠ y) :
    (c :: d :: l).take 2 ≠ [x, y] := by
  intro heq
  simp [List.take] at heq
  exact h heq.2

theorem renderDoc_take1 (items : List MItem) (hwf : items.all wfItem = true)
    (hnl : headNotLink items = true) : (renderDoc items).take 1 ≠ ['['] := by
  cases items with
  | nil => simp [renderDoc]
  | cons it rest =>
    have hw : wfItem it = true := (List.all_eq_true.mp hwf it (by simp))
    cases it with
    | plain s =>
      cases s with
      | nil => simp [wfItem] at hw
      | cons c s0 =>
        have h2 : (plainChar c && s0.all plainChar) = true := hw
        have hc : c ≠ '[' := (plainChar_spec (Bool.and_eq_true _ _ ▸ h2).1).2.1
        show (((c :: s0) ++ renderDoc rest)).take 1 ≠ ['[']
        rw [List.cons_append]
        exact take1_ne_of_head _ hc
    | tok n =>
      show ((make_placeholder n ++ renderDoc rest)).take 1 ≠ ['[']
      rw [make_placeholder, List.cons_append]
      exact take1_ne_of_head _ (by decide)
    | code s =>
      show (((btick :: s ++ [btick]) ++ renderDoc rest)).take 1 ≠ ['[']
      rw [List.cons_append]
      exact take1_ne_of_head _ (by decide)
    | link d u => simp [headNotLink] at hnl
    | bold s =>
      show ((('*' :: '*' :: s ++ '*' :: '*' :: []) ++ renderDoc rest)).take 1 ≠ ['[']
      rw [List.cons_append]
      exact take1_ne_of_head _ (by decide)
    | blink d u =>
      show ((renderBoldLink d u ++ renderDoc rest)).take 1 ≠ ['[']
      rw [renderBoldLink, List.cons_append]
      exact take1_ne_of_head _ (by decide)

theorem renderDoc_take2 (items : List MItem) (hwf : items.all wfItem = true) :
    (renderDoc items).take 2 ≠ ['*', '['] := by
  cases items with
  | nil => simp [renderDoc]
  | cons it rest =>
    have hw : wfItem it = true := (List.all_eq_true.mp hwf it (by simp))
    cases it with
    | plain s =>
      cases s with
      | nil => simp [wfItem] at hw
      | cons c s0 =>
        have h2 : (plainChar c && s0.all plainChar) = true := hw
        have hc : c ≠ '*' := (plainChar_spec (Bool.and_eq_true _ _ ▸ h2).1).1
        show (((c :: s0) ++ renderDoc rest)).take 2 ≠ ['*', '[']
        rw [List.cons_append]
        exact take2_ne_of_head _ hc
    | tok n =>
      show ((make_placeholder n ++ renderDoc rest)).take 2 ≠ ['*', '[']
      rw [make_placeholder, List.cons_append]
      exact take2_ne_of_head _ (by decide)
    | code s =>
      show (((btick :: s ++ [btick]) ++ renderDoc rest)).take 2 ≠ ['*', '[']
      rw [List.cons_append]
      exact take2_ne_of_head _ (by decide)
    | link d u =>
      show ((('[' :: d ++ ']' :: '(' :: u ++ ')' :: []) ++ renderDoc rest)).take 2 ≠
        ['*', '[']
      rw [List.cons_append]
      exact take2_ne_of_head _ (by decide)
    | bold s =>
      show ((('*' :: '*' :: s ++ '*' :: '*' :: []) ++ renderDoc rest)).take 2 ≠ ['*', '[']
      rw [List.cons_append, List.cons_append]
      exact take2_ne_of_snd _ (by decide)
    | blink d u =>
      show ((renderBoldLink d u ++ renderDoc rest)).take 2 ≠ ['*', '[']
      rw [renderBoldLink, List.cons_append, List.cons_append]
      exact take2_ne_of_snd _ (by decide)

/-! ## C1: the four passes implement the symbolic transforms -/

theorem pass1_step_some {s d u rest : Str} (f k : Nat) (m : List Entry) (hs : s ≠ [])
    (h : matchBoldLink s = some (d, u, rest)) :
    pass1 (f + 1) k m s =
      (make_placeholder k ++
          (pass1 f (k + 1) (m ++ [(make_placeholder k, renderBoldLink d u)]) rest).1,
        (pass1 f (k + 1) (m ++ [(make_placeholder k, renderBoldLink d u)]) rest).2) := by
  cases s with
  | nil => exact absurd rfl hs
  | cons c s0 => exact pass1_cons_some f k m h

theorem pass2_step_some {s d u rest : Str} (f k : Nat) (m : List Entry) (hs : s ≠ [])
    (h : matchLink s = some (d, u, rest)) :
    pass2 (f + 1) k m s =
      (make_placeholder k ++ d ++ make_placeholder (k + 1) ++
          (pass2 f (k + 2)
            (m ++ [(make_placeholder k, ['[']),
              (make_placeholder (k + 1), ']' :: '(' :: u ++ [')'])]) rest).1,
        (pass2 f (k + 2)
          (m ++ [(make_placeholder k, ['[']),
            (make_placeholder (k + 1), ']' :: '(' :: u ++ [')'])]) rest).2) := by
  cases s with
  | nil => exact absurd rfl hs
  | cons c s0 => exact pass2_cons_some f k m h

theorem pass3_step_some {s inner rest : Str} (f k : Nat) (m : List Entry) (hs : s ≠ [])
    (h : matchCode s = some (inner, rest)) :
    pass3 (f + 1) k m s =
      (make_placeholder k ++
          (pass3 f (k + 1) (m ++ [(make_placeholder k, btick :: inner ++ [btick])]) rest).1,
        (pass3 f (k + 1) (m ++ [(make_placeholder k, btick :: inner ++ [btick])]) rest).2) := by
  cases s with
  | nil => exact absurd rfl hs
  | cons c s0 => exact pass3_cons_some f k m h

theorem pass4_step_some {s inner rest : Str} (f k : Nat) (m : List Entry) (hs : s ≠ [])
    (h : matchBold s = some (inner, rest)) :
    pass4 (f + 1) k m s =
      (make_placeholder k ++ inner ++ make_placeholder (k + 1) ++
          (pass4 f (k + 2)
            (m ++ [(make_placeholder k, ['*', '*']),
              (make_placeholder (k + 1), ['*', '*'])]) rest).1,
        (pass4 f (k + 2)
          (m ++ [(make_placeholder k, ['*', '*']),
            (make_placeholder (k + 1), ['*', '*'])]) rest).2) := by
  cases s with
  | nil => exact absurd rfl hs
  | cons c s0 => exact pass4_cons_some f k m h

theorem wfAdj_tail {a : MItem} {rest : List MItem} (h : wfAdj (a :: rest) = true) :
    wfAdj rest = true := by
  cases rest with
  | nil => rfl
  | cons b r => cases a <;> cases b <;> simp_all [wfAdj]

theorem wfAdj_bold_head {s : Str} {rest : List MItem}
    (h : wfAdj (.bold s :: rest) = true) : headNotLink rest = true := by
  cases rest with
  | nil => rfl
  | cons b r =>
    cases b with
    | link d u => simp [wfAdj] at h
    | plain s2 => rfl
    | tok n => rfl
    | code s2 => rfl
    | bold s2 => rfl
    | blink d u => rfl

theorem t1_correct : ∀ (items : List MItem) (k : Nat) (m : List Entry) (f : Nat),
    items.all wfItem = true → wfAdj items = true →
    (renderDoc items).length ≤ f →
    pass1 f k m (renderDoc items) =
      (renderDoc (t1 items k).1, (t1 items k).2.1, m ++ (t1 items k).2.2) := by
  intro items
  induction items with
  | nil =>
    intro k m f _ _ _
    cases f <;> simp [renderDoc, t1, pass1]
  | cons it rest ih =>
    intro k m f hwf hadj hf
    have hwf_it : wfItem it = true := List.all_eq_true.mp hwf it (by simp)
    have hwf_rest : rest.all wfItem = true := by
      rw [List.all_eq_true]
      intro x hx
      exact List.all_eq_true.mp hwf x (by simp [hx])
    have hadj_rest : wfAdj rest = true := wfAdj_tail hadj
    cases it with
    | blink d u =>
      have h2 : (d.all (fun c => plainChar c && c ≠ ']') && !u.isEmpty &&
          u.all (fun c => plainChar c && c ≠ ')')) = true := hwf_it
      have hd2 : ∀ c ∈ d, c ≠ ']' := by
        intro c hc
        have := List.all_eq_true.mp (Bool.and_eq_true _ _ ▸ (Bool.and_eq_true _ _ ▸ h2).1).1 c hc
        exact of_decide_eq_true (Bool.and_eq_true _ _ ▸ this).2
      have hu2 : ∀ c ∈ u, c ≠ ')' := by
        intro c hc
        have := List.all_eq_true.mp (Bool.and_eq_true _ _ ▸ h2).2 c hc
        exact of_decide_eq_true (Bool.and_eq_true _ _ ▸ this).2
      have hune : u ≠ [] := by
        have := (Bool.and_eq_true _ _ ▸ (Bool.and_eq_true _ _ ▸ h2).1).2
        cases u with
        | nil => cases this
        | cons a b => simp
      have hf2 : d.length + u.length + 8 + (renderDoc rest).length ≤ f := by
        have : (renderDoc (MItem.blink d u :: rest)).length =
            d.length + u.length + 8 + (renderDoc rest).length := by
          show (renderBoldLink d u ++ renderDoc rest).length = _
          simp [renderBoldLink]
          omega
        omega
      cases f with
      | zero => omega
      | succ f =>
        have hm : matchBoldLink (renderBoldLink d u ++ renderDoc rest) =
            some (d, u, renderDoc rest) :=
          matchBoldLink_complete d u (renderDoc rest) hd2 hu2 hune
        show pass1 (f + 1) k m (renderBoldLink d u ++ renderDoc rest) = _
        rw [pass1_step_some f k m (by simp [renderBoldLink]) hm,
          ih (k + 1) (m ++ [(make_placeholder k, renderBoldLink d u)]) f hwf_rest
            hadj_rest (by omega)]
        simp [t1, renderDoc, renderItem]
    | plain s =>
      have h2 : (!s.isEmpty && s.all plainChar) = true := hwf_it
      have hA : ∀ c ∈ s, c ≠ '*' := fun c hc =>
        (plainChar_spec (List.all_eq_true.mp (Bool.and_eq_true _ _ ▸ h2).2 c hc)).1
      have hf2 : s.length + (renderDoc rest).length ≤ f := by
        have : (renderDoc (MItem.plain s :: rest)).length =
            s.length + (renderDoc rest).length := by
          show (s ++ renderDoc rest).length = _
          simp
        omega
      show pass1 f k m (s ++ renderDoc rest) = _
      rw [pass1_skip s (renderDoc rest) f k m
        (fun a ha hne => safe_star_free hA a _ ha hne) (by omega),
        ih k m (f - s.length) hwf_rest hadj_rest (by omega)]
      simp [t1, renderDoc, renderItem]
    | tok n => exact absurd hwf_it (by simp [wfItem])
    | code s =>
      have h2 : (!s.isEmpty && s.all plainChar) = true := hwf_it
      have hA : ∀ c ∈ btick :: s ++ [btick], c ≠ '*' := by
        intro c hc
        rcases List.mem_cons.mp hc with h3 | h3
        · rw [h3]; decide
        · rcases List.mem_append.mp h3 with h4 | h4
          · exact (plainChar_spec (List.all_eq_true.mp (Bool.and_eq_true _ _ ▸ h2).2 c h4)).1
          · rw [List.mem_singleton.mp h4]; decide
      have hf2 : s.length + 2 + (renderDoc rest).length ≤ f := by
        have : (renderDoc (MItem.code s :: rest)).length =
            s.length + 2 + (renderDoc rest).length := by
          show ((btick :: s ++ [btick]) ++ renderDoc rest).length = _
          simp
          omega
        omega
      show pass1 f k m ((btick :: s ++ [btick]) ++ renderDoc rest) = _
      rw [pass1_skip (btick :: s ++ [btick]) (renderDoc rest) f k m
        (fun a ha hne => safe_star_free hA a _ ha hne) (by simp; omega),
        ih k m (f - (btick :: s ++ [btick]).length) hwf_rest hadj_rest (by simp; omega)]
      simp [t1, renderDoc, renderItem]
    | link d u =>
      have h2 : (d.all (fun c => plainChar c && c ≠ ']') && !u.isEmpty &&
          u.all (fun c => plainChar c && c ≠ ')')) = true := hwf_it
      have hd2 : ∀ c ∈ d, plainChar c = true := by
        intro c hc
        have := List.all_eq_true.mp (Bool.and_eq_true _ _ ▸ (Bool.and_eq_true _ _ ▸ h2).1).1 c hc
        exact (Bool.and_eq_true _ _ ▸ this).1
      have hu2 : ∀ c ∈ u, plainChar c = true := by
        intro c hc
        have := List.all_eq_true.mp (Bool.and_eq_true _ _ ▸ h2).2 c hc
        exact (Bool.and_eq_true _ _ ▸ this).1
      have hA : ∀ c ∈ '[' :: d ++ ']' :: '(' :: u ++ ')' :: [], c ≠ '*' := by
        intro c hc
        rcases List.mem_cons.mp hc with h3 | h3
        · rw [h3]; decide
        · rcases List.mem_append.mp h3 with h4 | h4
          · rcases List.mem_append.mp h4 with h5 | h5
            · exact (plainChar_spec (hd2 c h5)).1
            · rcases List.mem_cons.mp h5 with h6 | h6
              · rw [h6]; decide
              · rcases List.mem_cons.mp h6 with h7 | h7
                · rw [h7]; decide
                · exact (plainChar_spec (hu2 c h7)).1
          · rw [List.mem_singleton.mp h4]; decide
      have hf2 : d.length + u.length + 4 + (renderDoc rest).length ≤ f := by
        have : (renderDoc (MItem.link d u :: rest)).length =
            d.length + u.length + 4 + (renderDoc rest).length := by
          show (('[' :: d ++ ']' :: '(' :: u ++ ')' :: []) ++ renderDoc rest).length = _
          simp
          omega
        omega
      show pass1 f k m (('[' :: d ++ ']' :: '(' :: u ++ ')' :: []) ++ renderDoc rest) = _
      rw [pass1_skip ('[' :: d ++ ']' :: '(' :: u ++ ')' :: []) (renderDoc rest) f k m
        (fun a ha hne => safe_star_free hA a _ ha hne) (by simp; omega),
        ih k m (f - ('[' :: d ++ ']' :: '(' :: u ++ ')' :: []).length) hwf_rest hadj_rest
          (by simp; omega)]
      simp [t1, renderDoc, renderItem]
    | bold s =>
      have h2 : (!s.isEmpty && s.all (fun c => plainChar c && c ≠ '\n')) = true := hwf_it
      have hp : ∀ c ∈ s, plainChar c = true := by
        intro c hc
        have := List.all_eq_true.mp (Bool.and_eq_true _ _ ▸ h2).2 c hc
        exact (Bool.and_eq_true _ _ ▸ this).1
      have hne : s ≠ [] := by
        have := (Bool.and_eq_true _ _ ▸ h2).1
        cases s with
        | nil => cases this
        | cons a b => simp
      have ht1 : (renderDoc rest).take 1 ≠ ['['] :=
        renderDoc_take1 rest hwf_rest (wfAdj_bold_head hadj)
      have ht2 : (renderDoc rest).take 2 ≠ ['*', '['] := renderDoc_take2 rest hwf_rest
      have hf2 : s.length + 4 + (renderDoc rest).length ≤ f := by
        have : (renderDoc (MItem.bold s :: rest)).length =
            s.length + 4 + (renderDoc rest).length := by
          show (('*' :: '*' :: s ++ '*' :: '*' :: []) ++ renderDoc rest).length = _
          simp
          omega
        omega
      show pass1 f k m (('*' :: '*' :: s ++ '*' :: '*' :: []) ++ renderDoc rest) = _
      rw [pass1_skip ('*' :: '*' :: s ++ '*' :: '*' :: []) (renderDoc rest) f k m
        (fun a ha hne2 => safe_bold hne hp _ ht1 ht2 a ha hne2) (by simp; omega),
        ih k m (f - ('*' :: '*' :: s ++ '*' :: '*' :: []).length) hwf_rest hadj_rest
          (by simp; omega)]
      simp [t1, renderDoc, renderItem]

theorem t2_correct : ∀ (items : List MItem) (k : Nat) (m : List Entry) (f : Nat),
    items.all wf2Item = true →
    (renderDoc items).length ≤ f →
    pass2 f k m (renderDoc items) =
      (renderDoc (t2 items k).1, (t2 items k).2.1, m ++ (t2 items k).2.2) := by
  intro items
  induction items with
  | nil =>
    intro k m f _ _
    cases f <;> simp [renderDoc, t2, pass2]
  | cons it rest ih =>
    intro k m f hwf hf
    have hwf_it : wf2Item it = true := List.all_eq_true.mp hwf it (by simp)
    have hwf_rest : rest.all wf2Item = true := by
      rw [List.all_eq_true]
      intro x hx
      exact List.all_eq_true.mp hwf x (by simp [hx])
    cases it with
    | link d u =>
      have h2 : (d.all (fun c => plainChar c && c ≠ ']') && !u.isEmpty &&
          u.all (fun c => plainChar c && c ≠ ')')) = true := hwf_it
      have hd2 : ∀ c ∈ d, c ≠ ']' := by
        intro c hc
        have := List.all_eq_true.mp (Bool.and_eq_true _ _ ▸ (Bool.and_eq_true _ _ ▸ h2).1).1 c hc
        exact of_decide_eq_true (Bool.and_eq_true _ _ ▸ this).2
      have hu2 : ∀ c ∈ u, c ≠ ')' := by
        intro c hc
        have := List.all_eq_true.mp (Bool.and_eq_true _ _ ▸ h2).2 c hc
        exact of_decide_eq_true (Bool.and_eq_true _ _ ▸ this).2
      have hune : u ≠ [] := by
        have := (Bool.and_eq_true _ _ ▸ (Bool.and_eq_true _ _ ▸ h2).1).2
        cases u with
        | nil => cases this
        | cons a b => simp
      have hshape : (('[' :: d ++ ']' :: '(' :: u ++ ')' :: []) ++ renderDoc rest) =
          '[' :: (d ++ ']' :: '(' :: (u ++ ')' :: renderDoc rest)) := by
        simp
      have hf2 : d.length + u.length + 4 + (renderDoc rest).length ≤ f := by
        have : (renderDoc (MItem.link d u :: rest)).length =
            d.length + u.length + 4 + (renderDoc rest).length := by
          show (('[' :: d ++ ']' :: '(' :: u ++ ')' :: []) ++ renderDoc rest).length = _
          simp
          omega
        omega
      cases f with
      | zero => omega
      | succ f =>
        have hm : matchLink ('[' :: (d ++ ']' :: '(' :: (u ++ ')' :: renderDoc rest))) =
            some (d, u, renderDoc rest) :=
          matchLink_complete d u (renderDoc rest) hd2 hu2 hune
        show pass2 (f + 1) k m (('[' :: d ++ ']' :: '(' :: u ++ ')' :: []) ++ renderDoc rest) = _
        rw [hshape, pass2_step_some f k m (by simp) hm,
          ih (k + 2) (m ++ [(make_placeholder k, ['[']),
            (make_placeholder (k + 1), ']' :: '(' :: u ++ [')'])]) f hwf_rest (by omega)]
        simp [t2, renderDoc, renderItem, List.append_assoc]
    | plain s =>
      have h2 : s.all plainChar = true := hwf_it
      have hA : ∀ c ∈ s, c ≠ '[' := fun c hc =>
        (plainChar_spec (List.all_eq_true.mp h2 c hc)).2.1
      have hf2 : s.length + (renderDoc rest).length ≤ f := by
        have : (renderDoc (MItem.plain s :: rest)).length =
            s.length + (renderDoc rest).length := by
          show (s ++ renderDoc rest).length = _
          simp
        omega
      show pass2 f k m (s ++ renderDoc rest) = _
      rw [pass2_skip s (renderDoc rest) f k m hA (by omega),
        ih k m (f - s.length) hwf_rest (by omega)]
      simp [t2, renderDoc, renderItem]
    | tok n =>
      have hA : ∀ c ∈ make_placeholder n, c ≠ '[' :=
        tok_char_ne n (by decide) (by decide) (by decide)
      have hf2 : (make_placeholder n).length + (renderDoc rest).length ≤ f := by
        have : (renderDoc (MItem.tok n :: rest)).length =
            (make_placeholder n).length + (renderDoc rest).length := by
          show (make_placeholder n ++ renderDoc rest).length = _
          simp
        omega
      show pass2 f k m (make_placeholder n ++ renderDoc rest) = _
      rw [pass2_skip (make_placeholder n) (renderDoc rest) f k m hA (by omega),
        ih k m (f - (make_placeholder n).length) hwf_rest (by omega)]
      simp [t2, renderDoc, renderItem]
    | code s =>
      have h2 : (!s.isEmpty && s.all plainChar) = true := hwf_it
      have hA : ∀ c ∈ btick :: s ++ [btick], c ≠ '[' := by
        intro c hc
        rcases List.mem_cons.mp hc with h3 | h3
        · rw [h3]; decide
        · rcases List.mem_append.mp h3 with h4 | h4
          · exact (plainChar_spec (List.all_eq_true.mp (Bool.and_eq_true _ _ ▸ h2).2 c h4)).2.1
          · rw [List.mem_singleton.mp h4]; decide
      have hf2 : s.length + 2 + (renderDoc rest).length ≤ f := by
        have : (renderDoc (MItem.code s :: rest)).length =
            s.length + 2 + (renderDoc rest).length := by
          show ((btick :: s ++ [btick]) ++ renderDoc rest).length = _
          simp
          omega
        omega
      show pass2 f k m ((btick :: s ++ [btick]) ++ renderDoc rest) = _
      rw [pass2_skip (btick :: s ++ [btick]) (renderDoc rest) f k m hA (by simp; omega),
        ih k m (f - (btick :: s ++ [btick]).length) hwf_rest (by simp; omega)]
      simp [t2, renderDoc, renderItem]
    | bold s =>
      have h2 : (!s.isEmpty && s.all (fun c => plainChar c && c ≠ '\n')) = true := hwf_it
      have hA : ∀ c ∈ '*' :: '*' :: s ++ '*' :: '*' :: [], c ≠ '[' := by
        intro c hc
        rcases List.mem_cons.mp hc with h3 | h3
        · rw [h3]; decide
        · rcases List.mem_cons.mp h3 with h4 | h4
          · rw [h4]; decide
          · rcases List.mem_append.mp h4 with h5 | h5
            · have := List.all_eq_true.mp (Bool.and_eq_true _ _ ▸ h2).2 c h5
              exact (plainChar_spec (Bool.and_eq_true _ _ ▸ this).1).2.1
            · rcases List.mem_cons.mp h5 with h6 | h6
              · rw [h6]; decide
              · rw [List.mem_singleton.mp h6]; decide
      have hf2 : s.length + 4 + (renderDoc rest).length ≤ f := by
        have : (renderDoc (MItem.bold s :: rest)).length =
            s.length + 4 + (renderDoc rest).length := by
          show (('*' :: '*' :: s ++ '*' :: '*' :: []) ++ renderDoc rest).length = _
          simp
          omega
        omega
      show pass2 f k m (('*' :: '*' :: s ++ '*' :: '*' :: []) ++ renderDoc rest) = _
      rw [pass2_skip ('*' :: '*' :: s ++ '*' :: '*' :: []) (renderDoc rest) f k m hA
          (by simp; omega),
        ih k m (f - ('*' :: '*' :: s ++ '*' :: '*' :: []).length) hwf_rest (by simp; omega)]
      simp [t2, renderDoc, renderItem]
    | blink d u => exact absurd hwf_it (by simp [wf2Item])

theorem t3_correct : ∀ (items : List MItem) (k : Nat) (m : List Entry) (f : Nat),
    items.all wf3Item = true →
    (renderDoc items).length ≤ f →
    pass3 f k m (renderDoc items) =
      (renderDoc (t3 items k).1, (t3 items k).2.1, m ++ (t3 items k).2.2) := by
  intro items
  induction items with
  | nil =>
    intro k m f _ _
    cases f <;> simp [renderDoc, t3, pass3]
  | cons it rest ih =>
    intro k m f hwf hf
    have hwf_it : wf3Item it = true := List.all_eq_true.mp hwf it (by simp)
    have hwf_rest : rest.all wf3Item = true := by
      rw [List.all_eq_true]
      intro x hx
      exact List.all_eq_true.mp hwf x (by simp [hx])
    cases it with
    | code s =>
      have h2 : (!s.isEmpty && s.all plainChar) = true := hwf_it
      have hb2 : ∀ c ∈ s, c ≠ btick := fun c hc =>
        (plainChar_spec (List.all_eq_true.mp (Bool.and_eq_true _ _ ▸ h2).2 c hc)).2.2.1
      have hne : s ≠ [] := by
        have := (Bool.and_eq_true _ _ ▸ h2).1
        cases s with
        | nil => cases this
        | cons a b => simp
      have hshape : ((btick :: s ++ [btick]) ++ renderDoc rest) =
          btick :: (s ++ btick :: renderDoc rest) := by
        simp
      have hf2 : s.length + 2 + (renderDoc rest).length ≤ f := by
        have : (renderDoc (MItem.code s :: rest)).length =
            s.length + 2 + (renderDoc rest).length := by
          show ((btick :: s ++ [btick]) ++ renderDoc rest).length = _
          simp
          omega
        omega
      cases f with
      | zero => omega
      | succ f =>
        have hm : matchCode (btick :: (s ++ btick :: renderDoc rest)) =
            some (s, renderDoc rest) :=
          matchCode_complete s (renderDoc rest) hne hb2
        show pass3 (f + 1) k m ((btick :: s ++ [btick]) ++ renderDoc rest) = _
        rw [hshape, pass3_step_some f k m (by simp) hm,
          ih (k + 1) (m ++ [(make_placeholder k, btick :: s ++ [btick])]) f hwf_rest
            (by omega)]
        simp [t3, renderDoc, renderItem]
    | plain s =>
      have h2 : s.all plainChar = true := hwf_it
      have hA : ∀ c ∈ s, c ≠ btick := fun c hc =>
        (plainChar_spec (List.all_eq_true.mp h2 c hc)).2.2.1
      have hf2 : s.length + (renderDoc rest).length ≤ f := by
        have : (renderDoc (MItem.plain s :: rest)).length =
            s.length + (renderDoc rest).length := by
          show (s ++ renderDoc rest).length = _
          simp
        omega
      show pass3 f k m (s ++ renderDoc rest) = _
      rw [pass3_skip s (renderDoc rest) f k m hA (by omega),
        ih k m (f - s.length) hwf_rest (by omega)]
      simp [t3, renderDoc, renderItem]
    | tok n =>
      have hA : ∀ c ∈ make_placeholder n, c ≠ btick :=
        tok_char_ne n (by decide) (by decide) (by decide)
      have hf2 : (make_placeholder n).length + (renderDoc rest).length ≤ f := by
        have : (renderDoc (MItem.tok n :: rest)).length =
            (make_placeholder n).length + (renderDoc rest).length := by
          show (make_placeholder n ++ renderDoc rest).length = _
          simp
        omega
      show pass3 f k m (make_placeholder n ++ renderDoc rest) = _
      rw [pass3_skip (make_placeholder n) (renderDoc rest) f k m hA (by omega),
        ih k m (f - (make_placeholder n).length) hwf_rest (by omega)]
      simp [t3, renderDoc, renderItem]
    | bold s =>
      have h2 : (!s.isEmpty && s.all (fun c => plainChar c && c ≠ '\n')) = true := hwf_it
      have hA : ∀ c ∈ '*' :: '*' :: s ++ '*' :: '*' :: [], c ≠ btick := by
        intro c hc
        rcases List.mem_cons.mp hc with h3 | h3
        · rw [h3]; decide
        · rcases List.mem_cons.mp h3 with h4 | h4
          · rw [h4]; decide
          · rcases List.mem_append.mp h4 with h5 | h5
            · have := List.all_eq_true.mp (Bool.and_eq_true _ _ ▸ h2).2 c h5
              exact (plainChar_spec (Bool.and_eq_true _ _ ▸ this).1).2.2.1
            · rcases List.mem_cons.mp h5 with h6 | h6
              · rw [h6]; decide
              · rw [List.mem_singleton.mp h6]; decide
      have hf2 : s.length + 4 + (renderDoc rest).length ≤ f := by
        have : (renderDoc (MItem.bold s :: rest)).length =
            s.length + 4 + (renderDoc rest).length := by
          show (('*' :: '*' :: s ++ '*' :: '*' :: []) ++ renderDoc rest).length = _
          simp
          omega
        omega
      show pass3 f k m (('*' :: '*' :: s ++ '*' :: '*' :: []) ++ renderDoc rest) = _
      rw [pass3_skip ('*' :: '*' :: s ++ '*' :: '*' :: []) (renderDoc rest) f k m hA
          (by simp; omega),
        ih k m (f - ('*' :: '*' :: s ++ '*' :: '*' :: []).length) hwf_rest (by simp; omega)]
      simp [t3, renderDoc, renderItem]
    | link d u => exact absurd hwf_it (by simp [wf3Item])
    | blink d u => exact absurd hwf_it (by simp [wf3Item])

theorem t4_correct : ∀ (items : List MItem) (k : Nat) (m : List Entry) (f : Nat),
    items.all wf4Item = true →
    (renderDoc items).length ≤ f →
    pass4 f k m (renderDoc items) =
      (renderDoc (t4 items k).1, (t4 items k).2.1, m ++ (t4 items k).2.2) := by
  intro items
  induction items with
  | nil =>
    intro k m f _ _
    cases f <;> simp [renderDoc, t4, pass4]
  | cons it rest ih =>
    intro k m f hwf hf
    have hwf_it : wf4Item it = true := List.all_eq_true.mp hwf it (by simp)
    have hwf_rest : rest.all wf4Item = true := by
      rw [List.all_eq_true]
      intro x hx
      exact List.all_eq_true.mp hwf x (by simp [hx])
    cases it with
    | bold s =>
      have h2 : (!s.isEmpty && s.all (fun c => plainChar c && c ≠ '\n')) = true := hwf_it
      have hstar : ∀ c ∈ s, c ≠ '*' := by
        intro c hc
        have := List.all_eq_true.mp (Bool.and_eq_true _ _ ▸ h2).2 c hc
        exact (plainChar_spec (Bool.and_eq_true _ _ ▸ this).1).1
      have hnl : ∀ c ∈ s, c ≠ '\n' := by
        intro c hc
        have := List.all_eq_true.mp (Bool.and_eq_true _ _ ▸ h2).2 c hc
        exact of_decide_eq_true (Bool.and_eq_true _ _ ▸ this).2
      have hne : s ≠ [] := by
        have := (Bool.and_eq_true _ _ ▸ h2).1
        cases s with
        | nil => cases this
        | cons a b => simp
      have hshape : (('*' :: '*' :: s ++ '*' :: '*' :: []) ++ renderDoc rest) =
          '*' :: '*' :: (s ++ '*' :: '*' :: renderDoc rest) := by
        simp
      have hf2 : s.length + 4 + (renderDoc rest).length ≤ f := by
        have : (renderDoc (MItem.bold s :: rest)).length =
            s.length + 4 + (renderDoc rest).length := by
          show (('*' :: '*' :: s ++ '*' :: '*' :: []) ++ renderDoc rest).length = _
          simp
          omega
        omega
      cases f with
      | zero => omega
      | succ f =>
        have hm : matchBold ('*' :: '*' :: (s ++ '*' :: '*' :: renderDoc rest)) =
            some (s, renderDoc rest) := by
          rw [matchBold_stars]
          exact boldClose_complete s (renderDoc rest) hne hstar hnl
        show pass4 (f + 1) k m (('*' :: '*' :: s ++ '*' :: '*' :: []) ++ renderDoc rest) = _
        rw [hshape, pass4_step_some f k m (by simp) hm,
          ih (k + 2) (m ++ [(make_placeholder k, ['*', '*']),
            (make_placeholder (k + 1), ['*', '*'])]) f hwf_rest (by omega)]
        simp [t4, renderDoc, renderItem, List.append_assoc]
    | plain s =>
      have h2 : s.all plainChar = true := hwf_it
      have hA : ∀ c ∈ s, c ≠ '*' := fun c hc =>
        (plainChar_spec (List.all_eq_true.mp h2 c hc)).1
      have hf2 : s.length + (renderDoc rest).length ≤ f := by
        have : (renderDoc (MItem.plain s :: rest)).length =
            s.length + (renderDoc rest).length := by
          show (s ++ renderDoc rest).length = _
          simp
        omega
      show pass4 f k m (s ++ renderDoc rest) = _
      rw [pass4_skip s (renderDoc rest) f k m hA (by omega),
        ih k m (f - s.length) hwf_rest (by omega)]
      simp [t4, renderDoc, renderItem]
    | tok n =>
      have hA : ∀ c ∈ make_placeholder n, c ≠ '*' :=
        tok_char_ne n (by decide) (by decide) (by decide)
      have hf2 : (make_placeholder n).length + (renderDoc rest).length ≤ f := by
        have : (renderDoc (MItem.tok n :: rest)).length =
            (make_placeholder n).length + (renderDoc rest).length := by
          show (make_placeholder n ++ renderDoc rest).length = _
          simp
        omega
      show pass4 f k m (make_placeholder n ++ renderDoc rest) = _
      rw [pass4_skip (make_placeholder n) (renderDoc rest) f k m hA (by omega),
        ih k m (f - (make_placeholder n).length) hwf_rest (by omega)]
      simp [t4, renderDoc, renderItem]
    | code s => exact absurd hwf_it (by simp [wf4Item])
    | link d u => exact absurd hwf_it (by simp [wf4Item])
    | blink d u => exact absurd hwf_it (by simp [wf4Item])

/-! ## C1: rendering with a placeholder map, and map-lookup facts -/

theorem renderP_cons_tok (E : List Entry) (n : Nat) (rest : List MItem) :
    renderP E (.tok n :: rest) =
      ((E.lookup (make_placeholder n)).getD (make_placeholder n)) ++ renderP E rest := rfl

theorem renderP_cons_plain (E : List Entry) (s : Str) (rest : List MItem) :
    renderP E (.plain s :: rest) = s ++ renderP E rest := rfl

theorem renderP_cons_code (E : List Entry) (s : Str) (rest : List MItem) :
    renderP E (.code s :: rest) = (btick :: s ++ [btick]) ++ renderP E rest := rfl

theorem renderP_cons_link (E : List Entry) (d u : Str) (rest : List MItem) :
    renderP E (.link d u :: rest) =
      ('[' :: d ++ ']' :: '(' :: u ++ ')' :: []) ++ renderP E rest := rfl

theorem renderP_cons_bold (E : List Entry) (s : Str) (rest : List MItem) :
    renderP E (.bold s :: rest) =
      ('*' :: '*' :: s ++ '*' :: '*' :: []) ++ renderP E rest := rfl

theorem renderP_cons_blink (E : List Entry) (d u : Str) (rest : List MItem) :
    renderP E (.blink d u :: rest) = renderBoldLink d u ++ renderP E rest := rfl

/-- On a token-free item list every map resolves to the plain rendering. -/
theorem renderP_no_tok (E : List Entry) :
    ∀ items : List MItem, (∀ n, MItem.tok n ∉ items) →
      renderP E items = renderDoc items := by
  intro items
  induction items with
  | nil => intro _; rfl
  | cons it rest ih =>
    intro h
    have hrest : ∀ n, MItem.tok n ∉ rest := fun n hn => h n (by simp [hn])
    cases it with
    | tok n => exact absurd (by simp) (h n)
    | plain s => rw [renderP_cons_plain, ih hrest]; rfl
    | code s => rw [renderP_cons_code, ih hrest]; rfl
    | link d u => rw [renderP_cons_link, ih hrest]; rfl
    | bold s => rw [renderP_cons_bold, ih hrest]; rfl
    | blink d u => rw [renderP_cons_blink, ih hrest]; rfl

theorem wfItem_no_tok {it : MItem} (h : wfItem it = true) : ∀ n, it ≠ MItem.tok n := by
  intro n he
  rw [he] at h
  exact absurd h (by simp [wfItem])

theorem renderDoc_no_phPre :
    ∀ items : List MItem, items.all wfItem = true →
      ∀ c ∈ renderDoc items, c ≠ phPre := by
  intro items
  induction items with
  | nil => intro _ c hc; cases hc
  | cons it rest ih =>
    intro hwf c hc
    have hwf_it : wfItem it = true := List.all_eq_true.mp hwf it (by simp)
    have hwf_rest : rest.all wfItem = true := by
      rw [List.all_eq_true]
      intro x hx
      exact List.all_eq_true.mp hwf x (by simp [hx])
    have hc2 : c ∈ renderItem it ∨ c ∈ renderDoc rest := by
      have : renderDoc (it :: rest) = renderItem it ++ renderDoc rest := rfl
      rw [this] at hc
      exact List.mem_append.mp hc
    rcases hc2 with h3 | h3
    · cases it with
      | tok n => exact absurd hwf_it (by simp [wfItem])
      | plain s =>
        have h2 : (!s.isEmpty && s.all plainChar) = true := hwf_it
        exact (plainChar_spec (List.all_eq_true.mp (Bool.and_eq_true _ _ ▸ h2).2 c h3)).2.2.2.1
      | code s =>
        have h2 : (!s.isEmpty && s.all plainChar) = true := hwf_it
        rcases List.mem_cons.mp h3 with h4 | h4
        · rw [h4]; decide
        · rcases List.mem_append.mp h4 with h5 | h5
          · exact (plainChar_spec (List.all_eq_true.mp (Bool.and_eq_true _ _ ▸ h2).2 c h5)).2.2.2.1
          · rw [List.mem_singleton.mp h5]; decide
      | link d u =>
        have h2 : (d.all (fun c => plainChar c && c ≠ ']') && !u.isEmpty &&
            u.all (fun c => plainChar c && c ≠ ')')) = true := hwf_it
        have hd2 : ∀ x ∈ d, plainChar x = true := by
          intro x hx
          have := List.all_eq_true.mp (Bool.and_eq_true _ _ ▸ (Bool.and_eq_true _ _ ▸ h2).1).1 x hx
          exact (Bool.and_eq_true _ _ ▸ this).1
        have hu2 : ∀ x ∈ u, plainChar x = true := by
          intro x hx
          have := List.all_eq_true.mp (Bool.and_eq_true _ _ ▸ h2).2 x hx
          exact (Bool.and_eq_true _ _ ▸ this).1
        rcases List.mem_cons.mp h3 with h4 | h4
        · rw [h4]; decide
        · rcases List.mem_append.mp h4 with h5 | h5
          · rcases List.mem_append.mp h5 with h6 | h6
            · exact (plainChar_spec (hd2 c h6)).2.2.2.1
            · rcases List.mem_cons.mp h6 with h7 | h7
              · rw [h7]; decide
              · rcases List.mem_cons.mp h7 with h8 | h8
                · rw [h8]; decide
                · exact (plainChar_spec (hu2 c h8)).2.2.2.1
          · rw [List.mem_singleton.mp h5]; decide
      | bold s =>
        have h2 : (!s.isEmpty && s.all (fun c => plainChar c && c ≠ '\n')) = true := hwf_it
        rcases List.mem_cons.mp h3 with h4 | h4
        · rw [h4]; decide
        · rcases List.mem_cons.mp h4 with h5 | h5
          · rw [h5]; decide
          · rcases List.mem_append.mp h5 with h6 | h6
            · have := List.all_eq_true.mp (Bool.and_eq_true _ _ ▸ h2).2 c h6
              exact (plainChar_spec (Bool.and_eq_true _ _ ▸ this).1).2.2.2.1
            · rcases List.mem_cons.mp h6 with h7 | h7
              · rw [h7]; decide
              · rw [List.mem_singleton.mp h7]; decide
      | blink d u =>
        have h2 : (d.all (fun c => plainChar c && c ≠ ']') && !u.isEmpty &&
            u.all (fun c => plainChar c && c ≠ ')')) = true := hwf_it
        have hd2 : ∀ x ∈ d, plainChar x = true := by
          intro x hx
          have := List.all_eq_true.mp (Bool.and_eq_true _ _ ▸ (Bool.and_eq_true _ _ ▸ h2).1).1 x hx
          exact (Bool.and_eq_true _ _ ▸ this).1
        have hu2 : ∀ x ∈ u, plainChar x = true := by
          intro x hx
          have := List.all_eq_true.mp (Bool.and_eq_true _ _ ▸ h2).2 x hx
          exact (Bool.and_eq_true _ _ ▸ this).1
        have hshape : renderItem (.blink d u) =
            '*' :: '*' :: '[' :: (d ++ ']' :: '(' :: (u ++ ')' :: '*' :: '*' :: [])) := by
          show renderBoldLink d u = _
          simp [renderBoldLink]
        rw [hshape] at h3
        rcases List.mem_cons.mp h3 with h4 | h4
        · rw [h4]; decide
        · rcases List.mem_cons.mp h4 with h5 | h5
          · rw [h5]; decide
          · rcases List.mem_cons.mp h5 with h6 | h6
            · rw [h6]; decide
            · rcases List.mem_append.mp h6 with h7 | h7
              · exact (plainChar_spec (hd2 c h7)).2.2.2.1
              · rcases List.mem_cons.mp h7 with h8 | h8
                · rw [h8]; decide
                · rcases List.mem_cons.mp h8 with h9 | h9
                  · rw [h9]; decide
                  · rcases List.mem_append.mp h9 with h10 | h10
                    · exact (plainChar_spec (hu2 c h10)).2.2.2.1
                    · rcases List.mem_cons.mp h10 with h11 | h11
                      · rw [h11]; decide
                      · rcases List.mem_cons.mp h11 with h12 | h12
                        · rw [h12]; decide
                        · rw [List.mem_singleton.mp h12]; decide
    · exact ih hwf_rest c h3

theorem matchTok_none_head {c : Char} (s : Str) (h : c ≠ phPre) :
    matchTok (c :: s) = none := by
  simp only [matchTok]
  rw [if_neg h]

theorem cleanSpurious_id (known : List Str) :
    ∀ f s, (∀ c ∈ s, c ≠ phPre) → s.length ≤ f → cleanSpurious known f s = s := by
  intro f
  induction f with
  | zero =>
    intro s _ hf
    have hs : s = [] := List.length_eq_zero.mp (Nat.le_zero.mp hf)
    rw [hs]
    rfl
  | succ f ih =>
    intro s h hf
    cases s with
    | nil => rfl
    | cons c s0 =>
      show cleanSpurious known (f + 1) (c :: s0) = c :: s0
      unfold cleanSpurious
      rw [matchTok_none_head s0 (h c (by simp))]
      rw [ih s0 (fun x hx => h x (by simp [hx])) (by simpa using hf)]

theorem lookup_cons (k : Str) (e : Entry) (E : List Entry) :
    List.lookup k (e :: E) = if k == e.1 then some e.2 else List.lookup k E := by
  obtain ⟨a, b⟩ := e
  by_cases h : k == a
  · simp [List.lookup, h]
  · simp [List.lookup, h]

theorem lookup_append_some {E E2 : List Entry} {k v : Str}
    (h : E.lookup k = some v) : (E ++ E2).lookup k = some v := by
  induction E with
  | nil => cases h
  | cons e E0 ih =>
    rw [List.cons_append, lookup_cons]
    rw [lookup_cons] at h
    by_cases hk : k == e.1
    · rw [if_pos hk]
      rw [if_pos hk] at h
      exact h
    · rw [if_neg hk]
      rw [if_neg hk] at h
      exact ih h

theorem lookup_append_none {E E2 : List Entry} {k : Str}
    (h : E.lookup k = none) : (E ++ E2).lookup k = E2.lookup k := by
  induction E with
  | nil => rfl
  | cons e E0 ih =>
    rw [List.cons_append, lookup_cons]
    rw [lookup_cons] at h
    by_cases hk : k == e.1
    · rw [if_pos hk] at h
      cases h
    · rw [if_neg hk]
      rw [if_neg hk] at h
      exact ih h

theorem lookup_of_mem_nodup :
    ∀ (E : List Entry) (e : Entry), e ∈ E → (E.map Prod.fst).Nodup →
      E.lookup e.1 = some e.2 := by
  intro E
  induction E with
  | nil => intro e he; cases he
  | cons x E0 ih =>
    intro e he hn
    have hn2 : (E0.map Prod.fst).Nodup := (List.nodup_cons.mp hn).2
    rcases List.mem_cons.mp he with h | h
    · subst h
      rw [lookup_cons, if_pos (by simp)]
    · have hne : e.1 ≠ x.1 := by
        intro heq
        exact (List.nodup_cons.mp hn).1 (heq ▸ List.mem_map_of_mem Prod.fst h)
      rw [lookup_cons, if_neg (by simpa using hne)]
      exact ih e h hn2

theorem lookup_perm :
    ∀ {E E2 : List Entry}, E.Perm E2 → (E.map Prod.fst).Nodup →
      ∀ k, E.lookup k = E2.lookup k := by
  intro E E2 h
  induction h with
  | nil => intro _ _; rfl
  | cons x h2 ih =>
    intro hn k
    rw [lookup_cons, lookup_cons]
    by_cases hk : k == x.1
    · rw [if_pos hk, if_pos hk]
    · rw [if_neg hk, if_neg hk]
      exact ih (List.nodup_cons.mp hn).2 k
  | swap x y l =>
    intro hn k
    rw [lookup_cons, lookup_cons, lookup_cons, lookup_cons]
    by_cases hky : k == y.1
    · by_cases hkx : k == x.1
      · exfalso
        have h1 : k = y.1 := beq_iff_eq.mp hky
        have h2 : k = x.1 := beq_iff_eq.mp hkx
        have h3 : y.1 ∈ (x :: l).map Prod.fst := by
          simp only [List.map_cons, List.mem_cons]
          exact Or.inl (h1 ▸ h2)
        exact (List.nodup_cons.mp hn).1 (by simpa using h3)
      · rw [if_pos hky, if_neg hkx, if_pos hky]
    · by_cases hkx : k == x.1
      · rw [if_neg hky, if_pos hkx, if_pos hkx]
      · rw [if_neg hky, if_neg hkx, if_neg hkx, if_neg hky]
  | trans h1 h2 ih1 ih2 =>
    intro hn k
    rw [ih1 hn k]
    exact ih2 ((h1.map Prod.fst).nodup_iff.mp hn) k

theorem insertByLen_perm (e : Entry) : ∀ l : List Entry, (insertByLen e l).Perm (e :: l) := by
  intro l
  induction l with
  | nil => exact List.Perm.refl _
  | cons x xs ih =>
    show (if x.1.length ≤ e.1.length then e :: x :: xs else x :: insertByLen e xs).Perm _
    by_cases hle : x.1.length ≤ e.1.length
    · rw [if_pos hle]
    · rw [if_neg hle]
      exact (ih.cons x).trans (List.Perm.swap e x xs)

theorem sortByLenDesc_perm : ∀ E : List Entry, (sortByLenDesc E).Perm E := by
  intro E
  induction E with
  | nil => exact List.Perm.refl _
  | cons e E0 ih =>
    show (insertByLen e (sortByLenDesc E0)).Perm (e :: E0)
    exact (insertByLen_perm e (sortByLenDesc E0)).trans (ih.cons e)

/-! ## C1: bookkeeping of the placeholder counter and the created entries -/

theorem t1_counter : ∀ (items : List MItem) (k : Nat), k ≤ (t1 items k).2.1 := by
  intro items
  induction items with
  | nil => intro k; exact le_refl k
  | cons it rest ih =>
    intro k
    cases it with
    | blink d u =>
      show k ≤ (t1 rest (k + 1)).2.1
      exact le_trans (by omega) (ih (k + 1))
    | plain s => show k ≤ (t1 rest k).2.1; exact ih k
    | tok n => show k ≤ (t1 rest k).2.1; exact ih k
    | code s => show k ≤ (t1 rest k).2.1; exact ih k
    | link d u => show k ≤ (t1 rest k).2.1; exact ih k
    | bold s => show k ≤ (t1 rest k).2.1; exact ih k

theorem t2_counter : ∀ (items : List MItem) (k : Nat), k ≤ (t2 items k).2.1 := by
  intro items
  induction items with
  | nil => intro k; exact le_refl k
  | cons it rest ih =>
    intro k
    cases it with
    | link d u =>
      show k ≤ (t2 rest (k + 2)).2.1
      exact le_trans (by omega) (ih (k + 2))
    | plain s => show k ≤ (t2 rest k).2.1; exact ih k
    | tok n => show k ≤ (t2 rest k).2.1; exact ih k
    | code s => show k ≤ (t2 rest k).2.1; exact ih k
    | bold s => show k ≤ (t2 rest k).2.1; exact ih k
    | blink d u => show k ≤ (t2 rest k).2.1; exact ih k

theorem t3_counter : ∀ (items : List MItem) (k : Nat), k ≤ (t3 items k).2.1 := by
  intro items
  induction items with
  | nil => intro k; exact le_refl k
  | cons it rest ih =>
    intro k
    cases it with
    | code s =>
      show k ≤ (t3 rest (k + 1)).2.1
      exact le_trans (by omega) (ih (k + 1))
    | plain s => show k ≤ (t3 rest k).2.1; exact ih k
    | tok n => show k ≤ (t3 rest k).2.1; exact ih k
    | link d u => show k ≤ (t3 rest k).2.1; exact ih k
    | bold s => show k ≤ (t3 rest k).2.1; exact ih k
    | blink d u => show k ≤ (t3 rest k).2.1; exact ih k

theorem t4_counter : ∀ (items : List MItem) (k : Nat), k ≤ (t4 items k).2.1 := by
  intro items
  induction items with
  | nil => intro k; exact le_refl k
  | cons it rest ih =>
    intro k
    cases it with
    | bold s =>
      show k ≤ (t4 rest (k + 2)).2.1
      exact le_trans (by omega) (ih (k + 2))
    | plain s => show k ≤ (t4 rest k).2.1; exact ih k
    | tok n => show k ≤ (t4 rest k).2.1; exact ih k
    | link d u => show k ≤ (t4 rest k).2.1; exact ih k
    | code s => show k ≤ (t4 rest k).2.1; exact ih k
    | blink d u => show k ≤ (t4 rest k).2.1; exact ih k

theorem t1_keys : ∀ (items : List MItem) (k : Nat) (e : Entry),
    e ∈ (t1 items k).2.2 →
    ∃ n, e.1 = make_placeholder n ∧ k ≤ n ∧ n < (t1 items k).2.1 := by
  intro items
  induction items with
  | nil => intro k e he; cases he
  | cons it rest ih =>
    intro k e he
    cases it with
    | blink d u =>
      have he2 : e ∈ (make_placeholder k, renderBoldLink d u) :: (t1 rest (k + 1)).2.2 := he
      rcases List.mem_cons.mp he2 with h | h
      · refine ⟨k, by rw [h], le_refl k, ?_⟩
        show k < (t1 rest (k + 1)).2.1
        exact lt_of_lt_of_le (by omega) (t1_counter rest (k + 1))
      · obtain ⟨n, h1, h2, h3⟩ := ih (k + 1) e h
        exact ⟨n, h1, by omega, h3⟩
    | plain s => exact ih k e he
    | tok n => exact ih k e he
    | code s => exact ih k e he
    | link d u => exact ih k e he
    | bold s => exact ih k e he

theorem t2_keys : ∀ (items : List MItem) (k : Nat) (e : Entry),
    e ∈ (t2 items k).2.2 →
    ∃ n, e.1 = make_placeholder n ∧ k ≤ n ∧ n < (t2 items k).2.1 := by
  intro items
  induction items with
  | nil => intro k e he; cases he
  | cons it rest ih =>
    intro k e he
    cases it with
    | link d u =>
      have he2 : e ∈ (make_placeholder k, ['[']) ::
          (make_placeholder (k + 1), ']' :: '(' :: u ++ [')']) :: (t2 rest (k + 2)).2.2 := he
      rcases List.mem_cons.mp he2 with h | h
      · refine ⟨k, by rw [h], le_refl k, ?_⟩
        show k < (t2 rest (k + 2)).2.1
        exact lt_of_lt_of_le (by omega) (t2_counter rest (k + 2))
      · rcases List.mem_cons.mp h with h2 | h2
        · refine ⟨k + 1, by rw [h2], by omega, ?_⟩
          show k + 1 < (t2 rest (k + 2)).2.1
          exact lt_of_lt_of_le (by omega) (t2_counter rest (k + 2))
        · obtain ⟨n, h1, h3, h4⟩ := ih (k + 2) e h2
          exact ⟨n, h1, by omega, h4⟩
    | plain s => exact ih k e he
    | tok n => exact ih k e he
    | code s => exact ih k e he
    | bold s => exact ih k e he
    | blink d u => exact ih k e he

theorem t3_keys : ∀ (items : List MItem) (k : Nat) (e : Entry),
    e ∈ (t3 items k).2.2 →
    ∃ n, e.1 = make_placeholder n ∧ k ≤ n ∧ n < (t3 items k).2.1 := by
  intro items
  induction items with
  | nil => intro k e he; cases he
  | cons it rest ih =>
    intro k e he
    cases it with
    | code s =>
      have he2 : e ∈ (make_placeholder k, btick :: s ++ [btick]) :: (t3 rest (k + 1)).2.2 := he
      rcases List.mem_cons.mp he2 with h | h
      · refine ⟨k, by rw [h], le_refl k, ?_⟩
        show k < (t3 rest (k + 1)).2.1
        exact lt_of_lt_of_le (by omega) (t3_counter rest (k + 1))
      · obtain ⟨n, h1, h2, h3⟩ := ih (k + 1) e h
        exact ⟨n, h1, by omega, h3⟩
    | plain s => exact ih k e he
    | tok n => exact ih k e he
    | link d u => exact ih k e he
    | bold s => exact ih k e he
    | blink d u => exact ih k e he

theorem t4_keys : ∀ (items : List MItem) (k : Nat) (e : Entry),
    e ∈ (t4 items k).2.2 →
    ∃ n, e.1 = make_placeholder n ∧ k ≤ n ∧ n < (t4 items k).2.1 := by
  intro items
  induction items with
  | nil => intro k e he; cases he
  | cons it rest ih =>
    intro k e he
    cases it with
    | bold s =>
      have he2 : e ∈ (make_placeholder k, ['*', '*']) ::
          (make_placeholder (k + 1), ['*', '*']) :: (t4 rest (k + 2)).2.2 := he
      rcases List.mem_cons.mp he2 with h | h
      · refine ⟨k, by rw [h], le_refl k, ?_⟩
        show k < (t4 rest (k + 2)).2.1
        exact lt_of_lt_of_le (by omega) (t4_counter rest (k + 2))
      · rcases List.mem_cons.mp h with h2 | h2
        · refine ⟨k + 1, by rw [h2], by omega, ?_⟩
          show k + 1 < (t4 rest (k + 2)).2.1
          exact lt_of_lt_of_le (by omega) (t4_counter rest (k + 2))
        · obtain ⟨n, h1, h3, h4⟩ := ih (k + 2) e h2
          exact ⟨n, h1, by omega, h4⟩
    | plain s => exact ih k e he
    | tok n => exact ih k e he
    | link d u => exact ih k e he
    | code s => exact ih k e he
    | blink d u => exact ih k e he

theorem t1_keys_nodup : ∀ (items : List MItem) (k : Nat),
    (((t1 items k).2.2).map Prod.fst).Nodup := by
  intro items
  induction items with
  | nil => intro k; exact List.nodup_nil
  | cons it rest ih =>
    intro k
    cases it with
    | blink d u =>
      show (((make_placeholder k, renderBoldLink d u) :: (t1 rest (k + 1)).2.2).map
          Prod.fst).Nodup
      rw [List.map_cons]
      refine List.nodup_cons.mpr ⟨?_, ih (k + 1)⟩
      intro hmem
      obtain ⟨e, he, he1⟩ := List.mem_map.mp hmem
      obtain ⟨n, h1, h2, _⟩ := t1_keys rest (k + 1) e he
      have hk : make_placeholder k = e.1 := by simpa using he1.symm
      have : k = n := make_placeholder_inj (hk.trans h1)
      omega
    | plain s => exact ih k
    | tok n => exact ih k
    | code s => exact ih k
    | link d u => exact ih k
    | bold s => exact ih k

theorem t2_keys_nodup : ∀ (items : List MItem) (k : Nat),
    (((t2 items k).2.2).map Prod.fst).Nodup := by
  intro items
  induction items with
  | nil => intro k; exact List.nodup_nil
  | cons it rest ih =>
    intro k
    cases it with
    | link d u =>
      show (((make_placeholder k, ['[']) ::
          (make_placeholder (k + 1), ']' :: '(' :: u ++ [')']) ::
          (t2 rest (k + 2)).2.2).map Prod.fst).Nodup
      rw [List.map_cons, List.map_cons]
      refine List.nodup_cons.mpr ⟨?_, List.nodup_cons.mpr ⟨?_, ih (k + 2)⟩⟩
      · intro hmem
        rcases List.mem_cons.mp hmem with h | h
        · have : k = k + 1 := make_placeholder_inj h
          omega
        · obtain ⟨e, he, he1⟩ := List.mem_map.mp h
          obtain ⟨n, h1, h2, _⟩ := t2_keys rest (k + 2) e he
          have hk : make_placeholder k = e.1 := by simpa using he1.symm
          have : k = n := make_placeholder_inj (hk.trans h1)
          omega
      · intro hmem
        obtain ⟨e, he, he1⟩ := List.mem_map.mp hmem
        obtain ⟨n, h1, h2, _⟩ := t2_keys rest (k + 2) e he
        have hk : make_placeholder (k + 1) = e.1 := by simpa using he1.symm
        have : k + 1 = n := make_placeholder_inj (hk.trans h1)
        omega
    | plain s => exact ih k
    | tok n => exact ih k
    | code s => exact ih k
    | bold s => exact ih k
    | blink d u => exact ih k

theorem t3_keys_nodup : ∀ (items : List MItem) (k : Nat),
    (((t3 items k).2.2).map Prod.fst).Nodup := by
  intro items
  induction items with
  | nil => intro k; exact List.nodup_nil
  | cons it rest ih =>
    intro k
    cases it with
    | code s =>
      show (((make_placeholder k, btick :: s ++ [btick]) :: (t3 rest (k + 1)).2.2).map
          Prod.fst).Nodup
      rw [List.map_cons]
      refine List.nodup_cons.mpr ⟨?_, ih (k + 1)⟩
      intro hmem
      obtain ⟨e, he, he1⟩ := List.mem_map.mp hmem
      obtain ⟨n, h1, h2, _⟩ := t3_keys rest (k + 1) e he
      have hk : make_placeholder k = e.1 := by simpa using he1.symm
      have : k = n := make_placeholder_inj (hk.trans h1)
      omega
    | plain s => exact ih k
    | tok n => exact ih k
    | link d u => exact ih k
    | bold s => exact ih k
    | blink d u => exact ih k

theorem t4_keys_nodup : ∀ (items : List MItem) (k : Nat),
    (((t4 items k).2.2).map Prod.fst).Nodup := by
  intro items
  induction items with
  | nil => intro k; exact List.nodup_nil
  | cons it rest ih =>
    intro k
    cases it with
    | bold s =>
      show (((make_placeholder k, ['*', '*']) ::
          (make_placeholder (k + 1), ['*', '*']) :: (t4 rest (k + 2)).2.2).map
          Prod.fst).Nodup
      rw [List.map_cons, List.map_cons]
      refine List.nodup_cons.mpr ⟨?_, List.nodup_cons.mpr ⟨?_, ih (k + 2)⟩⟩
      · intro hmem
        rcases List.mem_cons.mp hmem with h | h
        · have : k = k + 1 := make_placeholder_inj h
          omega
        · obtain ⟨e, he, he1⟩ := List.mem_map.mp h
          obtain ⟨n, h1, h2, _⟩ := t4_keys rest (k + 2) e he
          have hk : make_placeholder k = e.1 := by simpa using he1.symm
          have : k = n := make_placeholder_inj (hk.trans h1)
          omega
      · intro hmem
        obtain ⟨e, he, he1⟩ := List.mem_map.mp hmem
        obtain ⟨n, h1, h2, _⟩ := t4_keys rest (k + 2) e he
        have hk : make_placeholder (k + 1) = e.1 := by simpa using he1.symm
        have : k + 1 = n := make_placeholder_inj (hk.trans h1)
        omega
    | plain s => exact ih k
    | tok n => exact ih k
    | link d u => exact ih k
    | code s => exact ih k
    | blink d u => exact ih k

/-! ## C1: the stored contents never contain the placeholder prefix -/

theorem renderBoldLink_no_phPre {d u : Str} (hd : ∀ x ∈ d, plainChar x = true)
    (hu : ∀ x ∈ u, plainChar x = true) : ∀ c ∈ renderBoldLink d u, c ≠ phPre := by
  intro c hc
  have hshape : renderBoldLink d u =
      '*' :: '*' :: '[' :: (d ++ ']' :: '(' :: (u ++ ')' :: '*' :: '*' :: [])) := by
    simp [renderBoldLink]
  rw [hshape] at hc
  rcases List.mem_cons.mp hc with h4 | h4
  · rw [h4]; decide
  · rcases List.mem_cons.mp h4 with h5 | h5
    · rw [h5]; decide
    · rcases List.mem_cons.mp h5 with h6 | h6
      · rw [h6]; decide
      · rcases List.mem_append.mp h6 with h7 | h7
        · exact (plainChar_spec (hd c h7)).2.2.2.1
        · rcases List.mem_cons.mp h7 with h8 | h8
          · rw [h8]; decide
          · rcases List.mem_cons.mp h8 with h9 | h9
            · rw [h9]; decide
            · rcases List.mem_append.mp h9 with h10 | h10
              · exact (plainChar_spec (hu c h10)).2.2.2.1
              · rcases List.mem_cons.mp h10 with h11 | h11
                · rw [h11]; decide
                · rcases List.mem_cons.mp h11 with h12 | h12
                  · rw [h12]; decide
                  · rw [List.mem_singleton.mp h12]; decide

theorem t1_contents : ∀ (items : List MItem) (k : Nat), items.all wfItem = true →
    ∀ e ∈ (t1 items k).2.2, ∀ c ∈ e.2, c ≠ phPre := by
  intro items
  induction items with
  | nil => intro k _ e he; cases he
  | cons it rest ih =>
    intro k hwf e he
    have hwf_it : wfItem it = true := List.all_eq_true.mp hwf it (by simp)
    have hwf_rest : rest.all wfItem = true := by
      rw [List.all_eq_true]
      intro x hx
      exact List.all_eq_true.mp hwf x (by simp [hx])
    cases it with
    | blink d u =>
      have h2 : (d.all (fun c => plainChar c && c ≠ ']') && !u.isEmpty &&
          u.all (fun c => plainChar c && c ≠ ')')) = true := hwf_it
      have hd2 : ∀ x ∈ d, plainChar x = true := by
        intro x hx
        have := List.all_eq_true.mp (Bool.and_eq_true _ _ ▸ (Bool.and_eq_true _ _ ▸ h2).1).1 x hx
        exact (Bool.and_eq_true _ _ ▸ this).1
      have hu2 : ∀ x ∈ u, plainChar x = true := by
        intro x hx
        have := List.all_eq_true.mp (Bool.and_eq_true _ _ ▸ h2).2 x hx
        exact (Bool.and_eq_true _ _ ▸ this).1
      have he2 : e ∈ (make_placeholder k, renderBoldLink d u) :: (t1 rest (k + 1)).2.2 := he
      rcases List.mem_cons.mp he2 with h | h
      · intro c hc
        rw [h] at hc
        exact renderBoldLink_no_phPre hd2 hu2 c hc
      · exact ih (k + 1) hwf_rest e h
    | plain s => exact ih k hwf_rest e he
    | tok n => exact ih k hwf_rest e he
    | code s => exact ih k hwf_rest e he
    | link d u => exact ih k hwf_rest e he
    | bold s => exact ih k hwf_rest e he

theorem t2_contents : ∀ (items : List MItem) (k : Nat), items.all wf2Item = true →
    ∀ e ∈ (t2 items k).2.2, ∀ c ∈ e.2, c ≠ phPre := by
  intro items
  induction items with
  | nil => intro k _ e he; cases he
  | cons it rest ih =>
    intro k hwf e he
    have hwf_it : wf2Item it = true := List.all_eq_true.mp hwf it (by simp)
    have hwf_rest : rest.all wf2Item = true := by
      rw [List.all_eq_true]
      intro x hx
      exact List.all_eq_true.mp hwf x (by simp [hx])
    cases it with
    | link d u =>
      have h2 : (d.all (fun c => plainChar c && c ≠ ']') && !u.isEmpty &&
          u.all (fun c => plainChar c && c ≠ ')')) = true := hwf_it
      have hu2 : ∀ x ∈ u, plainChar x = true := by
        intro x hx
        have := List.all_eq_true.mp (Bool.and_eq_true _ _ ▸ h2).2 x hx
        exact (Bool.and_eq_true _ _ ▸ this).1
      have he2 : e ∈ (make_placeholder k, ['[']) ::
          (make_placeholder (k + 1), ']' :: '(' :: u ++ [')']) :: (t2 rest (k + 2)).2.2 := he
      rcases List.mem_cons.mp he2 with h | h
      · intro c hc
        rw [h] at hc
        rw [List.mem_singleton.mp hc]
        decide
      · rcases List.mem_cons.mp h with h3 | h3
        · intro c hc
          rw [h3] at hc
          rcases List.mem_cons.mp hc with h4 | h4
          · rw [h4]; decide
          · rcases List.mem_cons.mp h4 with h5 | h5
            · rw [h5]; decide
            · rcases List.mem_append.mp h5 with h6 | h6
              · exact (plainChar_spec (hu2 c h6)).2.2.2.1
              · rw [List.mem_singleton.mp h6]; decide
        · exact ih (k + 2) hwf_rest e h3
    | plain s => exact ih k hwf_rest e he
    | tok n => exact ih k hwf_rest e he
    | code s => exact ih k hwf_rest e he
    | bold s => exact ih k hwf_rest e he
    | blink d u => exact ih k hwf_rest e he

theorem t3_contents : ∀ (items : List MItem) (k : Nat), items.all wf3Item = true →
    ∀ e ∈ (t3 items k).2.2, ∀ c ∈ e.2, c ≠ phPre := by
  intro items
  induction items with
  | nil => intro k _ e he; cases he
  | cons it rest ih =>
    intro k hwf e he
    have hwf_it : wf3Item it = true := List.all_eq_true.mp hwf it (by simp)
    have hwf_rest : rest.all wf3Item = true := by
      rw [List.all_eq_true]
      intro x hx
      exact List.all_eq_true.mp hwf x (by simp [hx])
    cases it with
    | code s =>
      have h2 : (!s.isEmpty && s.all plainChar) = true := hwf_it
      have hs2 : ∀ x ∈ s, plainChar x = true := fun x hx =>
        List.all_eq_true.mp (Bool.and_eq_true _ _ ▸ h2).2 x hx
      have he2 : e ∈ (make_placeholder k, btick :: s ++ [btick]) :: (t3 rest (k + 1)).2.2 := he
      rcases List.mem_cons.mp he2 with h | h
      · intro c hc
        rw [h] at hc
        rcases List.mem_cons.mp hc with h4 | h4
        · rw [h4]; decide
        · rcases List.mem_append.mp h4 with h5 | h5
          · exact (plainChar_spec (hs2 c h5)).2.2.2.1
          · rw [List.mem_singleton.mp h5]; decide
      · exact ih (k + 1) hwf_rest e h
    | plain s => exact ih k hwf_rest e he
    | tok n => exact ih k hwf_rest e he
    | link d u => exact ih k hwf_rest e he
    | bold s => exact ih k hwf_rest e he
    | blink d u => exact ih k hwf_rest e he

theorem t4_contents : ∀ (items : List MItem) (k : Nat),
    ∀ e ∈ (t4 items k).2.2, ∀ c ∈ e.2, c ≠ phPre := by
  intro items
  induction items with
  | nil => intro k e he; cases he
  | cons it rest ih =>
    intro k e he
    cases it with
    | bold s =>
      have he2 : e ∈ (make_placeholder k, ['*', '*']) ::
          (make_placeholder (k + 1), ['*', '*']) :: (t4 rest (k + 2)).2.2 := he
      rcases List.mem_cons.mp he2 with h | h
      · intro c hc
        rw [h] at hc
        rcases List.mem_cons.mp hc with h4 | h4
        · rw [h4]; decide
        · rw [List.mem_singleton.mp h4]; decide
      · rcases List.mem_cons.mp h with h3 | h3
        · intro c hc
          rw [h3] at hc
          rcases List.mem_cons.mp hc with h4 | h4
          · rw [h4]; decide
          · rw [List.mem_singleton.mp h4]; decide
        · exact ih (k + 2) e h3
    | plain s => exact ih k e he
    | tok n => exact ih k e he
    | link d u => exact ih k e he
    | code s => exact ih k e he
    | blink d u => exact ih k e he

/-! ## C1: the restoration fold rebuilds the partially resolved rendering -/

theorem renderP_nil_eq : ∀ items : List MItem, renderP [] items = renderDoc items := by
  intro items
  induction items with
  | nil => rfl
  | cons it rest ih =>
    cases it with
    | tok n =>
      rw [renderP_cons_tok, ih]
      rfl
    | plain s => rw [renderP_cons_plain, ih]; rfl
    | code s => rw [renderP_cons_code, ih]; rfl
    | link d u => rw [renderP_cons_link, ih]; rfl
    | bold s => rw [renderP_cons_bold, ih]; rfl
    | blink d u => rw [renderP_cons_blink, ih]; rfl

theorem renderP_ext {E E2 : List Entry} (h : ∀ k, E.lookup k = E2.lookup k) :
    ∀ items : List MItem, renderP E items = renderP E2 items := by
  intro items
  induction items with
  | nil => rfl
  | cons it rest ih =>
    cases it with
    | tok n => rw [renderP_cons_tok, renderP_cons_tok, ih, h (make_placeholder n)]
    | plain s => rw [renderP_cons_plain, renderP_cons_plain, ih]
    | code s => rw [renderP_cons_code, renderP_cons_code, ih]
    | link d u => rw [renderP_cons_link, renderP_cons_link, ih]
    | bold s => rw [renderP_cons_bold, renderP_cons_bold, ih]
    | blink d u => rw [renderP_cons_blink, renderP_cons_blink, ih]

theorem lookup_mem : ∀ {E : List Entry} {k v : Str}, E.lookup k = some v → (k, v) ∈ E := by
  intro E
  induction E with
  | nil => intro k v h; cases h
  | cons e E0 ih =>
    intro k v h
    rw [lookup_cons] at h
    by_cases hk : k == e.1
    · rw [if_pos hk] at h
      have h1 : k = e.1 := beq_iff_eq.mp hk
      have h2 : v = e.2 := by injection h with h2; exact h2.symm
      rw [h1, h2]
      exact List.mem_cons_self _ _
    · rw [if_neg hk] at h
      exact List.mem_cons_of_mem _ (ih h)

theorem restore_step : ∀ (F : List MItem), F.all wf5Item = true →
    ∀ (E : List Entry), (∀ e ∈ E, ∀ c ∈ e.2, c ≠ phPre) →
    ∀ (n : Nat) (r : Str),
    replaceAllL (make_placeholder n) r (renderP E F) =
      renderP (E ++ [(make_placeholder n, r)]) F := by
  intro F
  induction F with
  | nil =>
    intro _ E _ n r
    rfl
  | cons it F0 ih =>
    intro hwf E hE n r
    have hwf_it : wf5Item it = true := List.all_eq_true.mp hwf it (by simp)
    have hwf_rest : F0.all wf5Item = true := by
      rw [List.all_eq_true]
      intro x hx
      exact List.all_eq_true.mp hwf x (by simp [hx])
    cases it with
    | plain s =>
      have h2 : s.all plainChar = true := hwf_it
      have hs : ∀ c ∈ s, c ≠ phPre := fun c hc =>
        (plainChar_spec (List.all_eq_true.mp h2 c hc)).2.2.2.1
      rw [renderP_cons_plain, renderP_cons_plain,
        replaceAllL_append_free n r s _ hs, ih hwf_rest E hE n r]
    | tok m =>
      rw [renderP_cons_tok, renderP_cons_tok]
      cases hl : E.lookup (make_placeholder m) with
      | some c =>
        have hmem : (make_placeholder m, c) ∈ E := lookup_mem hl
        have hc : ∀ x ∈ c, x ≠ phPre := hE _ hmem
        rw [lookup_append_some hl]
        show replaceAllL (make_placeholder n) r (c ++ renderP E F0) = _
        rw [replaceAllL_append_free n r c _ hc, ih hwf_rest E hE n r]
        rfl
      | none =>
        rw [lookup_append_none hl]
        by_cases hmn : m = n
        · subst hmn
          show replaceAllL (make_placeholder m) r (make_placeholder m ++ renderP E F0) = _
          rw [replaceAllL_tok_hit, ih hwf_rest E hE m r]
          have hlk : List.lookup (make_placeholder m) [(make_placeholder m, r)] = some r := by
            rw [lookup_cons, if_pos (by simp)]
          rw [hlk]
          rfl
        · show replaceAllL (make_placeholder n) r (make_placeholder m ++ renderP E F0) = _
          rw [replaceAllL_tok_miss hmn, ih hwf_rest E hE n r]
          have hlk : List.lookup (make_placeholder m) [(make_placeholder n, r)] = none := by
            rw [lookup_cons, if_neg (by
              simp only [beq_iff_eq]
              intro he
              exact hmn (make_placeholder_inj he))]
            rfl
          rw [hlk]
          rfl
    | code s => exact absurd hwf_it (by simp [wf5Item])
    | link d u => exact absurd hwf_it (by simp [wf5Item])
    | bold s => exact absurd hwf_it (by simp [wf5Item])
    | blink d u => exact absurd hwf_it (by simp [wf5Item])

theorem restore_fold : ∀ (es E : List Entry) (F : List MItem),
    F.all wf5Item = true →
    (∀ e ∈ E, ∀ c ∈ e.2, c ≠ phPre) →
    (∀ e ∈ es, (∃ n, e.1 = make_placeholder n) ∧ ∀ c ∈ e.2, c ≠ phPre) →
    es.foldl (fun acc e => replaceAllL e.1 e.2 acc) (renderP E F) =
      renderP (E ++ es) F := by
  intro es
  induction es with
  | nil =>
    intro E F _ _ _
    simp
  | cons e es0 ih =>
    intro E F hF hE hes
    obtain ⟨⟨n, hn⟩, hc⟩ := hes e (by simp)
    have step : replaceAllL e.1 e.2 (renderP E F) = renderP (E ++ [e]) F := by
      rw [hn]
      have := restore_step F hF E hE n e.2
      rw [this]
      have hpair : (make_placeholder n, e.2) = e := by
        rw [← hn]
      rw [hpair]
    show es0.foldl (fun acc e => replaceAllL e.1 e.2 acc)
        (replaceAllL e.1 e.2 (renderP E F)) = _
    rw [step, ih (E ++ [e]) F hF (by
      intro x hx
      rcases List.mem_append.mp hx with h | h
      · exact hE x h
      · rw [List.mem_singleton.mp h]
        exact hc) (fun x hx => hes x (by simp [hx]))]
    rw [List.append_assoc]
    rfl

/-! ## C1: resolving every created token recovers the pre-pass rendering -/

theorem renderP_t1 : ∀ (items : List MItem) (k : Nat) (E : List Entry),
    (∀ e ∈ (t1 items k).2.2, E.lookup e.1 = some e.2) →
    renderP E (t1 items k).1 = renderP E items := by
  intro items
  induction items with
  | nil => intro k E _; rfl
  | cons it rest ih =>
    intro k E hres
    cases it with
    | blink d u =>
      have hres2 : ∀ e ∈ (t1 rest (k + 1)).2.2, E.lookup e.1 = some e.2 := by
        intro e he
        refine hres e ?_
        show e ∈ (make_placeholder k, renderBoldLink d u) :: (t1 rest (k + 1)).2.2
        exact List.mem_cons_of_mem _ he
      have hhead : E.lookup (make_placeholder k) = some (renderBoldLink d u) := by
        have := hres (make_placeholder k, renderBoldLink d u) (by
          show (make_placeholder k, renderBoldLink d u) ∈
            (make_placeholder k, renderBoldLink d u) :: (t1 rest (k + 1)).2.2
          exact List.mem_cons_self _ _)
        exact this
      show renderP E (MItem.tok k :: (t1 rest (k + 1)).1) =
        renderP E (MItem.blink d u :: rest)
      rw [renderP_cons_tok, renderP_cons_blink, hhead, ih (k + 1) E hres2]
      rfl
    | plain s =>
      show renderP E (MItem.plain s :: (t1 rest k).1) = renderP E (MItem.plain s :: rest)
      rw [renderP_cons_plain, renderP_cons_plain, ih k E hres]
    | tok n =>
      show renderP E (MItem.tok n :: (t1 rest k).1) = renderP E (MItem.tok n :: rest)
      rw [renderP_cons_tok, renderP_cons_tok, ih k E hres]
    | code s =>
      show renderP E (MItem.code s :: (t1 rest k).1) = renderP E (MItem.code s :: rest)
      rw [renderP_cons_code, renderP_cons_code, ih k E hres]
    | link d u =>
      show renderP E (MItem.link d u :: (t1 rest k).1) = renderP E (MItem.link d u :: rest)
      rw [renderP_cons_link, renderP_cons_link, ih k E hres]
    | bold s =>
      show renderP E (MItem.bold s :: (t1 rest k).1) = renderP E (MItem.bold s :: rest)
      rw [renderP_cons_bold, renderP_cons_bold, ih k E hres]

theorem renderP_t2 : ∀ (items : List MItem) (k : Nat) (E : List Entry),
    (∀ e ∈ (t2 items k).2.2, E.lookup e.1 = some e.2) →
    renderP E (t2 items k).1 = renderP E items := by
  intro items
  induction items with
  | nil => intro k E _; rfl
  | cons it rest ih =>
    intro k E hres
    cases it with
    | link d u =>
      have hres2 : ∀ e ∈ (t2 rest (k + 2)).2.2, E.lookup e.1 = some e.2 := by
        intro e he
        refine hres e ?_
        show e ∈ (make_placeholder k, ['[']) ::
          (make_placeholder (k + 1), ']' :: '(' :: u ++ [')']) :: (t2 rest (k + 2)).2.2
        exact List.mem_cons_of_mem _ (List.mem_cons_of_mem _ he)
      have hh1 : E.lookup (make_placeholder k) = some ['['] := by
        have := hres (make_placeholder k, ['[']) (by
          show (make_placeholder k, ['[']) ∈ (make_placeholder k, ['[']) ::
            (make_placeholder (k + 1), ']' :: '(' :: u ++ [')']) :: (t2 rest (k + 2)).2.2
          exact List.mem_cons_self _ _)
        exact this
      have hh2 : E.lookup (make_placeholder (k + 1)) = some (']' :: '(' :: u ++ [')']) := by
        have := hres (make_placeholder (k + 1), ']' :: '(' :: u ++ [')']) (by
          show (make_placeholder (k + 1), ']' :: '(' :: u ++ [')']) ∈
            (make_placeholder k, ['[']) ::
            (make_placeholder (k + 1), ']' :: '(' :: u ++ [')']) :: (t2 rest (k + 2)).2.2
          exact List.mem_cons_of_mem _ (List.mem_cons_self _ _))
        exact this
      show renderP E (MItem.tok k :: MItem.plain d :: MItem.tok (k + 1) :: (t2 rest (k + 2)).1) =
        renderP E (MItem.link d u :: rest)
      rw [renderP_cons_tok, renderP_cons_plain, renderP_cons_tok, renderP_cons_link,
        hh1, hh2, ih (k + 2) E hres2]
      simp
    | plain s =>
      show renderP E (MItem.plain s :: (t2 rest k).1) = renderP E (MItem.plain s :: rest)
      rw [renderP_cons_plain, renderP_cons_plain, ih k E hres]
    | tok n =>
      show renderP E (MItem.tok n :: (t2 rest k).1) = renderP E (MItem.tok n :: rest)
      rw [renderP_cons_tok, renderP_cons_tok, ih k E hres]
    | code s =>
      show renderP E (MItem.code s :: (t2 rest k).1) = renderP E (MItem.code s :: rest)
      rw [renderP_cons_code, renderP_cons_code, ih k E hres]
    | bold s =>
      show renderP E (MItem.bold s :: (t2 rest k).1) = renderP E (MItem.bold s :: rest)
      rw [renderP_cons_bold, renderP_cons_bold, ih k E hres]
    | blink d u =>
      show renderP E (MItem.blink d u :: (t2 rest k).1) = renderP E (MItem.blink d u :: rest)
      rw [renderP_cons_blink, renderP_cons_blink, ih k E hres]

theorem renderP_t3 : ∀ (items : List MItem) (k : Nat) (E : List Entry),
    (∀ e ∈ (t3 items k).2.2, E.lookup e.1 = some e.2) →
    renderP E (t3 items k).1 = renderP E items := by
  intro items
  induction items with
  | nil => intro k E _; rfl
  | cons it rest ih =>
    intro k E hres
    cases it with
    | code s =>
      have hres2 : ∀ e ∈ (t3 rest (k + 1)).2.2, E.lookup e.1 = some e.2 := by
        intro e he
        refine hres e ?_
        show e ∈ (make_placeholder k, btick :: s ++ [btick]) :: (t3 rest (k + 1)).2.2
        exact List.mem_cons_of_mem _ he
      have hhead : E.lookup (make_placeholder k) = some (btick :: s ++ [btick]) := by
        have := hres (make_placeholder k, btick :: s ++ [btick]) (by
          show (make_placeholder k, btick :: s ++ [btick]) ∈
            (make_placeholder k, btick :: s ++ [btick]) :: (t3 rest (k + 1)).2.2
          exact List.mem_cons_self _ _)
        exact this
      show renderP E (MItem.tok k :: (t3 rest (k + 1)).1) =
        renderP E (MItem.code s :: rest)
      rw [renderP_cons_tok, renderP_cons_code, hhead, ih (k + 1) E hres2]
      rfl
    | plain s =>
      show renderP E (MItem.plain s :: (t3 rest k).1) = renderP E (MItem.plain s :: rest)
      rw [renderP_cons_plain, renderP_cons_plain, ih k E hres]
    | tok n =>
      show renderP E (MItem.tok n :: (t3 rest k).1) = renderP E (MItem.tok n :: rest)
      rw [renderP_cons_tok, renderP_cons_tok, ih k E hres]
    | link d u =>
      show renderP E (MItem.link d u :: (t3 rest k).1) = renderP E (MItem.link d u :: rest)
      rw [renderP_cons_link, renderP_cons_link, ih k E hres]
    | bold s =>
      show renderP E (MItem.bold s :: (t3 rest k).1) = renderP E (MItem.bold s :: rest)
      rw [renderP_cons_bold, renderP_cons_bold, ih k E hres]
    | blink d u =>
      show renderP E (MItem.blink d u :: (t3 rest k).1) = renderP E (MItem.blink d u :: rest)
      rw [renderP_cons_blink, renderP_cons_blink, ih k E hres]

theorem renderP_t4 : ∀ (items : List MItem) (k : Nat) (E : List Entry),
    (∀ e ∈ (t4 items k).2.2, E.lookup e.1 = some e.2) →
    renderP E (t4 items k).1 = renderP E items := by
  intro items
  induction items with
  | nil => intro k E _; rfl
  | cons it rest ih =>
    intro k E hres
    cases it with
    | bold s =>
      have hres2 : ∀ e ∈ (t4 rest (k + 2)).2.2, E.lookup e.1 = some e.2 := by
        intro e he
        refine hres e ?_
        show e ∈ (make_placeholder k, ['*', '*']) ::
          (make_placeholder (k + 1), ['*', '*']) :: (t4 rest (k + 2)).2.2
        exact List.mem_cons_of_mem _ (List.mem_cons_of_mem _ he)
      have hh1 : E.lookup (make_placeholder k) = some ['*', '*'] := by
        have := hres (make_placeholder k, ['*', '*']) (by
          show (make_placeholder k, ['*', '*']) ∈ (make_placeholder k, ['*', '*']) ::
            (make_placeholder (k + 1), ['*', '*']) :: (t4 rest (k + 2)).2.2
          exact List.mem_cons_self _ _)
        exact this
      have hh2 : E.lookup (make_placeholder (k + 1)) = some ['*', '*'] := by
        have := hres (make_placeholder (k + 1), ['*', '*']) (by
          show (make_placeholder (k + 1), ['*', '*']) ∈ (make_placeholder k, ['*', '*']) ::
            (make_placeholder (k + 1), ['*', '*']) :: (t4 rest (k + 2)).2.2
          exact List.mem_cons_of_mem _ (List.mem_cons_self _ _))
        exact this
      show renderP E (MItem.tok k :: MItem.plain s :: MItem.tok (k + 1) :: (t4 rest (k + 2)).1) =
        renderP E (MItem.bold s :: rest)
      rw [renderP_cons_tok, renderP_cons_plain, renderP_cons_tok, renderP_cons_bold,
        hh1, hh2, ih (k + 2) E hres2]
      simp
    | plain s =>
      show renderP E (MItem.plain s :: (t4 rest k).1) = renderP E (MItem.plain s :: rest)
      rw [renderP_cons_plain, renderP_cons_plain, ih k E hres]
    | tok n =>
      show renderP E (MItem.tok n :: (t4 rest k).1) = renderP E (MItem.tok n :: rest)
      rw [renderP_cons_tok, renderP_cons_tok, ih k E hres]
    | link d u =>
      show renderP E (MItem.link d u :: (t4 rest k).1) = renderP E (MItem.link d u :: rest)
      rw [renderP_cons_link, renderP_cons_link, ih k E hres]
    | code s =>
      show renderP E (MItem.code s :: (t4 rest k).1) = renderP E (MItem.code s :: rest)
      rw [renderP_cons_code, renderP_cons_code, ih k E hres]
    | blink d u =>
      show renderP E (MItem.blink d u :: (t4 rest k).1) = renderP E (MItem.blink d u :: rest)
      rw [renderP_cons_blink, renderP_cons_blink, ih k E hres]

/-! ## C1: each pass preserves the stage invariants -/

theorem t1_wf : ∀ (items : List MItem) (k : Nat), items.all wfItem = true →
    (t1 items k).1.all wf2Item = true := by
  intro items
  induction items with
  | nil => intro k _; rfl
  | cons it rest ih =>
    intro k hwf
    have hwf_it : wfItem it = true := List.all_eq_true.mp hwf it (by simp)
    have hwf_rest : rest.all wfItem = true := by
      rw [List.all_eq_true]
      intro x hx
      exact List.all_eq_true.mp hwf x (by simp [hx])
    cases it with
    | blink d u =>
      show (MItem.tok k :: (t1 rest (k + 1)).1).all wf2Item = true
      rw [List.all_cons, ih (k + 1) hwf_rest]
      rfl
    | plain s =>
      show (MItem.plain s :: (t1 rest k).1).all wf2Item = true
      rw [List.all_cons, ih k hwf_rest]
      have h2 : (!s.isEmpty && s.all plainChar) = true := hwf_it
      have h3 : wf2Item (MItem.plain s) = true := (Bool.and_eq_true _ _ ▸ h2).2
      rw [h3]
      rfl
    | tok n => exact absurd hwf_it (by simp [wfItem])
    | code s =>
      show (MItem.code s :: (t1 rest k).1).all wf2Item = true
      rw [List.all_cons, ih k hwf_rest]
      have h3 : wf2Item (MItem.code s) = true := hwf_it
      rw [h3]
      rfl
    | link d u =>
      show (MItem.link d u :: (t1 rest k).1).all wf2Item = true
      rw [List.all_cons, ih k hwf_rest]
      have h3 : wf2Item (MItem.link d u) = true := hwf_it
      rw [h3]
      rfl
    | bold s =>
      show (MItem.bold s :: (t1 rest k).1).all wf2Item = true
      rw [List.all_cons, ih k hwf_rest]
      have h3 : wf2Item (MItem.bold s) = true := hwf_it
      rw [h3]
      rfl

theorem t2_wf : ∀ (items : List MItem) (k : Nat), items.all wf2Item = true →
    (t2 items k).1.all wf3Item = true := by
  intro items
  induction items with
  | nil => intro k _; rfl
  | cons it rest ih =>
    intro k hwf
    have hwf_it : wf2Item it = true := List.all_eq_true.mp hwf it (by simp)
    have hwf_rest : rest.all wf2Item = true := by
      rw [List.all_eq_true]
      intro x hx
      exact List.all_eq_true.mp hwf x (by simp [hx])
    cases it with
    | link d u =>
      show (MItem.tok k :: MItem.plain d :: MItem.tok (k + 1) ::
        (t2 rest (k + 2)).1).all wf3Item = true
      rw [List.all_cons, List.all_cons, List.all_cons, ih (k + 2) hwf_rest]
      have h2 : (d.all (fun c => plainChar c && c ≠ ']') && !u.isEmpty &&
          u.all (fun c => plainChar c && c ≠ ')')) = true := hwf_it
      have h3 : d.all plainChar = true := by
        rw [List.all_eq_true]
        intro x hx
        have := List.all_eq_true.mp (Bool.and_eq_true _ _ ▸ (Bool.and_eq_true _ _ ▸ h2).1).1 x hx
        exact (Bool.and_eq_true _ _ ▸ this).1
      have h4 : wf3Item (MItem.plain d) = true := h3
      rw [h4]
      rfl
    | plain s =>
      show (MItem.plain s :: (t2 rest k).1).all wf3Item = true
      rw [List.all_cons, ih k hwf_rest]
      have h3 : wf3Item (MItem.plain s) = true := hwf_it
      rw [h3]
      rfl
    | tok n =>
      show (MItem.tok n :: (t2 rest k).1).all wf3Item = true
      rw [List.all_cons, ih k hwf_rest]
      rfl
    | code s =>
      show (MItem.code s :: (t2 rest k).1).all wf3Item = true
      rw [List.all_cons, ih k hwf_rest]
      have h3 : wf3Item (MItem.code s) = true := hwf_it
      rw [h3]
      rfl
    | bold s =>
      show (MItem.bold s :: (t2 rest k).1).all wf3Item = true
      rw [List.all_cons, ih k hwf_rest]
      have h3 : wf3Item (MItem.bold s) = true := hwf_it
      rw [h3]
      rfl
    | blink d u => exact absurd hwf_it (by simp [wf2Item])

theorem t3_wf : ∀ (items : List MItem) (k : Nat), items.all wf3Item = true →
    (t3 items k).1.all wf4Item = true := by
  intro items
  induction items with
  | nil => intro k _; rfl
  | cons it rest ih =>
    intro k hwf
    have hwf_it : wf3Item it = true := List.all_eq_true.mp hwf it (by simp)
    have hwf_rest : rest.all wf3Item = true := by
      rw [List.all_eq_true]
      intro x hx
      exact List.all_eq_true.mp hwf x (by simp [hx])
    cases it with
    | code s =>
      show (MItem.tok k :: (t3 rest (k + 1)).1).all wf4Item = true
      rw [List.all_cons, ih (k + 1) hwf_rest]
      rfl
    | plain s =>
      show (MItem.plain s :: (t3 rest k).1).all wf4Item = true
      rw [List.all_cons, ih k hwf_rest]
      have h3 : wf4Item (MItem.plain s) = true := hwf_it
      rw [h3]
      rfl
    | tok n =>
      show (MItem.tok n :: (t3 rest k).1).all wf4Item = true
      rw [List.all_cons, ih k hwf_rest]
      rfl
    | bold s =>
      show (MItem.bold s :: (t3 rest k).1).all wf4Item = true
      rw [List.all_cons, ih k hwf_rest]
      have h3 : wf4Item (MItem.bold s) = true := hwf_it
      rw [h3]
      rfl
    | link d u => exact absurd hwf_it (by simp [wf3Item])
    | blink d u => exact absurd hwf_it (by simp [wf3Item])

theorem t4_wf : ∀ (items : List MItem) (k : Nat), items.all wf4Item = true →
    (t4 items k).1.all wf5Item = true := by
  intro items
  induction items with
  | nil => intro k _; rfl
  | cons it rest ih =>
    intro k hwf
    have hwf_it : wf4Item it = true := List.all_eq_true.mp hwf it (by simp)
    have hwf_rest : rest.all wf4Item = true := by
      rw [List.all_eq_true]
      intro x hx
      exact List.all_eq_true.mp hwf x (by simp [hx])
    cases it with
    | bold s =>
      show (MItem.tok k :: MItem.plain s :: MItem.tok (k + 1) ::
        (t4 rest (k + 2)).1).all wf5Item = true
      rw [List.all_cons, List.all_cons, List.all_cons, ih (k + 2) hwf_rest]
      have h2 : (!s.isEmpty && s.all (fun c => plainChar c && c ≠ '\n')) = true := hwf_it
      have h3 : s.all plainChar = true := by
        rw [List.all_eq_true]
        intro x hx
        have := List.all_eq_true.mp (Bool.and_eq_true _ _ ▸ h2).2 x hx
        exact (Bool.and_eq_true _ _ ▸ this).1
      have h4 : wf5Item (MItem.plain s) = true := h3
      rw [h4]
      rfl
    | plain s =>
      show (MItem.plain s :: (t4 rest k).1).all wf5Item = true
      rw [List.all_cons, ih k hwf_rest]
      have h3 : wf5Item (MItem.plain s) = true := hwf_it
      rw [h3]
      rfl
    | tok n =>
      show (MItem.tok n :: (t4 rest k).1).all wf5Item = true
      rw [List.all_cons, ih k hwf_rest]
      rfl
    | link d u => exact absurd hwf_it (by simp [wf4Item])
    | code s => exact absurd hwf_it (by simp [wf4Item])
    | blink d u => exact absurd hwf_it (by simp [wf4Item])

/-! ## C1: the whole protection phase against the symbolic protection -/

theorem protect_correct (items : List MItem) (hwf : wfDoc items = true) :
    protect_inline_elements (renderDoc items) =
      (renderDoc (protectDoc items).1, (protectDoc items).2) := by
  have hwf1 : items.all wfItem = true := (Bool.and_eq_true _ _ ▸ hwf).1
  have hadj : wfAdj items = true := (Bool.and_eq_true _ _ ▸ hwf).2
  have hwf2 := t1_wf items 0 hwf1
  have hwf3 := t2_wf (t1 items 0).1 (t1 items 0).2.1 hwf2
  have hwf4 := t3_wf (t2 (t1 items 0).1 (t1 items 0).2.1).1
    (t2 (t1 items 0).1 (t1 items 0).2.1).2.1 hwf3
  unfold protect_inline_elements protectDoc
  dsimp only
  rw [t1_correct items 0 [] (renderDoc items).length hwf1 hadj (le_refl _)]
  dsimp only
  rw [t2_correct (t1 items 0).1 (t1 items 0).2.1 ([] ++ (t1 items 0).2.2)
    (renderDoc (t1 items 0).1).length hwf2 (le_refl _)]
  dsimp only
  rw [t3_correct (t2 (t1 items 0).1 (t1 items 0).2.1).1
    (t2 (t1 items 0).1 (t1 items 0).2.1).2.1
    (([] ++ (t1 items 0).2.2) ++ (t2 (t1 items 0).1 (t1 items 0).2.1).2.2)
    (renderDoc (t2 (t1 items 0).1 (t1 items 0).2.1).1).length hwf3 (le_refl _)]
  dsimp only
  rw [t4_correct (t3 (t2 (t1 items 0).1 (t1 items 0).2.1).1
      (t2 (t1 items 0).1 (t1 items 0).2.1).2.1).1
    (t3 (t2 (t1 items 0).1 (t1 items 0).2.1).1
      (t2 (t1 items 0).1 (t1 items 0).2.1).2.1).2.1
    ((([] ++ (t1 items 0).2.2) ++ (t2 (t1 items 0).1 (t1 items 0).2.1).2.2) ++
      (t3 (t2 (t1 items 0).1 (t1 items 0).2.1).1
        (t2 (t1 items 0).1 (t1 items 0).2.1).2.1).2.2)
    (renderDoc (t3 (t2 (t1 items 0).1 (t1 items 0).2.1).1
      (t2 (t1 items 0).1 (t1 items 0).2.1).2.1).1).length hwf4 (le_refl _)]
  dsimp only
  rw [List.nil_append, List.append_assoc, List.append_assoc]

theorem keys_disjoint {A B : List Entry} {b : Nat}
    (hA : ∀ e ∈ A, ∃ n, e.1 = make_placeholder n ∧ n < b)
    (hB : ∀ e ∈ B, ∃ n, e.1 = make_placeholder n ∧ b ≤ n) :
    (A.map Prod.fst).Disjoint (B.map Prod.fst) := by
  intro x hxA hxB
  obtain ⟨eA, heA, heA1⟩ := List.mem_map.mp hxA
  obtain ⟨eB, heB, heB1⟩ := List.mem_map.mp hxB
  obtain ⟨nA, hA1, hA2⟩ := hA eA heA
  obtain ⟨nB, hB1, hB2⟩ := hB eB heB
  have he : make_placeholder nA = make_placeholder nB := by
    rw [← hA1, heA1, ← heB1, hB1]
  have : nA = nB := make_placeholder_inj he
  omega

/-- Restoration over a protected rendering: if the map resolves the final
item list back to the original text, which is placeholder-free and a
fixpoint of both comma cleanups, then `restore_placeholders` returns the
original text exactly. -/
theorem restore_general (F : List MItem) (E0 : List Entry) (org : Str)
    (hwf5 : F.all wf5Item = true)
    (hkeys : ∀ e ∈ E0, ∃ n, e.1 = make_placeholder n)
    (hcont : ∀ e ∈ E0, ∀ c ∈ e.2, c ≠ phPre)
    (hnodup : (E0.map Prod.fst).Nodup)
    (hrender : renderP E0 F = org)
    (hphfree : ∀ c ∈ org, c ≠ phPre)
    (hc1 : commaSub1 org.length org = org)
    (hc2 : commaSub2 org.length org = org) :
    restore_placeholders (renderDoc F) E0 = org := by
  have hfold : (sortByLenDesc E0).foldl (fun acc e => replaceAllL e.1 e.2 acc)
      (renderDoc F) = renderP (sortByLenDesc E0) F := by
    rw [← renderP_nil_eq F]
    rw [restore_fold (sortByLenDesc E0) [] F hwf5 (by intro e he; cases he) (by
      intro e he
      have hmem : e ∈ E0 := (sortByLenDesc_perm E0).subset he
      exact ⟨hkeys e hmem, hcont e hmem⟩)]
    rw [List.nil_append]
  have hnodup2 : ((sortByLenDesc E0).map Prod.fst).Nodup :=
    (((sortByLenDesc_perm E0).map Prod.fst).nodup_iff).mpr hnodup
  have hperm : renderP (sortByLenDesc E0) F = renderP E0 F :=
    renderP_ext (lookup_perm (sortByLenDesc_perm E0) hnodup2) F
  unfold restore_placeholders
  dsimp only
  rw [hfold, hperm, hrender,
    cleanSpurious_id (E0.map fun x => x.1) org.length org hphfree (le_refl _), hc1, hc2]

/-- The full round trip on the symbolic side: protecting the rendering of a
well-formed document and restoring with the produced map returns the
original rendering, provided the rendering is a fixpoint of the two comma
cleanups. -/
theorem restore_correct (items : List MItem) (hwf : wfDoc items = true)
    (hc1 : commaSub1 (renderDoc items).length (renderDoc items) = renderDoc items)
    (hc2 : commaSub2 (renderDoc items).length (renderDoc items) = renderDoc items) :
    restore_placeholders (renderDoc (protectDoc items).1) (protectDoc items).2 =
      renderDoc items := by
  have hwf1 : items.all wfItem = true := (Bool.and_eq_true _ _ ▸ hwf).1
  set I1 := (t1 items 0).1 with hI1
  set k1 := (t1 items 0).2.1 with hk1
  set E1 := (t1 items 0).2.2 with hE1
  set I2 := (t2 I1 k1).1 with hI2
  set k2 := (t2 I1 k1).2.1 with hk2
  set E2 := (t2 I1 k1).2.2 with hE2
  set I3 := (t3 I2 k2).1 with hI3
  set k3 := (t3 I2 k2).2.1 with hk3
  set E3 := (t3 I2 k2).2.2 with hE3
  set I4 := (t4 I3 k3).1 with hI4
  set E4 := (t4 I3 k3).2.2 with hE4
  have hwf2 : I1.all wf2Item = true := t1_wf items 0 hwf1
  have hwf3 : I2.all wf3Item = true := t2_wf I1 k1 hwf2
  have hwf4 : I3.all wf4Item = true := t3_wf I2 k2 hwf3
  have hwf5 : I4.all wf5Item = true := t4_wf I3 k3 hwf4
  have hpd : protectDoc items = (I4, ((E1 ++ E2) ++ E3) ++ E4) := rfl
  rw [hpd]
  have hr1 : ∀ e ∈ E1, ∃ n, e.1 = make_placeholder n ∧ n < k1 := by
    intro e he
    obtain ⟨n, h1, _, h3⟩ := t1_keys items 0 e he
    exact ⟨n, h1, h3⟩
  have hr2 : ∀ e ∈ E2, ∃ n, e.1 = make_placeholder n ∧ k1 ≤ n ∧ n < k2 := by
    intro e he
    obtain ⟨n, h1, h2, h3⟩ := t2_keys I1 k1 e he
    exact ⟨n, h1, h2, h3⟩
  have hr3 : ∀ e ∈ E3, ∃ n, e.1 = make_placeholder n ∧ k2 ≤ n ∧ n < k3 := by
    intro e he
    obtain ⟨n, h1, h2, h3⟩ := t3_keys I2 k2 e he
    exact ⟨n, h1, h2, h3⟩
  have hr4 : ∀ e ∈ E4, ∃ n, e.1 = make_placeholder n ∧ k3 ≤ n := by
    intro e he
    obtain ⟨n, h1, h2, _⟩ := t4_keys I3 k3 e he
    exact ⟨n, h1, h2⟩
  have hk12 : k1 ≤ k2 := t2_counter I1 k1
  have hk23 : k2 ≤ k3 := t3_counter I2 k2
  have hnd1 : (E1.map Prod.fst).Nodup := t1_keys_nodup items 0
  have hnd2 : (E2.map Prod.fst).Nodup := t2_keys_nodup I1 k1
  have hnd3 : (E3.map Prod.fst).Nodup := t3_keys_nodup I2 k2
  have hnd4 : (E4.map Prod.fst).Nodup := t4_keys_nodup I3 k3
  have hnd12 : (((E1 ++ E2)).map Prod.fst).Nodup := by
    rw [List.map_append]
    exact List.nodup_append.mpr ⟨hnd1, hnd2, keys_disjoint hr1 (by
      intro e he
      obtain ⟨n, h1, h2, _⟩ := hr2 e he
      exact ⟨n, h1, h2⟩)⟩
  have hnd123 : ((((E1 ++ E2) ++ E3)).map Prod.fst).Nodup := by
    rw [List.map_append]
    refine List.nodup_append.mpr ⟨hnd12, hnd3, @keys_disjoint _ _ k2 ?_ ?_⟩
    · intro e he
      rcases List.mem_append.mp he with h | h
      · obtain ⟨n, h1, h3⟩ := hr1 e h
        exact ⟨n, h1, by omega⟩
      · obtain ⟨n, h1, _, h3⟩ := hr2 e h
        exact ⟨n, h1, h3⟩
    · intro e he
      obtain ⟨n, h1, h2, _⟩ := hr3 e he
      exact ⟨n, h1, h2⟩
  have hnodup : (((((E1 ++ E2) ++ E3) ++ E4)).map Prod.fst).Nodup := by
    rw [List.map_append]
    refine List.nodup_append.mpr ⟨hnd123, hnd4, @keys_disjoint _ _ k3 ?_ hr4⟩
    intro e he
    rcases List.mem_append.mp he with h | h
    · rcases List.mem_append.mp h with h2 | h2
      · obtain ⟨n, h1, h3⟩ := hr1 e h2
        exact ⟨n, h1, by omega⟩
      · obtain ⟨n, h1, _, h3⟩ := hr2 e h2
        exact ⟨n, h1, by omega⟩
    · obtain ⟨n, h1, _, h3⟩ := hr3 e h
      exact ⟨n, h1, h3⟩
  have hkeys : ∀ e ∈ ((E1 ++ E2) ++ E3) ++ E4, ∃ n, e.1 = make_placeholder n := by
    intro e he
    rcases List.mem_append.mp he with h | h
    · rcases List.mem_append.mp h with h2 | h2
      · rcases List.mem_append.mp h2 with h3 | h3
        · obtain ⟨n, h1, _⟩ := hr1 e h3
          exact ⟨n, h1⟩
        · obtain ⟨n, h1, _⟩ := hr2 e h3
          exact ⟨n, h1⟩
      · obtain ⟨n, h1, _⟩ := hr3 e h2
        exact ⟨n, h1⟩
    · obtain ⟨n, h1, _⟩ := hr4 e h
      exact ⟨n, h1⟩
  have hcont : ∀ e ∈ ((E1 ++ E2) ++ E3) ++ E4, ∀ c ∈ e.2, c ≠ phPre := by
    intro e he
    rcases List.mem_append.mp he with h | h
    · rcases List.mem_append.mp h with h2 | h2
      · rcases List.mem_append.mp h2 with h3 | h3
        · exact t1_contents items 0 hwf1 e h3
        · exact t2_contents I1 k1 hwf2 e h3
      · exact t3_contents I2 k2 hwf3 e h2
    · exact t4_contents I3 k3 e h
  have hmemE0 : ∀ (X : List Entry), X = E1 ∨ X = E2 ∨ X = E3 ∨ X = E4 →
      ∀ e ∈ X, e ∈ ((E1 ++ E2) ++ E3) ++ E4 := by
    intro X hX e he
    rcases hX with h | h | h | h
    · exact List.mem_append_left _ (List.mem_append_left _ (List.mem_append_left _ (h ▸ he)))
    · exact List.mem_append_left _ (List.mem_append_left _ (List.mem_append_right _ (h ▸ he)))
    · exact List.mem_append_left _ (List.mem_append_right _ (h ▸ he))
    · exact List.mem_append_right _ (h ▸ he)
  have hres1 : ∀ e ∈ E1, (((E1 ++ E2) ++ E3) ++ E4).lookup e.1 = some e.2 :=
    fun e he => lookup_of_mem_nodup _ e (hmemE0 E1 (Or.inl rfl) e he) hnodup
  have hres2 : ∀ e ∈ E2, (((E1 ++ E2) ++ E3) ++ E4).lookup e.1 = some e.2 :=
    fun e he => lookup_of_mem_nodup _ e (hmemE0 E2 (Or.inr (Or.inl rfl)) e he) hnodup
  have hres3 : ∀ e ∈ E3, (((E1 ++ E2) ++ E3) ++ E4).lookup e.1 = some e.2 :=
    fun e he => lookup_of_mem_nodup _ e (hmemE0 E3 (Or.inr (Or.inr (Or.inl rfl))) e he) hnodup
  have hres4 : ∀ e ∈ E4, (((E1 ++ E2) ++ E3) ++ E4).lookup e.1 = some e.2 :=
    fun e he => lookup_of_mem_nodup _ e (hmemE0 E4 (Or.inr (Or.inr (Or.inr rfl))) e he) hnodup
  have hrender : renderP (((E1 ++ E2) ++ E3) ++ E4) I4 = renderDoc items := by
    rw [renderP_t4 I3 k3 _ hres4, renderP_t3 I2 k2 _ hres3, renderP_t2 I1 k1 _ hres2,
      renderP_t1 items 0 _ hres1]
    rw [renderP_no_tok _ items (by
      intro n hn
      have := List.all_eq_true.mp hwf1 _ hn
      exact absurd this (by simp [wfItem]))]
  exact restore_general I4 (((E1 ++ E2) ++ E3) ++ E4) (renderDoc items) hwf5 hkeys hcont
    hnodup hrender (renderDoc_no_phPre items hwf1) hc1 hc2

/-- C9 witness: the identity-backend pipeline reproduces `"hola\nmundo"`
exactly and the validator returns no warnings. -/
theorem c9_amended_witness :
    validate_translation (("hola\nmundo").toList)
      (translate_markdown_file (("hola\nmundo").toList)
        (texts_to_translate (("hola\nmundo").toList))) = [] :=
  c9_amended (("hola\nmundo").toList) (by decide) (by decide)

/-! ## C8: line classification -/

theorem specAux_cons (b : Bool) (l : Str) (ls : List Str) :
    specAux b (l :: ls) =
      (if isFenceLine l then LineType.code
       else if b then LineType.code
       else if (pyStrip l).isEmpty then LineType.pass
       else if tableSepLine (pyStrip l) then LineType.pass
       else if is_ascii_art_line l then LineType.pass
       else LineType.transl) :: specAux (if isFenceLine l then !b else b) ls := by
  unfold specAux
  rw [show (l :: ls).length = ls.length + 1 from rfl, List.range_succ_eq_map,
    List.map_cons, List.map_map]
  congr 1
  · show (if isFenceLine l then LineType.code
      else if xor b (fenceCount ((l :: ls).take 0) % 2 = 1) then LineType.code
      else if (pyStrip l).isEmpty then LineType.pass
      else if tableSepLine (pyStrip l) then LineType.pass
      else if is_ascii_art_line l then LineType.pass
      else LineType.transl) = _
    simp [fenceCount]
  · apply List.map_congr_left
    intro i _
    show (match (l :: ls).get? (i + 1) with
      | none => LineType.pass
      | some l' =>
        if isFenceLine l' then LineType.code
        else if xor b (fenceCount ((l :: ls).take (i + 1)) % 2 = 1) then LineType.code
        else if (pyStrip l').isEmpty then LineType.pass
        else if tableSepLine (pyStrip l') then LineType.pass
        else if is_ascii_art_line l' then LineType.pass
        else LineType.transl) = _
    have hget : (l :: ls).get? (i + 1) = ls.get? i := rfl
    have htake : (l :: ls).take (i + 1) = l :: ls.take i := rfl
    rw [hget, htake]
    have hfc : fenceCount (l :: ls.take i) =
        (if isFenceLine l then 1 else 0) + fenceCount (ls.take i) := by
      by_cases hf : isFenceLine l <;> simp [fenceCount, List.filter_cons, hf] <;> omega
    cases hg : ls.get? i with
    | none => rfl
    | some l' =>
      dsimp only
      have hxor : xor b (decide (fenceCount (l :: ls.take i) % 2 = 1)) =
          xor (if isFenceLine l then !b else b)
            (decide (fenceCount (ls.take i) % 2 = 1)) := by
        rw [hfc]
        by_cases hf : isFenceLine l
        · rw [if_pos hf, if_pos hf]
          by_cases hc : fenceCount (ls.take i) % 2 = 1
          · have h1 : (1 + fenceCount (ls.take i)) % 2 = 0 := by omega
            simp [hc, h1]
          · have h1 : (1 + fenceCount (ls.take i)) % 2 = 1 := by omega
            simp [hc, h1]
        · rw [if_neg hf, if_neg hf]
          simp
      rw [hxor]

theorem classifyAux_eq_specAux :
    ∀ (lines : List Str) (b : Bool), classifyAux b lines = specAux b lines := by
  intro lines
  induction lines with
  | nil => intro b; rfl
  | cons l ls ih =>
    intro b
    rw [specAux_cons]
    unfold classifyAux
    simp only [ih]
    by_cases hf : isFenceLine l
    · simp [hf]
    · by_cases hb : b
      · simp [hf, hb]
      · simp only [hf, Bool.false_eq_true, if_false, hb]
        split_ifs <;> rfl

/-- C8 counterexample: the claim's reference definition diverges from the
code on the line `"::"` (composed solely of colons, so a table separator
per the claim, but not pipe-bounded, so translatable for the code) and on
the line `"x---"` (75% of its characters are in the glyph set that the
leading-glyph test uses, but the density test's set contains neither `-`
nor `*`, so the code classifies it translatable). -/
theorem c8_counterexample :
    claimClassify [("::").toList] = [LineType.pass] ∧
    classifyLines [("::").toList] = [LineType.transl] ∧
    claimClassify [("x---").toList] = [LineType.pass] ∧
    classifyLines [("x---").toList] = [LineType.transl] :=
  ⟨by decide, by decide, by decide, by decide⟩

/-- C8 amended: line classification equals the reference definition in
which the 'inside fenced code' state of a line is the parity of the fence
lines before it (so fence lines plus odd-parity lines are Code, and an
unterminated fence leaves all remaining lines Code); outside code a blank
line, a table-separator line (a line that starts and ends with a pipe and
whose interior — at least one character — is drawn solely from pipes,
dashes, colons and whitespace), or an ASCII-art line — detected either by
the left-trimmed line starting with 3+ characters from the box-drawing
set that includes `-` and `*`, or by more than 40% of the trimmed line's
characters belonging to the box-drawing set that excludes `-` and `*` —
is PassThrough; every remaining line is Translatable. -/
theorem c8_amended : ∀ lines : List Str, classifyLines lines = classifySpecA lines :=
  fun lines => classifyAux_eq_specAux lines false

/-! ## C3: code lines and the reconstruction frame -/

theorem extractAux_mem :
    ∀ (lines : List Str) (types : List LineType) (i0 : Nat) (s : Seg),
      s ∈ extractAux i0 lines types →
      ∃ j, segIdx s = i0 + j ∧ types.get? j = some LineType.transl := by
  intro lines
  induction lines with
  | nil => intro types i0 s h; simp [extractAux] at h
  | cons l ls ih =>
    intro types i0 s h
    cases types with
    | nil => simp [extractAux] at h
    | cons ty tys =>
      rw [extractAux] at h
      rcases List.mem_append.mp h with hl | hr
      · by_cases hty : ty = LineType.transl
        · rw [if_pos hty] at hl
          refine ⟨0, ?_, by rw [hty]; rfl⟩
          dsimp only at hl
          split at hl
          · simp at hl; rw [hl]; rfl
          · split at hl
            · simp at hl
            · simp at hl; rw [hl]; rfl
        · rw [if_neg hty] at hl
          simp at hl
      · obtain ⟨j, hj, ht⟩ := ih tys (i0 + 1) s hr
        exact ⟨j + 1, by omega, ht⟩

theorem assignSegs_idx :
    ∀ (segs : List Seg) (rs : List Str) (s' : Seg), s' ∈ assignSegs segs rs →
      ∃ s ∈ segs, segIdx s' = segIdx s := by
  intro segs
  induction segs with
  | nil => intro rs s' h; simp [assignSegs] at h
  | cons s rest ih =>
    intro rs s' h
    cases s with
    | text i p pt m tr =>
      cases rs with
      | nil =>
        rcases List.mem_cons.mp h with h1 | h1
        · exact ⟨Seg.text i p pt m tr, by simp, by rw [h1]; rfl⟩
        · obtain ⟨s0, hs0, he⟩ := ih [] s' h1
          exact ⟨s0, by simp [hs0], he⟩
      | cons t rs0 =>
        rcases List.mem_cons.mp h with h1 | h1
        · exact ⟨Seg.text i p pt m tr, by simp, by rw [h1]; rfl⟩
        · obtain ⟨s0, hs0, he⟩ := ih rs0 s' h1
          exact ⟨s0, by simp [hs0], he⟩
    | row i p cells =>
      rw [assignSegs] at h
      rcases List.mem_cons.mp h with h1 | h1
      · exact ⟨Seg.row i p cells, by simp, by rw [h1]; rfl⟩
      · obtain ⟨s0, hs0, he⟩ := ih _ s' h1
        exact ⟨s0, by simp [hs0], he⟩

theorem reconLine_idx (s : Seg) : (reconLine s).1 = segIdx s := by
  cases s <;> rfl

theorem applySegs_get? :
    ∀ (segs : List Seg) (lines : List Str) (i : Nat),
      (∀ s ∈ segs, segIdx s ≠ i) →
      (applySegs lines segs).get? i = lines.get? i := by
  intro segs
  induction segs with
  | nil => intro lines i _; rfl
  | cons s rest ih =>
    intro lines i h
    show (applySegs (lines.set (reconLine s).1 (reconLine s).2) rest).get? i = _
    rw [ih _ i fun s' hs' => h s' (by simp [hs'])]
    rw [List.get?_set_ne _ _ (by rw [reconLine_idx]; exact h s (by simp))]

/-- C3 counterexample: a fenced code block containing `"** x**"` — all
three lines are classified Code, the backend is never consulted (empty
work list), yet the emphasis post-pass rewrites the middle code line to
`" **x**"`, so it is not byte-for-byte unchanged at its index. -/
theorem c3_counterexample :
    classifyLines (splitNl (("```\n** x**\n```").toList)) =
      [LineType.code, LineType.code, LineType.code] ∧
    texts_to_translate (("```\n** x**\n```").toList) = [] ∧
    translate_markdown_file (("```\n** x**\n```").toList) [] =
      ("```\n **x**\n```").toList ∧
    (splitNl (("```\n **x**\n```").toList)).get? 1 ≠
      (splitNl (("```\n** x**\n```").toList)).get? 1 :=
  ⟨by decide, by decide, by decide, by decide⟩

/-- C3 amended: for every input document and every possible backend output,
a line classified Code is never overwritten by reconstruction — the
phase-6 output line at a Code index is the original line byte-for-byte;
in the final text it additionally appears unchanged at its original index
whenever the emphasis post-passes leave the reconstructed text unchanged
at the line level (the post-passes do run over code lines, which is what
the counterexample exploits). -/
theorem c3_amended :
    (∀ (content : Str) (results : List Str) (i : Nat),
      (classifyLines (splitNl content)).get? i = some LineType.code →
      (recon_lines content results).get? i = (splitNl content).get? i) ∧
    (∀ (content : Str) (results : List Str) (i : Nat),
      (classifyLines (splitNl content)).get? i = some LineType.code →
      splitNl (translate_markdown_file content results) = recon_lines content results →
      (splitNl (translate_markdown_file content results)).get? i =
        (splitNl content).get? i) := by
  have h1 : ∀ (content : Str) (results : List Str) (i : Nat),
      (classifyLines (splitNl content)).get? i = some LineType.code →
      (recon_lines content results).get? i = (splitNl content).get? i := by
    intro content results i hcode
    unfold recon_lines
    apply applySegs_get?
    intro s' hs' hidx
    obtain ⟨s, hs, he⟩ := assignSegs_idx _ _ s' hs'
    obtain ⟨j, hj, ht⟩ := extractAux_mem _ _ 0 s hs
    rw [he, hj] at hidx
    rw [show j = i from by omega] at ht
    rw [ht] at hcode
    cases hcode
  exact ⟨h1, fun content results i hcode hsplit => by
    rw [hsplit]; exact h1 content results i hcode⟩

/-- C3 witness: both parts of `c3_amended` applied to a concrete fenced
code block whose code line survives the post-passes unchanged. -/
theorem c3_amended_witness :
    (recon_lines (("```\nsome code\n```").toList) []).get? 1 =
      (splitNl (("```\nsome code\n```").toList)).get? 1 ∧
    (splitNl (translate_markdown_file (("```\nsome code\n```").toList) [])).get? 1 =
      (splitNl (("```\nsome code\n```").toList)).get? 1 :=
  ⟨c3_amended.1 (("```\nsome code\n```").toList) [] 1 (by decide),
   c3_amended.2 (("```\nsome code\n```").toList) [] 1 (by decide) (by decide)⟩

/-! ## C2: positional mapping of backend results -/

theorem assignCells_append (cells : List Cell) (rs extra : List Str)
    (h : (cells.filter fun c => !c.text.isEmpty).length ≤ rs.length) :
    assignCells cells (rs ++ extra) =
      ((assignCells cells rs).1, (assignCells cells rs).2 ++ extra) := by
  induction cells generalizing rs with
  | nil => rfl
  | cons c cs ih =>
    by_cases hc : c.text.isEmpty
    · have hf : (List.filter (fun c => !c.text.isEmpty) (c :: cs)).length =
          (List.filter (fun c => !c.text.isEmpty) cs).length := by
        simp [List.filter_cons, hc]
      rw [hf] at h
      simp only [assignCells, hc, if_true]
      rw [ih rs h]
    · have hf : (List.filter (fun c => !c.text.isEmpty) (c :: cs)).length =
          (List.filter (fun c => !c.text.isEmpty) cs).length + 1 := by
        simp [List.filter_cons, hc]
      rw [hf] at h
      cases rs with
      | nil => simp at h
      | cons t rs0 =>
        show assignCells (c :: cs) (t :: (rs0 ++ extra)) = _
        simp only [assignCells, hc, Bool.false_eq_true, if_false]
        rw [ih rs0 (by simpa using h)]

theorem assignCells_len (cells : List Cell) (rs : List Str)
    (h : (cells.filter fun c => !c.text.isEmpty).length ≤ rs.length) :
    (assignCells cells rs).2.length +
      (cells.filter fun c => !c.text.isEmpty).length = rs.length := by
  induction cells generalizing rs with
  | nil => simp [assignCells]
  | cons c cs ih =>
    by_cases hc : c.text.isEmpty
    · have hf : (List.filter (fun c => !c.text.isEmpty) (c :: cs)).length =
          (List.filter (fun c => !c.text.isEmpty) cs).length := by
        simp [List.filter_cons, hc]
      rw [hf] at h ⊢
      simpa [assignCells, hc] using ih rs h
    · have hf : (List.filter (fun c => !c.text.isEmpty) (c :: cs)).length =
          (List.filter (fun c => !c.text.isEmpty) cs).length + 1 := by
        simp [List.filter_cons, hc]
      rw [hf] at h ⊢
      cases rs with
      | nil => simp at h
      | cons t rs0 =>
        simp only [assignCells, hc, Bool.false_eq_true, if_false]
        have := ih rs0 (by simpa using h)
        simp only [List.length_cons]
        omega

theorem assignSegs_append (segs : List Seg) (rs extra : List Str)
    (h : (segTexts segs).length ≤ rs.length) :
    assignSegs segs (rs ++ extra) = assignSegs segs rs := by
  induction segs generalizing rs with
  | nil => rfl
  | cons s rest ih =>
    cases s with
    | text i p pt m tr =>
      cases rs with
      | nil => simp [segTexts] at h
      | cons t rs0 =>
        show assignSegs (Seg.text i p pt m tr :: rest) (t :: (rs0 ++ extra)) = _
        simp only [assignSegs]
        rw [ih rs0 (by simpa [segTexts] using h)]
    | row i p cells =>
      have hlen : (cells.filter fun c => !c.text.isEmpty).length ≤ rs.length := by
        simp only [segTexts, List.length_append, List.length_map] at h
        omega
      simp only [assignSegs]
      rw [assignCells_append cells rs extra hlen]
      have hrest : (segTexts rest).length ≤ (assignCells cells rs).2.length := by
        have := assignCells_len cells rs hlen
        simp only [segTexts, List.length_append, List.length_map] at h
        omega
      rw [ih _ hrest]

/-- C2 counterexample: on the two-line document `"hola\nmundo"` the work
list has two entries; handing the engine a single-result list does not
abort — the result is attached to the first segment by position and the
second line is left untranslated. -/
theorem c2_counterexample :
    (texts_to_translate (("hola\nmundo").toList)).length = 2 ∧
    translate_markdown_file (("hola\nmundo").toList) [("HELLO").toList] =
      ("HELLO\nmundo").toList :=
  ⟨by decide, by decide⟩

/-- C2 amended: the engine never fails fast on a length mismatch — phase 5
zips the work list with the returned results, so results are consumed
positionally: results beyond the work-list length are silently ignored
(appending surplus results leaves the output unchanged), and segments
beyond the result list keep their untranslated protected text. -/
theorem c2_amended (content : Str) (results extra : List Str)
    (h : results.length = (texts_to_translate content).length) :
    translate_markdown_file content (results ++ extra) =
      translate_markdown_file content results := by
  unfold translate_markdown_file recon_lines
  dsimp only
  rw [assignSegs_append _ _ extra (by rw [h]; exact le_refl _)]

/-- C2 witness: surplus results after a full-length result list are ignored
on the concrete document `"hola"`. -/
theorem c2_amended_witness :
    translate_markdown_file (("hola").toList) ([("X").toList] ++ [("Y").toList]) =
      translate_markdown_file (("hola").toList) [("X").toList] :=
  c2_amended (("hola").toList) [("X").toList] [("Y").toList] (by decide)

/-! ## C4: lossless reconstruction of a line from its segment -/

theorem matchHeading_sound (t p r : Str) (h : matchHeading t = some (p, r)) :
    p ++ r = t := by
  unfold matchHeading at h
  dsimp only at h
  split at h
  · cases h
  · split at h
    · cases h
    · cases h
      rw [List.append_assoc, takeWhile_append_drop, takeWhile_append_drop]

theorem matchBlockquote_sound (t p r : Str) (h : matchBlockquote t = some (p, r)) :
    p ++ r = t := by
  unfold matchBlockquote at h
  dsimp only at h
  split at h
  · rename_i r1 heq
    cases h
    rw [List.append_assoc, List.cons_append, takeWhile_append_drop, ← heq,
      takeWhile_append_drop]
  · cases h

theorem matchListMarker_sound (t p r : Str) (h : matchListMarker t = some (p, r)) :
    p ++ r = t := by
  unfold matchListMarker at h
  dsimp only at h
  split at h
  · rename_i m r0 heq
    split at h
    · split at h
      · cases h
      · cases h
        rw [List.append_assoc, List.cons_append, takeWhile_append_drop isWsPy r0,
          ← heq, takeWhile_append_drop]
    · split at h
      · cases h
      · split at h
        · rename_i r2 heq2
          split at h
          · cases h
          · cases h
            rw [List.append_assoc, List.append_assoc, List.cons_append,
              takeWhile_append_drop isWsPy r2, ← heq2,
              takeWhile_append_drop isDigitChar, takeWhile_append_drop]
        · cases h
  · cases h

theorem extractPfx_sound (line : Str) :
    (extractPfx line).1 ++ (extractPfx line).2 = line := by
  unfold extractPfx
  dsimp only
  cases hh : matchHeading line with
  | none =>
    dsimp only
    cases hb : matchBlockquote line with
    | none =>
      dsimp only
      cases hl : matchListMarker line with
      | none => simp
      | some pl =>
        obtain ⟨p1, p2⟩ := pl
        dsimp only
        simp only [List.nil_append]
        exact matchListMarker_sound line p1 p2 hl
    | some pb =>
      obtain ⟨b1, b2⟩ := pb
      dsimp only
      have h1 := matchBlockquote_sound line b1 b2 hb
      cases hl : matchListMarker b2 with
      | none => dsimp only; simp only [List.nil_append]; exact h1
      | some pl =>
        obtain ⟨p1, p2⟩ := pl
        dsimp only
        simp only [List.nil_append]
        rw [List.append_assoc, matchListMarker_sound b2 p1 p2 hl, h1]
  | some ph =>
    obtain ⟨h1', h2'⟩ := ph
    dsimp only
    have h0 := matchHeading_sound line h1' h2' hh
    cases hb : matchBlockquote h2' with
    | none =>
      dsimp only
      cases hl : matchListMarker h2' with
      | none => dsimp only; exact h0
      | some pl =>
        obtain ⟨p1, p2⟩ := pl
        dsimp only
        have h2 := matchListMarker_sound h2' p1 p2 hl
        rw [List.append_assoc, h2, h0]
    | some pb =>
      obtain ⟨b1, b2⟩ := pb
      dsimp only
      have h1 := matchBlockquote_sound h2' b1 b2 hb
      cases hl : matchListMarker b2 with
      | none =>
        dsimp only
        rw [List.append_assoc, h1, h0]
      | some pl =>
        obtain ⟨p1, p2⟩ := pl
        dsimp only
        have h2 := matchListMarker_sound b2 p1 p2 hl
        rw [List.append_assoc, List.append_assoc, h2, h1, h0]

theorem splitOnChar_ne_nil (sep : Char) (s : Str) : splitOnChar sep s ≠ [] := by
  cases s with
  | nil => simp [splitOnChar]
  | cons c t =>
    unfold splitOnChar
    by_cases hc : c = sep
    · simp [hc]
    · rw [if_neg hc]
      cases h : splitOnChar sep t with
      | nil => simp
      | cons a l => simp

theorem intercalate_cons_ne (x a : Str) (l : List Str) (hl : l ≠ []) :
    List.intercalate x (a :: l) = a ++ x ++ List.intercalate x l := by
  cases l with
  | nil => exact absurd rfl hl
  | cons b t => simp [List.intercalate, List.intersperse]

theorem intercalate_splitOnChar (sep : Char) :
    ∀ s : Str, List.intercalate [sep] (splitOnChar sep s) = s := by
  intro s
  induction s with
  | nil => rfl
  | cons c t ih =>
    unfold splitOnChar
    by_cases hc : c = sep
    · rw [if_pos hc, intercalate_cons_ne _ _ _ (splitOnChar_ne_nil sep t), ih, hc]
      rfl
    · rw [if_neg hc]
      cases h : splitOnChar sep t with
      | nil => exact absurd h (splitOnChar_ne_nil sep t)
      | cons a l =>
        rw [h] at ih
        cases l with
        | nil =>
          have ha : a = t := by
            simpa [List.intercalate, List.intersperse] using ih
          simp [List.intercalate, List.intersperse, ha]
        | cons b u =>
          rw [intercalate_cons_ne _ _ _ (by simp)] at ih
          rw [intercalate_cons_ne _ _ _ (by simp)]
          simp only [List.cons_append]
          rw [ih]

/-- C4 counterexample: the stored cells of a table-row segment are the
stripped cell texts, and the structural prefix is dropped on
reconstruction, so rejoining the stored cells with pipes (with the prefix)
does not reproduce the original line: `"| a  |"` (two trailing spaces in
the middle cell) rejoins to `"|a|"`, and the blockquoted row
`"> | a | b |"` comes back as `"| a | b |"` without its `"> "` prefix even
under an identity backend. -/
theorem c4_counterexample :
    extractAux 0 [("| a  |").toList] (classifyLines [("| a  |").toList]) =
      [Seg.row 0 [] (mkCells (splitPipe (("| a  |").toList)))] ∧
    (mkCells (splitPipe (("| a  |").toList))).map (fun c => c.text) =
      [[], ("a").toList, []] ∧
    List.intercalate ['|'] ((mkCells (splitPipe (("| a  |").toList))).map fun c => c.text) ≠
      ("| a  |").toList ∧
    translate_markdown_file (("> | a | b |").toList)
        (texts_to_translate (("> | a | b |").toList)) = ("| a | b |").toList :=
  ⟨by decide, by decide, by decide, by decide⟩

/-- C4 amended: a translatable line reconstructs losslessly from its
segment **before cell trimming**: for a text segment the stored prefix
plus the (un-protected) body is exactly the original line, and for a
table-row line the stored prefix plus the raw pipe-split cells rejoined
with pipes is exactly the original line.  (The stored cells themselves are
the stripped cell texts, and reconstruction re-emits them with
single-space padding and without the prefix, so the stored — trimmed —
cells only reconstruct a whitespace-normalized row.) -/
theorem c4_amended :
    (∀ line : Str, (extractPfx line).1 ++ (extractPfx line).2 = line) ∧
    (∀ line : Str,
      (extractPfx line).1 ++
        List.intercalate ['|'] (splitPipe (extractPfx line).2) = line) := by
  refine ⟨extractPfx_sound, fun line => ?_⟩
  show (extractPfx line).1 ++
      List.intercalate ['|'] (splitOnChar '|' (extractPfx line).2) = line
  rw [intercalate_splitOnChar]
  exact extractPfx_sound line

/-- C6: a table row is rebuilt by emitting each originally non-empty cell
as `" " + restored + " "`, each originally empty cell as the empty string,
joining the cells with single pipes, and guaranteeing the resulting line
starts and ends with a pipe (for every possible translation of the cells);
the literal row `"| a |  | b |"` reconstructs under an identity backend as
`"| a || b |"`, with exactly one pipe between each adjacent pair of cells
and the leading and trailing pipes intact. -/
theorem c6_table_row_rebuild :
    (∀ (i : Nat) (pfx : Str) (cells : List Cell),
      (reconLine (Seg.row i pfx cells)).2 = ensurePipes (rowJoin cells) ∧
      (reconLine (Seg.row i pfx cells)).2.head? = some '|' ∧
      (reconLine (Seg.row i pfx cells)).2.getLast? = some '|') ∧
    translate_markdown_file (("| a |  | b |").toList)
        (texts_to_translate (("| a |  | b |").toList)) = ("| a || b |").toList := by
  refine ⟨?_, by decide⟩
  intro i pfx cells
  exact ⟨rfl, ensurePipes_head _, ensurePipes_last _⟩

/-- C1 counterexample: protect and restore are not exact inverses on every
text.  For "`[a](b)`" — a link nested inside an inline code span — the
code pass protects the span after the link pass has already replaced the
link with placeholder tokens, so the tokens are frozen inside the stored
code content and restoration (longest-key-first, with equal-length keys in
insertion order) yields "`⟨0⟩a⟨1⟩`", not the original.  For the plain
text "a,,b" — a literal comma sequence with no markup at all — the
restoration's comma cleanup rewrites it to "a,b". -/
theorem c1_counterexample :
    restore_placeholders (protect_inline_elements (("`[a](b)`").toList)).1
        (protect_inline_elements (("`[a](b)`").toList)).2 ≠ ("`[a](b)`").toList ∧
    restore_placeholders (protect_inline_elements (("a,,b").toList)).1
        (protect_inline_elements (("a,,b").toList)).2 ≠ ("a,,b").toList :=
  ⟨by decide, by decide⟩

/-- C1 (amended): `protect_inline_elements` and `restore_placeholders` are
exact inverses for every text assembled from the nested-markup-free
grammar — a concatenation of plain prose runs, inline code spans, links,
bold spans and bold-wrapped links whose contents avoid the markup
metacharacters `*`, `[`, the backtick and the placeholder delimiters
(link display texts additionally `]`-free, urls nonempty and `)`-free,
bold contents nonempty and newline-free, code contents nonempty), with no
bold span immediately followed by a link — provided the text is a
fixpoint of the two comma-cleanup substitutions.  Texts with nested markup
or literal comma sequences are excluded: the counterexample shows the
round trip mutates both. -/
theorem c1_amended (items : List MItem) (hwf : wfDoc items = true)
    (hc1 : commaSub1 (renderDoc items).length (renderDoc items) = renderDoc items)
    (hc2 : commaSub2 (renderDoc items).length (renderDoc items) = renderDoc items) :
    restore_placeholders (protect_inline_elements (renderDoc items)).1
      (protect_inline_elements (renderDoc items)).2 = renderDoc items := by
  rw [protect_correct items hwf]
  exact restore_correct items hwf hc1 hc2

/-- C1 witness: the round trip is exact on the concrete document
"**hola** y `x=1`[doc](a/b) fin**[z](q)**", which uses every grammar
production. -/
theorem c1_amended_witness :
    wfDoc sampleDoc = true ∧
    restore_placeholders (protect_inline_elements (renderDoc sampleDoc)).1
      (protect_inline_elements (renderDoc sampleDoc)).2 = renderDoc sampleDoc :=
  ⟨by decide, c1_amended sampleDoc (by decide) (by decide) (by decide)⟩

end TransDocs
